import Mathlib

/-!
# pvDataCPP: ByteBuffer and BasePVByteArray

A shallow embedding of `pvDataApp/misc/byteBuffer.cpp` and
`pvDataApp/factory/BasePVByteArray.h`, followed by theorems about it.

Conventions of the embedding.

* A C++ `int` is an `Int`.  The sums and differences of `int` that
  `BasePVByteArray::get` and `BasePVByteArray::put` form from their arguments
  are reduced to 32 bits by `wrap32`: signed overflow is undefined behaviour
  in the source language, and the embedding takes the two's-complement result
  of the 32-bit machine addition.  The fixed-width values stored into a buffer
  are reduced modulo `2 ^ w` explicitly.
* A `char` cell of memory is a `Nat` holding the raw byte (`0 .. 255`).
* A thrown exception is an `Except.error` carrying its message; a method of
  `ByteBuffer`, and likewise `setCapacity` and `put` of `BasePVByteArray`,
  returns the outcome together with the object as it is left by the call, so
  that the state after a failed call is observable.
* A `while(true)` loop that waits on a collaborator is run with a fuel
  counter and returns `none` when the fuel runs out.
-/

namespace pvData

deriving instance DecidableEq for Except

/-! ## Definitions: byte order and the in-memory form of a value -/

/-- Modelled from the spec: the little-endian constant of the absent header
`epicsEndian.h`; one of the two recognised byte orders. -/
def EPICS_ENDIAN_LITTLE : Int := 1234

/-- Modelled from the spec: the big-endian constant of the absent header
`epicsEndian.h`; the other recognised byte order. -/
def EPICS_ENDIAN_BIG : Int := 4321

/-- The `k` low-order base-256 digits of `n`, least significant first. -/
def leBytes : Nat → Nat → List Nat
  | 0, _ => []
  | k + 1, n => (n % 256) :: leBytes k (n / 256)

/-- The number whose base-256 digits, least significant first, are `bs`. -/
def ofLeBytes : List Nat → Nat
  | [] => 0
  | x :: xs => x + 256 * ofLeBytes xs

/-- The `k` bytes that a host of byte order `native` (the value of
`EPICS_BYTE_ORDER`) keeps in memory for the bit pattern `u`: what
`(char*)&value` points at. -/
def toMem (native : Int) (k : Nat) (u : Nat) : List Nat :=
  if native = EPICS_ENDIAN_BIG then (leBytes k u).reverse else leBytes k u

/-- The bit pattern that a host of byte order `native` reads out of the
in-memory bytes `bs`. -/
def fromMem (native : Int) (bs : List Nat) : Nat :=
  if native = EPICS_ENDIAN_BIG then ofLeBytes bs.reverse else ofLeBytes bs

/-- Bit pattern of a signed `w`-bit integer (two's complement). -/
def toUnsigned (w : Nat) (v : Int) : Nat := (v % 2 ^ w).toNat

/-- Signed value of a `w`-bit pattern (two's complement). -/
def toSigned (w : Nat) (u : Nat) : Int :=
  if u < 2 ^ (w - 1) then (u : Int) else (u : Int) - 2 ^ w

/-- The value of a 32-bit `int` expression whose exact result is `x`: the
representative of `x` modulo `2 ^ 32` in `-2 ^ 31 .. 2 ^ 31 - 1`. -/
def wrap32 (x : Int) : Int := (x + 2147483648) % 4294967296 - 2147483648

/-- The integer `x` is a value of the 32-bit type `int`. -/
def IsInt32 (x : Int) : Prop := -2147483648 ≤ x ∧ x ≤ 2147483647

instance (x : Int) : Decidable (IsInt32 x) :=
  inferInstanceAs (Decidable (-2147483648 ≤ x ∧ x ≤ 2147483647))

/-! ## Definitions: ByteBuffer -/

/-- The fields of `ByteBuffer`; `buffer` is the `char` array `_buffer`. -/
structure ByteBuffer where
  bufferByteOrder : Int
  size : Int
  position : Int
  limit : Int
  buffer : List Nat
deriving DecidableEq, Repr

/-- A block of `char`/`int8` cells reached through a raw pointer.  `fault` is
a ghost flag: it is raised when a store falls outside the allocated cells,
which is undefined behaviour in the source language. -/
structure Mem where
  cells : List Nat
  fault : Bool
deriving DecidableEq, Repr

/-- The assignment `m[i] = x`. -/
def Mem.store (m : Mem) (i : Int) (x : Nat) : Mem :=
  if 0 ≤ i ∧ i < m.cells.length then { m with cells := m.cells.set i.toNat x }
  else { m with fault := true }

/-- The read `m[i]`; a read outside the block yields an arbitrary byte, here 0. -/
def Mem.load (m : Mem) (i : Int) : Nat :=
  if 0 ≤ i then m.cells.getD i.toNat 0 else 0

namespace ByteBuffer

/-- The constructor `ByteBuffer(size, byteOrder)`; the fresh storage of
`new char[_size]` is taken to be zero-filled. -/
def new (size byteOrder : Int) : Except String ByteBuffer :=
  if size < 0 then .error "negative size"
  else if byteOrder ≠ EPICS_ENDIAN_BIG ∧ byteOrder ≠ EPICS_ENDIAN_LITTLE then
    .error "invalid endian"
  else .ok { bufferByteOrder := byteOrder, size := size, position := 0,
             limit := size, buffer := List.replicate size.toNat 0 }

def clear (b : ByteBuffer) : ByteBuffer :=
  { b with position := 0, limit := b.size }

def flip (b : ByteBuffer) : ByteBuffer :=
  { b with limit := b.position, position := 0 }

def rewind (b : ByteBuffer) : ByteBuffer :=
  { b with position := 0 }

/-- Modelled from the spec: `getRemaining()` of the absent header
`byteBuffer.h`, the count of bytes between position and limit. -/
def getRemaining (b : ByteBuffer) : Int := b.limit - b.position

/-- The expression `_buffer[_position++]` as a read: the byte under the
cursor and the buffer with the cursor advanced. -/
def next (b : ByteBuffer) : Nat × ByteBuffer :=
  (b.buffer.getD b.position.toNat 0, { b with position := b.position + 1 })

/-- The statement `_buffer[_position++] = x`. -/
def store (b : ByteBuffer) (x : Nat) : ByteBuffer :=
  { b with buffer := b.buffer.set b.position.toNat x, position := b.position + 1 }

def getBoolean (b : ByteBuffer) : Except String Bool × ByteBuffer :=
  if b.position < b.limit then
    (.ok (if b.next.1 = 0 then false else true), b.next.2)
  else (.error "buffer underflow", b)

def getByte (b : ByteBuffer) : Except String Int × ByteBuffer :=
  if b.position < b.limit then (.ok (toSigned 8 b.next.1), b.next.2)
  else (.error "buffer underflow", b)

/-- One step of either loop of `getWithEndianness`: `dest[i] = _buffer[_position++]`. -/
def getStep (s : List Nat × ByteBuffer) (i : Nat) : List Nat × ByteBuffer :=
  (s.1.set i s.2.next.1, s.2.next.2)

/-- The private `getWithEndianness(dest, size)`; `native` is `EPICS_BYTE_ORDER`. -/
def getWithEndianness (native : Int) (b : ByteBuffer) (dest : List Nat) (size : Nat) :
    List Nat × ByteBuffer :=
  if b.bufferByteOrder = native then
    (List.range size).foldl getStep (dest, b)
  else
    (List.range size).reverse.foldl getStep (dest, b)

/-- The private `putWithEndianness(src, size)`; `native` is `EPICS_BYTE_ORDER`. -/
def putWithEndianness (native : Int) (b : ByteBuffer) (src : List Nat) (size : Nat) :
    ByteBuffer :=
  if b.bufferByteOrder = native then
    (List.range size).foldl (fun acc i => acc.store (src.getD i 0)) b
  else
    (List.range size).reverse.foldl (fun acc i => acc.store (src.getD i 0)) b

def getShort (native : Int) (b : ByteBuffer) : Except String Int × ByteBuffer :=
  if b.limit - b.position < 2 then (.error "buffer underflow", b)
  else
    let r := b.getWithEndianness native (List.replicate 2 0) 2
    (.ok (toSigned 16 (fromMem native r.1)), r.2)

def getInt (native : Int) (b : ByteBuffer) : Except String Int × ByteBuffer :=
  if b.limit - b.position < 4 then (.error "buffer underflow", b)
  else
    let r := b.getWithEndianness native (List.replicate 4 0) 4
    (.ok (toSigned 32 (fromMem native r.1)), r.2)

def getLong (native : Int) (b : ByteBuffer) : Except String Int × ByteBuffer :=
  if b.limit - b.position < 8 then (.error "buffer underflow", b)
  else
    let r := b.getWithEndianness native (List.replicate 8 0) 8
    (.ok (toSigned 64 (fromMem native r.1)), r.2)

/-- The method `getFloat`; the `float` is carried as its 32-bit pattern. -/
def getFloat (native : Int) (b : ByteBuffer) : Except String Nat × ByteBuffer :=
  if b.limit - b.position < 4 then (.error "buffer underflow", b)
  else
    let r := b.getWithEndianness native (List.replicate 4 0) 4
    (.ok (fromMem native r.1), r.2)

/-- The method `getDouble`; the `double` is carried as its 64-bit pattern. -/
def getDouble (native : Int) (b : ByteBuffer) : Except String Nat × ByteBuffer :=
  if b.limit - b.position < 8 then (.error "buffer underflow", b)
  else
    let r := b.getWithEndianness native (List.replicate 8 0) 8
    (.ok (fromMem native r.1), r.2)

/-- One step of the loop of `get(dst, offset, count)`:
`dst[offset+i] = _buffer[_position++]`. -/
def getBulkStep (offset : Int) (s : Mem × ByteBuffer) (i : Nat) : Mem × ByteBuffer :=
  (s.1.store (offset + i) s.2.next.1, s.2.next.2)

/-- The bulk `get(char* dst, int offset, int count)`. -/
def get (b : ByteBuffer) (dst : Mem) (offset count : Int) : Except String Mem × ByteBuffer :=
  if count > b.getRemaining then (.error "buffer underflow", b)
  else
    let r := (List.range count.toNat).foldl (getBulkStep offset) (dst, b)
    (.ok r.1, r.2)

/-- The bulk `put(const char* src, int offset, int count)`. -/
def put (b : ByteBuffer) (src : Mem) (offset count : Int) : Except String Unit × ByteBuffer :=
  if count > b.getRemaining then (.error "buffer overflow", b)
  else
    (.ok (), (List.range count.toNat).foldl
      (fun acc (i : Nat) => acc.store (src.load (offset + i))) b)

def putBoolean (b : ByteBuffer) (value : Bool) : Except String Unit × ByteBuffer :=
  if b.position < b.limit then (.ok (), b.store (if value then 1 else 0))
  else (.error "buffer overflow", b)

def putByte (b : ByteBuffer) (value : Int) : Except String Unit × ByteBuffer :=
  if b.position < b.limit then (.ok (), b.store (toUnsigned 8 value))
  else (.error "buffer overflow", b)

def putShort (native : Int) (b : ByteBuffer) (value : Int) : Except String Unit × ByteBuffer :=
  if b.limit - b.position < 2 then (.error "buffer overflow", b)
  else (.ok (), b.putWithEndianness native (toMem native 2 (toUnsigned 16 value)) 2)

def putInt (native : Int) (b : ByteBuffer) (value : Int) : Except String Unit × ByteBuffer :=
  if b.limit - b.position < 4 then (.error "buffer overflow", b)
  else (.ok (), b.putWithEndianness native (toMem native 4 (toUnsigned 32 value)) 4)

def putLong (native : Int) (b : ByteBuffer) (value : Int) : Except String Unit × ByteBuffer :=
  if b.limit - b.position < 8 then (.error "buffer overflow", b)
  else (.ok (), b.putWithEndianness native (toMem native 8 (toUnsigned 64 value)) 8)

/-- The method `putFloat`; the `float` is carried as its 32-bit pattern. -/
def putFloat (native : Int) (b : ByteBuffer) (value : Nat) : Except String Unit × ByteBuffer :=
  if b.limit - b.position < 4 then (.error "buffer overflow", b)
  else (.ok (), b.putWithEndianness native (toMem native 4 value) 4)

/-- The method `putDouble`; the `double` is carried as its 64-bit pattern. -/
def putDouble (native : Int) (b : ByteBuffer) (value : Nat) : Except String Unit × ByteBuffer :=
  if b.limit - b.position < 8 then (.error "buffer overflow", b)
  else (.ok (), b.putWithEndianness native (toMem native 8 value) 8)

/-- The cursor invariant `0 ≤ position ≤ limit ≤ size`. -/
def CursorInv (b : ByteBuffer) : Prop :=
  0 ≤ b.position ∧ b.position ≤ b.limit ∧ b.limit ≤ b.size

/-- The storage has exactly `size` cells, as allocated by the constructor. -/
def Allocated (b : ByteBuffer) : Prop :=
  0 ≤ b.size ∧ (b.buffer.length : Int) = b.size

/-- The bytes written so far: the cells before the cursor. -/
def written (b : ByteBuffer) : List Nat := b.buffer.take b.position.toNat

/-- The bytes still to be read: the cells from the cursor up to the limit. -/
def unread (b : ByteBuffer) : List Nat :=
  (b.buffer.take b.limit.toNat).drop b.position.toNat

end ByteBuffer

/-! ## Definitions: BasePVByteArray -/

/-- The state of a `BasePVByteArray`: the private `int8 *value` together with
what the absent base classes `PVArray` and `PVField` keep for it.  `messages`
is the report channel of `PVField::message`, and `postPuts` counts the
calls of `PVField::postPut`. -/
structure BasePVByteArray where
  value : Mem
  capacity : Int
  length : Int
  immutable : Bool
  capacityMutable : Bool
  messages : List String
  postPuts : Nat
deriving DecidableEq, Repr

/-- The out-parameter of `get`: a view of the internal buffer. -/
structure ByteArrayData where
  data : Mem
  offset : Int
deriving DecidableEq, Repr

namespace BasePVByteArray

/-- Modelled from the spec: the array as it is created by the constructor,
`value(new int8[0])` with capacity 0 and length 0 kept by the absent
`PVArray`, neither flag restricting it. -/
def fresh : BasePVByteArray :=
  { value := { cells := [], fault := false }, capacity := 0, length := 0,
    immutable := false, capacityMutable := true, messages := [], postPuts := 0 }

/-- Modelled from the spec: `PVArray::getCapacity` of the absent PVArray.cpp. -/
def getCapacity (a : BasePVByteArray) : Int := a.capacity

/-- Modelled from the spec: `PVArray::getLength` of the absent PVArray.cpp. -/
def getLength (a : BasePVByteArray) : Int := a.length

/-- Modelled from the spec: `PVArray::isCapacityMutable` of the absent PVArray.cpp. -/
def isCapacityMutable (a : BasePVByteArray) : Bool := a.capacityMutable

/-- Modelled from the spec: `PVField::isImmutable` of the absent PVField.cpp. -/
def isImmutable (a : BasePVByteArray) : Bool := a.immutable

/-- Modelled from the spec: `PVArray::setCapacityLength` of the absent
PVArray.cpp, which records the new capacity and length. -/
def setCapacityLength (a : BasePVByteArray) (capacity length : Int) : BasePVByteArray :=
  { a with capacity := capacity, length := length }

/-- Modelled from the spec: `PVArray::setLength` of the absent PVArray.cpp,
which sets the logical length. -/
def setLength (a : BasePVByteArray) (length : Int) : BasePVByteArray :=
  { a with length := length }

/-- Modelled from the spec: `PVField::message` of the absent PVField.cpp, a
non-throwing report on the message channel. -/
def message (a : BasePVByteArray) (msg : String) : BasePVByteArray :=
  { a with messages := a.messages ++ [msg] }

/-- Modelled from the spec: `PVField::postPut` of the absent PVField.cpp, the
value-changed notification. -/
def postPut (a : BasePVByteArray) : BasePVByteArray :=
  { a with postPuts := a.postPuts + 1 }

/-- The method `setCapacity(capacity)`: the outcome and the array after the
call.  The allocation `new int8[capacity]` throws for a negative `capacity`,
before any member has been changed; for `capacity ≥ 0` it is taken to succeed
and its cells to be zero-filled. -/
def setCapacity (a : BasePVByteArray) (capacity : Int) :
    Except String Unit × BasePVByteArray :=
  if a.getCapacity = capacity then (.ok (), a)
  else if !a.isCapacityMutable then (.ok (), a.message "not capacityMutable")
  else
    let length := if a.getLength > capacity then capacity else a.getLength
    if capacity < 0 then (.error "std::bad_alloc", a)
    else
      let newValue : Mem :=
        { cells := List.replicate capacity.toNat 0, fault := a.value.fault }
      let newValue :=
        (List.range length.toNat).foldl
          (fun m (i : Nat) => m.store i (a.value.load i)) newValue
      (.ok (), ({ a with value := newValue }).setCapacityLength capacity length)

/-- The method `get(offset, len, data)`: the returned count, the view stored
into `data`, and the array after the call. -/
def get (a : BasePVByteArray) (offset len : Int) : Int × ByteArrayData × BasePVByteArray :=
  let length := a.getLength
  let n := if wrap32 (offset + len) > length then
      (if wrap32 (length - offset) < 0 then 0 else wrap32 (length - offset))
    else len
  (n, { data := a.value, offset := offset }, a)

/-- The tail of `put`: the copy loop, `setLength`, `postPut`, `return len`. -/
def putCopy (a : BasePVByteArray) (offset len : Int) (src : Mem) (fromOffset : Int)
    (length : Int) : Except String Int × BasePVByteArray :=
  let value := (List.range len.toNat).foldl
    (fun m (i : Nat) => m.store (wrap32 (i + offset)) (src.load (wrap32 (i + fromOffset))))
    a.value
  (.ok len, (({ a with value := value }).setLength length).postPut)

/-- The method `put(offset, len, from, fromOffset)`: the outcome, which is the
returned count unless `setCapacity` threw, and the array after the call.
`fromIsValue` is the outcome of the pointer comparison `from==value`. -/
def put (a : BasePVByteArray) (offset len : Int) (src : Mem) (fromIsValue : Bool)
    (fromOffset : Int) : Except String Int × BasePVByteArray :=
  if a.isImmutable then (.ok 0, a.message "field is immutable")
  else if fromIsValue then (.ok len, a)
  else if len < 1 then (.ok 0, a)
  else
    let length := a.getLength
    let capacity := a.getCapacity
    if wrap32 (offset + len) > length then
      let newlength := wrap32 (offset + len)
      if newlength > capacity then
        match a.setCapacity newlength with
        | (.error e, a1) => (.error e, a1)
        | (.ok _, a1) =>
          let newlength := a1.getCapacity
          let len := wrap32 (newlength - offset)
          if len ≤ 0 then (.ok 0, a1)
          else a1.putCopy offset len src fromOffset newlength
      else a.putCopy offset len src fromOffset newlength
    else a.putCopy offset len src fromOffset length

/-- The method `shareData(shareValue, capacity, length)`. -/
def shareData (a : BasePVByteArray) (shareValue : Mem) (capacity length : Int) :
    BasePVByteArray :=
  ({ a with value := shareValue }).setCapacityLength capacity length

/-- The inner `for` loop of `serialize`, run for `n` elements from index `i`:
`pbuffer->putByte(value[i])`. -/
def putElements (value : Mem) : Nat → Int → ByteBuffer → Except String ByteBuffer
  | 0, _, b => .ok b
  | n + 1, i, b =>
    match b.putByte (toSigned 8 (value.load i)) with
    | (.ok _, b1) => putElements value n (i + 1) b1
    | (.error e, _) => .error e

/-- The `while(true)` loop of `serialize`.  `flush` is
`pflusher->flushSerializeBuffer()` acting on the buffer and on the state `σ`
of the collaborator; `stop` is the local `end`. -/
def serializeLoop {σ : Type} (flush : ByteBuffer × σ → Except String (ByteBuffer × σ))
    (value : Mem) (stop : Int) :
    Nat → Int → ByteBuffer × σ → Option (Except String (ByteBuffer × σ))
  | 0, _, _ => none
  | fuel + 1, i, s =>
    let maxIndex := min (stop - i) s.1.getRemaining + i
    match putElements value (maxIndex - i).toNat i s.1 with
    | .error e => some (.error e)
    | .ok b1 =>
      let i1 := if i < maxIndex then maxIndex else i
      if i1 < stop then
        match flush (b1, s.2) with
        | .error e => some (.error e)
        | .ok s1 => serializeLoop flush value stop fuel i1 s1
      else some (.ok (b1, s.2))

/-- The part of `serialize(pbuffer, pflusher, offset, count)` under its
comment `// write`, entered with the checked `offset` and `count`.
`writeSize` is `SerializeHelper::writeSize(count, pbuffer, pflusher)` of the
absent serializeHelper.h, taken as a parameter. -/
def serializeWrite {σ : Type}
    (writeSize : Int → ByteBuffer × σ → Except String (ByteBuffer × σ))
    (flush : ByteBuffer × σ → Except String (ByteBuffer × σ))
    (value : Mem) (fuel : Nat) (s : ByteBuffer × σ) (offset count : Int) :
    Option (Except String (ByteBuffer × σ)) :=
  match writeSize count s with
  | .error e => some (.error e)
  | .ok s1 => serializeLoop flush value (offset + count) fuel offset s1

/-- The method `serialize(pbuffer, pflusher, offset, count)`: the part under
its comment `// check bounds`, followed by the write. -/
def serialize {σ : Type} (writeSize : Int → ByteBuffer × σ → Except String (ByteBuffer × σ))
    (flush : ByteBuffer × σ → Except String (ByteBuffer × σ))
    (a : BasePVByteArray) (fuel : Nat) (s : ByteBuffer × σ) (offset count : Int) :
    Option (Except String (ByteBuffer × σ)) :=
  let length := a.getLength
  let offset := if offset < 0 then 0 else if offset > length then length else offset
  let count := if count < 0 then length else count
  let maxCount := length - offset
  let count := if count > maxCount then maxCount else count
  serializeWrite writeSize flush a.value fuel s offset count

/-- The method `serialize(pbuffer, pflusher)`. -/
def serializeFull {σ : Type}
    (writeSize : Int → ByteBuffer × σ → Except String (ByteBuffer × σ))
    (flush : ByteBuffer × σ → Except String (ByteBuffer × σ))
    (a : BasePVByteArray) (fuel : Nat) (s : ByteBuffer × σ) :
    Option (Except String (ByteBuffer × σ)) :=
  a.serialize writeSize flush fuel s 0 a.getLength

/-- The `while(true)` loop of `deserialize`.  `ensureData` is
`pcontrol->ensureData(n)` acting on the buffer and on the state `σ` of the
collaborator. -/
def deserializeLoop {σ : Type}
    (ensureData : Int → ByteBuffer × σ → Except String (ByteBuffer × σ)) (size : Int) :
    Nat → Int → Mem → ByteBuffer × σ → Option (Except String (Mem × (ByteBuffer × σ)))
  | 0, _, _, _ => none
  | fuel + 1, i, value, s =>
    let toRead := min (size - i) s.1.getRemaining
    match s.1.get value i toRead with
    | (.error e, _) => some (.error e)
    | (.ok value1, b1) =>
      let i1 := i + toRead
      if i1 < size then
        match ensureData 1 (b1, s.2) with
        | .error e => some (.error e)
        | .ok s1 => deserializeLoop ensureData size fuel i1 value1 s1
      else some (.ok (value1, (b1, s.2)))

/-- The method `deserialize(pbuffer, pcontrol)`.  `readSize` is
`SerializeHelper::readSize(pbuffer, pcontrol)` of the absent
serializeHelper.h, taken as a parameter.  An exception thrown by
`setCapacity` leaves the method, like one thrown by a collaborator. -/
def deserialize {σ : Type}
    (readSize : ByteBuffer × σ → Except String (Int × (ByteBuffer × σ)))
    (ensureData : Int → ByteBuffer × σ → Except String (ByteBuffer × σ))
    (a : BasePVByteArray) (fuel : Nat) (s : ByteBuffer × σ) :
    Option (Except String (BasePVByteArray × (ByteBuffer × σ))) :=
  match readSize s with
  | .error e => some (.error e)
  | .ok (size, s1) =>
    if size ≥ 0 then
      match (if size > a.getCapacity then a.setCapacity size else (.ok (), a)) with
      | (.error e, _) => some (.error e)
      | (.ok _, a1) =>
        match deserializeLoop ensureData size fuel 0 a1.value s1 with
        | none => none
        | some (.error e) => some (.error e)
        | some (.ok (value1, s2)) =>
          some (.ok ((({ a1 with value := value1 }).setLength size).postPut, s2))
    else some (.ok (a, s1))

/-- The data-model invariant of an array: the block holds `capacity` cells,
each one a byte, no store has left the block, and `0 ≤ length ≤ capacity`. -/
def WellFormed (a : BasePVByteArray) : Prop :=
  (a.value.cells.length : Int) = a.capacity ∧ a.value.fault = false ∧
  0 ≤ a.length ∧ a.length ≤ a.capacity ∧ ∀ x ∈ a.value.cells, x < 256

end BasePVByteArray

/-! ## Definitions: vocabulary of the statements -/

/-- The outcome `r` of a call on the buffer `b` is a failure with the
exception `msg` exactly when `c` holds, and a failed call hands the buffer
back as it was: position, limit and every stored byte. -/
def ByteBuffer.FailsExactlyWhen {α : Type} (r : Except String α × ByteBuffer)
    (b : ByteBuffer) (msg : String) (c : Prop) : Prop :=
  (c → r = (.error msg, b)) ∧ (¬ c → ∃ v, r.1 = .ok v)

/-- A big-endian buffer of eight cells in mid-use, for the sample runs. -/
def sampleBuffer : ByteBuffer :=
  { bufferByteOrder := EPICS_ENDIAN_BIG, size := 8, position := 3, limit := 5,
    buffer := [1, 2, 3, 4, 5, 6, 7, 8] }

/-! ## Definitions: the collaborators of serialize and deserialize

The flow-control collaborators and the size codec are parameters of
`serialize` and `deserialize`.  Their contracts are stated on two
observations of a channel, a buffer paired with the state `σ` of the
collaborator: the bytes that have left on the writing side, and the bytes
still to come on the reading side. -/

/-- A channel whose buffer holds at least one byte and satisfies the cursor
invariant over storage of its full size. -/
def Ready {σ : Type} (s : ByteBuffer × σ) : Prop :=
  s.1.CursorInv ∧ s.1.Allocated ∧ 1 ≤ s.1.size

/-- Writing side: the bytes the collaborator has taken out (`out`), followed
by the bytes written into the buffer and not yet taken out. -/
def drained {σ : Type} (out : σ → List Nat) (s : ByteBuffer × σ) : List Nat :=
  out s.2 ++ s.1.written

/-- Reading side: the unread bytes of the buffer, followed by the bytes the
collaborator has not handed over yet (`inp`). -/
def pending {σ : Type} (inp : σ → List Nat) (s : ByteBuffer × σ) : List Nat :=
  s.1.unread ++ inp s.2

/-- Contract of `flushSerializeBuffer`: it returns with at least one free
byte in the buffer, and it neither loses, adds nor reorders a byte. -/
def FlushOk {σ : Type} (out : σ → List Nat)
    (flush : ByteBuffer × σ → Except String (ByteBuffer × σ)) : Prop :=
  ∀ s, Ready s → ∃ s1, flush s = .ok s1 ∧ Ready s1 ∧ 1 ≤ s1.1.getRemaining ∧
    drained out s1 = drained out s

/-- Contract of `writeSize` for the count `n`: it appends the wire form
`enc` of `n` to what is written, flushing as it needs. -/
def WriteSizeOk {σ : Type} (out : σ → List Nat)
    (writeSize : Int → ByteBuffer × σ → Except String (ByteBuffer × σ))
    (n : Int) (enc : List Nat) : Prop :=
  ∀ s, Ready s → ∃ s1, writeSize n s = .ok s1 ∧ Ready s1 ∧
    drained out s1 = drained out s ++ enc

/-- Contract of `ensureData(1)`: when no byte is left in the buffer and
bytes are still to come, it returns with at least one readable byte, and it
neither loses, adds nor reorders a byte. -/
def EnsureDataOk {σ : Type} (inp : σ → List Nat)
    (ensureData : Int → ByteBuffer × σ → Except String (ByteBuffer × σ)) : Prop :=
  ∀ s, Ready s → pending inp s ≠ [] → ∃ s1, ensureData 1 s = .ok s1 ∧ Ready s1 ∧
    1 ≤ s1.1.getRemaining ∧ pending inp s1 = pending inp s

/-- Contract of `readSize` for the count `n`: from a stream that starts with
the wire form `enc` of `n` it decodes `n` and consumes exactly `enc`. -/
def ReadSizeOk {σ : Type} (inp : σ → List Nat)
    (readSize : ByteBuffer × σ → Except String (Int × (ByteBuffer × σ)))
    (n : Int) (enc : List Nat) : Prop :=
  ∀ s rest, Ready s → pending inp s = enc ++ rest →
    ∃ s1, readSize s = .ok (n, s1) ∧ Ready s1 ∧ pending inp s1 = rest

/-- The flush collaborator of the round-trip property: it appends the
buffer's written bytes to the output sequence and clears the buffer. -/
def drainFlush (s : ByteBuffer × List Nat) : Except String (ByteBuffer × List Nat) :=
  .ok (s.1.clear, s.2 ++ s.1.written)

/-- The ensureData collaborator of the round-trip property: when fewer than
`n` bytes are readable it moves the unread bytes to the front of the buffer
and refills the rest of the buffer from the byte sequence, so a chunk is at
most as long as the buffer; it fails when the sequence cannot supply `n`. -/
def refill (n : Int) (s : ByteBuffer × List Nat) : Except String (ByteBuffer × List Nat) :=
  if n ≤ s.1.getRemaining then .ok s
  else
    let room := s.1.size.toNat - s.1.unread.length
    let data := s.1.unread ++ s.2.take room
    if (data.length : Int) < n then .error "no more data"
    else
      .ok ({ s.1 with position := 0, limit := data.length,
                      buffer := data ++ List.replicate (s.1.size.toNat - data.length) 0 },
           s.2.drop room)

/-- A size codec for the sample runs: one byte, written after a flush when
the buffer is full.  It stands in for the absent `SerializeHelper::writeSize`. -/
def writeSizeByte {σ : Type} (flush : ByteBuffer × σ → Except String (ByteBuffer × σ))
    (n : Int) (s : ByteBuffer × σ) : Except String (ByteBuffer × σ) :=
  match (if s.1.getRemaining < 1 then flush s else .ok s) with
  | .error e => .error e
  | .ok s1 =>
    match s1.1.putByte n with
    | (.ok _, b) => .ok (b, s1.2)
    | (.error e, _) => .error e

/-- The reader of the one-byte size codec of the sample runs.  It stands in
for the absent `SerializeHelper::readSize`. -/
def readSizeByte {σ : Type}
    (ensureData : Int → ByteBuffer × σ → Except String (ByteBuffer × σ))
    (s : ByteBuffer × σ) : Except String (Int × (ByteBuffer × σ)) :=
  match ensureData 1 s with
  | .error e => .error e
  | .ok s1 =>
    match s1.1.getByte with
    | (.ok v, b) => .ok (v, (b, s1.2))
    | (.error e, _) => .error e

/-- The array `[10, 20, 30, 40, 50, 60]` of the sample runs. -/
def sampleArray : BasePVByteArray :=
  { value := { cells := [10, 20, 30, 40, 50, 60], fault := false }, capacity := 6,
    length := 6, immutable := false, capacityMutable := true, messages := [], postPuts := 0 }

/-- An empty two-byte transport buffer for the sample runs. -/
def smallBuffer : ByteBuffer :=
  { bufferByteOrder := EPICS_ENDIAN_BIG, size := 2, position := 0, limit := 2,
    buffer := [0, 0] }

/-- The selected range of `serialize`: `offset` clamped to `[0, L]`. -/
def clampOffset (L offset : Int) : Int := max 0 (min offset L)

/-- The selected range of `serialize`: the whole tail for a negative `count`,
otherwise `count` clamped to what follows the clamped offset. -/
def clampCount (L offset count : Int) : Int :=
  if count < 0 then L - clampOffset L offset else min count (L - clampOffset L offset)

/-- The elements of the array at the indices `start .. start + n - 1`. -/
def BasePVByteArray.slice (a : BasePVByteArray) (start n : Int) : List Nat :=
  (a.value.cells.drop start.toNat).take n.toNat

/-- A new array whose capacity has been made immutable, for the sample runs. -/
def fixedArray : BasePVByteArray :=
  { BasePVByteArray.fresh with capacityMutable := false }

/-- The array `[10, 20, 30, 40, 50, 60]` with the immutable flag set, for
the sample runs. -/
def lockedArray : BasePVByteArray :=
  { sampleArray with immutable := true }

/-- The arguments of one call of `BasePVByteArray::put`; `fromIsValue` is the
outcome of its pointer comparison `from==value`. -/
structure PutArgs where
  offset : Int
  len : Int
  src : Mem
  fromIsValue : Bool
  fromOffset : Int
deriving DecidableEq, Repr

/-- The array after a sequence of `put` calls, made one after the other. -/
def BasePVByteArray.putSeq (a : BasePVByteArray) (calls : List PutArgs) : BasePVByteArray :=
  calls.foldl (fun acc c => (acc.put c.offset c.len c.src c.fromIsValue c.fromOffset).2) a

/-- The block of the array holds `capacity` cells, `0 ≤ length ≤ capacity`,
and the capacity is a value of `int`. -/
def BasePVByteArray.InBlock (a : BasePVByteArray) : Prop :=
  (a.value.cells.length : Int) = a.capacity ∧ 0 ≤ a.length ∧ a.length ≤ a.capacity ∧
  a.capacity ≤ 2147483647

instance (a : BasePVByteArray) : Decidable a.InBlock :=
  inferInstanceAs (Decidable ((a.value.cells.length : Int) = a.capacity ∧ 0 ≤ a.length ∧
    a.length ≤ a.capacity ∧ a.capacity ≤ 2147483647))

/-- The arguments of the call are values of `int` and the offset is not
negative. -/
def PutArgs.InRange (c : PutArgs) : Prop :=
  0 ≤ c.offset ∧ IsInt32 c.offset ∧ IsInt32 c.len

instance (c : PutArgs) : Decidable c.InRange :=
  inferInstanceAs (Decidable (0 ≤ c.offset ∧ IsInt32 c.offset ∧ IsInt32 c.len))

/-- Two `put` calls that fill a new array, for the sample runs. -/
def samplePuts : List PutArgs :=
  [{ offset := 0, len := 3, src := { cells := [10, 20, 30], fault := false },
     fromIsValue := false, fromOffset := 0 },
   { offset := 2, len := 2, src := { cells := [31, 41], fault := false },
     fromIsValue := false, fromOffset := 0 }]

/-- One call of a primitive `put` of `ByteBuffer`, with its argument. -/
inductive PrimPut where
  | boolean (v : Bool)
  | byte (v : Int)
  | short (v : Int)
  | int (v : Int)
  | long (v : Int)
  | float (v : Nat)
  | double (v : Nat)
deriving DecidableEq, Repr

/-- The width of the primitive, `sizeof` its type. -/
def PrimPut.width : PrimPut → Int
  | .boolean _ => 1
  | .byte _ => 1
  | .short _ => 2
  | .int _ => 4
  | .long _ => 8
  | .float _ => 4
  | .double _ => 8

/-- The call made on the buffer. -/
def ByteBuffer.putPrim (native : Int) (b : ByteBuffer) : PrimPut → Except String Unit × ByteBuffer
  | .boolean v => b.putBoolean v
  | .byte v => b.putByte v
  | .short v => b.putShort native v
  | .int v => b.putInt native v
  | .long v => b.putLong native v
  | .float v => b.putFloat native v
  | .double v => b.putDouble native v

/-- The buffer after the calls made one after the other, when every one of
them succeeded; `none` when one of them threw. -/
def ByteBuffer.putPrims (native : Int) : ByteBuffer → List PrimPut → Option ByteBuffer
  | b, [] => some b
  | b, c :: cs =>
    match b.putPrim native c with
    | (.ok _, b1) => putPrims native b1 cs
    | (.error _, _) => none

/-- The `k` cells of the buffer at the positions `position .. position+k-1`. -/
def ByteBuffer.window (b : ByteBuffer) (k : Nat) : List Nat :=
  (b.buffer.drop b.position.toNat).take k

/-- The byte-order rule on a byte sequence: taken verbatim when the buffer's
byte order is the native one, reversed otherwise. -/
def ByteBuffer.orderBytes (native : Int) (b : ByteBuffer) (bytes : List Nat) : List Nat :=
  if b.bufferByteOrder = native then bytes else bytes.reverse

/-- The call with outcome `r` on the buffer `b` succeeded, stored `bytes` at
the positions `position .. position + n - 1`, moved the cursor past them and
changed nothing else. -/
def ByteBuffer.WritesAt (r : Except String Unit × ByteBuffer) (b : ByteBuffer)
    (bytes : List Nat) : Prop :=
  r = (.ok (), { b with position := b.position + bytes.length,
                        buffer := b.buffer.take b.position.toNat ++ bytes ++
                          b.buffer.drop (b.position.toNat + bytes.length) })

/-- The `k` bytes of the bit pattern `u`, most significant first. -/
def msbFirst (k u : Nat) : List Nat := (leBytes k u).reverse

/-- The `k` bytes of the bit pattern `u`, least significant first. -/
def lsbFirst (k u : Nat) : List Nat := leBytes k u

/-! ## Definitions: the streaming loop of serialize with its calls recorded -/

/-- A call made by the streaming loop of `serialize`: `putByte(value[i])`,
recorded with the index `i` and with `getRemaining()` at the call, or
`flushSerializeBuffer()`, recorded with the index `i` reached so far. -/
inductive LoopEvent where
  | putByte (i : Int) (remaining : Int)
  | flush (i : Int)
deriving DecidableEq, Repr

/-- The inner `for` loop of `serialize` as `putElements`, returning the calls
of `putByte` it made as well. -/
def BasePVByteArray.putElementsTraced (value : Mem) :
    Nat → Int → ByteBuffer → Except String ByteBuffer × List LoopEvent
  | 0, _, b => (.ok b, [])
  | n + 1, i, b =>
    match b.putByte (toSigned 8 (value.load i)) with
    | (.ok _, b1) =>
      ((putElementsTraced value n (i + 1) b1).1,
        .putByte i b.getRemaining :: (putElementsTraced value n (i + 1) b1).2)
    | (.error e, _) => (.error e, [.putByte i b.getRemaining])

/-- The `while(true)` loop of `serialize` as `serializeLoop`, returning the
calls of `putByte` and of the flush collaborator it made as well, in order. -/
def BasePVByteArray.serializeLoopTraced {σ : Type}
    (flush : ByteBuffer × σ → Except String (ByteBuffer × σ)) (value : Mem) (stop : Int) :
    Nat → Int → ByteBuffer × σ → Option (Except String (ByteBuffer × σ)) × List LoopEvent
  | 0, _, _ => (none, [])
  | fuel + 1, i, s =>
    let maxIndex := min (stop - i) s.1.getRemaining + i
    let r := putElementsTraced value (maxIndex - i).toNat i s.1
    match r.1 with
    | .error e => (some (.error e), r.2)
    | .ok b1 =>
      let i1 := if i < maxIndex then maxIndex else i
      if i1 < stop then
        match flush (b1, s.2) with
        | .error e => (some (.error e), r.2 ++ [.flush i1])
        | .ok s1 =>
          ((serializeLoopTraced flush value stop fuel i1 s1).1,
            r.2 ++ .flush i1 :: (serializeLoopTraced flush value stop fuel i1 s1).2)
      else (some (.ok (b1, s.2)), r.2)

/-- The indices at which the flush collaborator was called, in order. -/
def flushIndices : List LoopEvent → List Int
  | [] => []
  | .flush i :: es => i :: flushIndices es
  | .putByte _ _ :: es => flushIndices es

/-- A call that is in order for a loop over the indices `lo .. stop - 1`: a
`putByte` of an element of the range with at least one byte remaining, or a
flush while elements of the range remain to be written. -/
def LoopEvent.InOrder (lo stop : Int) : LoopEvent → Prop
  | .putByte i remaining => 1 ≤ remaining ∧ lo ≤ i ∧ i < stop
  | .flush i => lo ≤ i ∧ i < stop

/-! ## Theorems -/

/-! ### Integers and their in-memory bytes -/

theorem leBytes_length (k n : Nat) : (leBytes k n).length = k := by
  induction k generalizing n with
  | zero => rfl
  | succ k ih => simp [leBytes, ih]

theorem ofLeBytes_leBytes (k n : Nat) : ofLeBytes (leBytes k n) = n % 256 ^ k := by
  induction k generalizing n with
  | zero => simp [leBytes, ofLeBytes, Nat.mod_one]
  | succ k ih =>
    simp only [leBytes, ofLeBytes, ih]
    rw [pow_succ, Nat.mul_comm (256 ^ k) 256, Nat.mod_mul]

theorem toMem_length (native : Int) (k u : Nat) : (toMem native k u).length = k := by
  unfold toMem
  split <;> simp [leBytes_length]

theorem fromMem_toMem (native : Int) (k u : Nat) :
    fromMem native (toMem native k u) = u % 256 ^ k := by
  unfold fromMem toMem
  split <;> simp [ofLeBytes_leBytes]

theorem toSigned_toUnsigned_8 (v : Int) (h1 : -128 ≤ v) (h2 : v < 128) :
    toSigned 8 (toUnsigned 8 v) = v := by
  unfold toSigned toUnsigned
  norm_num
  split <;> omega

theorem toUnsigned_toSigned_8 (c : Nat) (h : c < 256) :
    toUnsigned 8 (toSigned 8 c) = c := by
  unfold toSigned toUnsigned
  norm_num
  split <;> omega

theorem toUnsigned_lt_8 (v : Int) : toUnsigned 8 v < 256 := by
  unfold toUnsigned
  norm_num
  omega

theorem toSigned_toUnsigned_16 (v : Int) (h1 : -2 ^ 15 ≤ v) (h2 : v < 2 ^ 15) :
    toSigned 16 (toUnsigned 16 v % 256 ^ 2) = v := by
  unfold toSigned toUnsigned
  norm_num at h1 h2 ⊢
  split <;> omega

theorem toSigned_toUnsigned_32 (v : Int) (h1 : -2 ^ 31 ≤ v) (h2 : v < 2 ^ 31) :
    toSigned 32 (toUnsigned 32 v % 256 ^ 4) = v := by
  unfold toSigned toUnsigned
  norm_num at h1 h2 ⊢
  split <;> omega

theorem toSigned_toUnsigned_64 (v : Int) (h1 : -2 ^ 63 ≤ v) (h2 : v < 2 ^ 63) :
    toSigned 64 (toUnsigned 64 v % 256 ^ 8) = v := by
  unfold toSigned toUnsigned
  norm_num at h1 h2 ⊢
  split <;> omega

/-! ### ByteBuffer: the cursor and the storage -/

namespace ByteBuffer

@[simp] theorem store_position (b : ByteBuffer) (x : Nat) :
    (b.store x).position = b.position + 1 := rfl

@[simp] theorem store_limit (b : ByteBuffer) (x : Nat) : (b.store x).limit = b.limit := rfl

@[simp] theorem store_size (b : ByteBuffer) (x : Nat) : (b.store x).size = b.size := rfl

@[simp] theorem store_order (b : ByteBuffer) (x : Nat) :
    (b.store x).bufferByteOrder = b.bufferByteOrder := rfl

@[simp] theorem store_buffer (b : ByteBuffer) (x : Nat) :
    (b.store x).buffer = b.buffer.set b.position.toNat x := rfl

/-- Storing the bytes `xs` one after the other overwrites the cells under the
cursor with `xs` and advances the cursor past them. -/
theorem foldl_store (xs : List Nat) (b : ByteBuffer) (hp : 0 ≤ b.position)
    (hfit : b.position.toNat + xs.length ≤ b.buffer.length) :
    xs.foldl store b =
      { b with position := b.position + xs.length,
               buffer := b.buffer.take b.position.toNat ++ xs ++
                 b.buffer.drop (b.position.toNat + xs.length) } := by
  induction xs generalizing b with
  | nil => simp
  | cons x xs ih =>
    simp only [List.foldl_cons, List.length_cons] at hfit ⊢
    have hp1 : 0 ≤ (b.store x).position := by simp; omega
    have e1 : (b.position + 1).toNat = b.position.toNat + 1 := by omega
    have hfit1 : (b.store x).position.toNat + xs.length ≤ (b.store x).buffer.length := by
      simp [e1]; omega
    rw [ih (b.store x) hp1 hfit1]
    have hlt : b.position.toNat < b.buffer.length := by omega
    simp only [store_position, store_buffer, e1, store_limit, store_size, store_order]
    have t1 : (b.buffer.set b.position.toNat x).take (b.position.toNat + 1) =
        b.buffer.take b.position.toNat ++ [x] := by
      rw [List.set_eq_take_append_cons_drop, if_pos hlt]
      rw [List.take_append_eq_append_take]
      simp [List.length_take, Nat.min_eq_left (Nat.le_of_lt hlt)]
    have t2 : (b.buffer.set b.position.toNat x).drop (b.position.toNat + 1 + xs.length) =
        b.buffer.drop (b.position.toNat + (xs.length + 1)) := by
      rw [List.drop_set_of_lt _ _ (by omega)]
      congr 1; omega
    rw [t1, t2]
    simp [store, Int.add_assoc, Int.add_comm 1]

end ByteBuffer

namespace ByteBuffer

theorem map_getD_range (src : List Nat) :
    (List.range src.length).map (fun i => src.getD i 0) = src := by
  apply List.ext_getElem
  · simp
  · intro n h1 h2
    simp [List.getElem?_eq_getElem h2]

/-- The two loops of `putWithEndianness` store the source bytes in order, or
in reverse order when the buffer's byte order is not the native one. -/
theorem putWithEndianness_eq (native : Int) (b : ByteBuffer) (src : List Nat) :
    b.putWithEndianness native src src.length =
      (if b.bufferByteOrder = native then src else src.reverse).foldl store b := by
  unfold putWithEndianness
  split
  · conv => rhs; rw [← map_getD_range src]
    rw [List.foldl_map]
  · conv => rhs; rw [← map_getD_range src]
    rw [← List.map_reverse, List.foldl_map]

@[simp] theorem next_fst (b : ByteBuffer) : b.next.1 = b.buffer.getD b.position.toNat 0 := rfl

@[simp] theorem next_snd (b : ByteBuffer) :
    b.next.2 = { b with position := b.position + 1 } := rfl

/-- The ascending loop of `getWithEndianness`. -/
theorem foldl_getStep_range (k : Nat) (dest : List Nat) (b : ByteBuffer)
    (hp : 0 ≤ b.position) (hk : k ≤ dest.length)
    (hfit : b.position.toNat + k ≤ b.buffer.length) :
    (List.range k).foldl getStep (dest, b) =
      ((b.buffer.drop b.position.toNat).take k ++ dest.drop k,
        { b with position := b.position + k }) := by
  induction k with
  | zero => simp
  | succ k ih =>
    rw [List.range_succ, List.foldl_append, ih (by omega) (by omega)]
    simp only [List.foldl_cons, List.foldl_nil, getStep, next_fst, next_snd]
    have e1 : (b.position + (k : Int)).toNat = b.position.toNat + k := by omega
    have hlen : ((b.buffer.drop b.position.toNat).take k).length = k := by
      simp [List.length_take]; omega
    have hd : k < dest.length := by omega
    have hb : b.position.toNat + k < b.buffer.length := by omega
    congr 1
    · rw [e1, List.set_append, if_neg (by omega), hlen, Nat.sub_self,
        List.drop_eq_getElem_cons hd, List.set_cons_zero, List.take_succ,
        List.getElem?_drop, List.getElem?_eq_getElem hb, List.getD_eq_getElem _ _ hb]
      simp
    · simp [Int.add_assoc]

/-- The descending loop of `getWithEndianness`. -/
theorem foldl_getStep_range_reverse (k : Nat) (dest : List Nat) (b : ByteBuffer)
    (hp : 0 ≤ b.position) (hk : k ≤ dest.length)
    (hfit : b.position.toNat + k ≤ b.buffer.length) :
    (List.range k).reverse.foldl getStep (dest, b) =
      (((b.buffer.drop b.position.toNat).take k).reverse ++ dest.drop k,
        { b with position := b.position + k }) := by
  induction k generalizing dest b with
  | zero => simp
  | succ k ih =>
    rw [List.range_succ, List.reverse_append, List.reverse_singleton, List.singleton_append,
      List.foldl_cons]
    simp only [getStep, next_fst, next_snd]
    have e1 : (b.position + 1).toNat = b.position.toNat + 1 := by omega
    have hd : k < dest.length := by omega
    have hb : b.position.toNat < b.buffer.length := by omega
    rw [ih _ _ (by simp; omega) (by simp; omega) (by simp [e1]; omega)]
    congr 1
    · simp only [e1]
      rw [List.drop_set, if_neg (by omega), Nat.sub_self, List.drop_eq_getElem_cons hd,
        List.set_cons_zero, List.drop_eq_getElem_cons hb, List.take_succ_cons,
        List.reverse_cons, List.getD_eq_getElem _ _ hb]
      simp
    · simp [Int.add_assoc, Int.add_comm 1]

/-- The private reader returns the `size` bytes under the cursor, reversed
when the buffer's byte order is not the native one, and advances the cursor
past them. -/
theorem getWithEndianness_eq (native : Int) (b : ByteBuffer) (dest : List Nat) (k : Nat)
    (hp : 0 ≤ b.position) (hk : dest.length = k)
    (hfit : b.position.toNat + k ≤ b.buffer.length) :
    b.getWithEndianness native dest k =
      ((if b.bufferByteOrder = native then (b.buffer.drop b.position.toNat).take k
        else ((b.buffer.drop b.position.toNat).take k).reverse),
        { b with position := b.position + k }) := by
  unfold getWithEndianness
  split
  · rw [foldl_getStep_range k dest b hp (by omega) hfit, ← hk]; simp
  · rw [foldl_getStep_range_reverse k dest b hp (by omega) hfit, ← hk]; simp

end ByteBuffer

namespace ByteBuffer

/-- Writing `src` through `putWithEndianness` into a cleared buffer. -/
theorem put_clear_eq (native : Int) (b : ByteBuffer) (src : List Nat)
    (hA : b.Allocated) (hk : (src.length : Int) ≤ b.size) :
    b.clear.putWithEndianness native src src.length =
      { b with position := src.length, limit := b.size,
               buffer := (if b.bufferByteOrder = native then src else src.reverse) ++
                 b.buffer.drop src.length } := by
  obtain ⟨h0, hlen⟩ := hA
  have hl : (if b.bufferByteOrder = native then src else src.reverse).length = src.length := by
    split <;> simp
  rw [putWithEndianness_eq, foldl_store]
  · simp [clear, hl]
  · simp [clear]
  · simp only [clear, Int.toNat_zero, Nat.zero_add, hl]
    omega

/-- Reading back, after `flip`, what `putWithEndianness` wrote into a cleared
buffer returns the source bytes and leaves position and limit at their count. -/
theorem put_flip_get (native : Int) (b : ByteBuffer) (src : List Nat)
    (hA : b.Allocated) (hk : (src.length : Int) ≤ b.size) :
    (b.clear.putWithEndianness native src src.length).flip.getWithEndianness native
        (List.replicate src.length 0) src.length =
      (src, { b with position := src.length, limit := src.length,
                     buffer := (if b.bufferByteOrder = native then src else src.reverse) ++
                       b.buffer.drop src.length }) := by
  rw [put_clear_eq native b src hA hk]
  obtain ⟨h0, hlen⟩ := hA
  rw [getWithEndianness_eq]
  · simp only [flip, Int.toNat_zero, List.drop_zero, Int.zero_add]
    split <;> simp
  · simp [flip]
  · simp
  · simp only [flip, Int.toNat_zero, Nat.zero_add]
    split <;> simp

/-- Round trip of one multi-byte value of `k` bytes through a cleared buffer:
the bytes read back are the bytes of the value. -/
theorem roundtrip_bytes (native : Int) (b : ByteBuffer) (k u : Nat)
    (hA : b.Allocated) (hk : (k : Int) ≤ b.size) :
    (b.clear.putWithEndianness native (toMem native k u) k).flip.getWithEndianness native
        (List.replicate k 0) k =
      (toMem native k u,
        { b with position := k, limit := k,
                 buffer := (if b.bufferByteOrder = native then toMem native k u
                   else (toMem native k u).reverse) ++ b.buffer.drop k }) := by
  have h := put_flip_get native b (toMem native k u) hA (by rw [toMem_length]; exact hk)
  rw [toMem_length] at h
  exact h

theorem put_clear_position (native : Int) (b : ByteBuffer) (k u : Nat)
    (hA : b.Allocated) (hk : (k : Int) ≤ b.size) :
    (b.clear.putWithEndianness native (toMem native k u) k).position = k := by
  have h := put_clear_eq native b (toMem native k u) hA (by rw [toMem_length]; exact hk)
  rw [toMem_length] at h
  rw [h]

end ByteBuffer

/-- C1: for either byte order of the buffer and of the host, every
fixed-width primitive and every value of its type, on a cleared buffer at
least as large as the type's width, `put(v)` succeeds, and after `flip()`
the matching `get()` returns exactly `v` and leaves position = limit = width.
Floats and doubles are taken as their bit patterns. -/
theorem C1_put_flip_get_roundtrip (native : Int) (b : ByteBuffer) (hA : b.Allocated) :
    (∀ v : Bool, 1 ≤ b.size →
      (b.clear.putBoolean v).1 = .ok () ∧
      (b.clear.putBoolean v).2.flip.getBoolean.1 = .ok v ∧
      (b.clear.putBoolean v).2.flip.getBoolean.2.position = 1 ∧
      (b.clear.putBoolean v).2.flip.getBoolean.2.limit = 1) ∧
    (∀ v : Int, -2 ^ 7 ≤ v → v < 2 ^ 7 → 1 ≤ b.size →
      (b.clear.putByte v).1 = .ok () ∧
      (b.clear.putByte v).2.flip.getByte.1 = .ok v ∧
      (b.clear.putByte v).2.flip.getByte.2.position = 1 ∧
      (b.clear.putByte v).2.flip.getByte.2.limit = 1) ∧
    (∀ v : Int, -2 ^ 15 ≤ v → v < 2 ^ 15 → 2 ≤ b.size →
      (b.clear.putShort native v).1 = .ok () ∧
      ((b.clear.putShort native v).2.flip.getShort native).1 = .ok v ∧
      ((b.clear.putShort native v).2.flip.getShort native).2.position = 2 ∧
      ((b.clear.putShort native v).2.flip.getShort native).2.limit = 2) ∧
    (∀ v : Int, -2 ^ 31 ≤ v → v < 2 ^ 31 → 4 ≤ b.size →
      (b.clear.putInt native v).1 = .ok () ∧
      ((b.clear.putInt native v).2.flip.getInt native).1 = .ok v ∧
      ((b.clear.putInt native v).2.flip.getInt native).2.position = 4 ∧
      ((b.clear.putInt native v).2.flip.getInt native).2.limit = 4) ∧
    (∀ v : Int, -2 ^ 63 ≤ v → v < 2 ^ 63 → 8 ≤ b.size →
      (b.clear.putLong native v).1 = .ok () ∧
      ((b.clear.putLong native v).2.flip.getLong native).1 = .ok v ∧
      ((b.clear.putLong native v).2.flip.getLong native).2.position = 8 ∧
      ((b.clear.putLong native v).2.flip.getLong native).2.limit = 8) ∧
    (∀ v : Nat, v < 2 ^ 32 → 4 ≤ b.size →
      (b.clear.putFloat native v).1 = .ok () ∧
      ((b.clear.putFloat native v).2.flip.getFloat native).1 = .ok v ∧
      ((b.clear.putFloat native v).2.flip.getFloat native).2.position = 4 ∧
      ((b.clear.putFloat native v).2.flip.getFloat native).2.limit = 4) ∧
    (∀ v : Nat, v < 2 ^ 64 → 8 ≤ b.size →
      (b.clear.putDouble native v).1 = .ok () ∧
      ((b.clear.putDouble native v).2.flip.getDouble native).1 = .ok v ∧
      ((b.clear.putDouble native v).2.flip.getDouble native).2.position = 8 ∧
      ((b.clear.putDouble native v).2.flip.getDouble native).2.limit = 8) := by
  have hlen := hA.2
  refine ⟨?_, ?_, ?_, ?_, ?_, ?_, ?_⟩
  · intro v hs
    have hpos : 0 < b.buffer.length := by omega
    have hs0 : 0 < b.size := by omega
    cases v <;>
      simp [ByteBuffer.putBoolean, ByteBuffer.getBoolean, ByteBuffer.clear, ByteBuffer.flip,
        ByteBuffer.store, hpos, hs0]
  · intro v h1 h2 hs
    have hpos : 0 < b.buffer.length := by omega
    have hv := toSigned_toUnsigned_8 v (by norm_num at h1 ⊢; omega) (by norm_num at h2 ⊢; omega)
    have hs0 : 0 < b.size := by omega
    simp [ByteBuffer.putByte, ByteBuffer.getByte, ByteBuffer.clear, ByteBuffer.flip,
      ByteBuffer.store, hpos, hv, hs0]
  · intro v h1 h2 hs
    have hp := ByteBuffer.put_clear_position native b 2 (toUnsigned 16 v) hA (by simpa using hs)
    have hr := ByteBuffer.roundtrip_bytes native b 2 (toUnsigned 16 v) hA (by simpa using hs)
    have hc : ¬ (b.clear.limit - b.clear.position < 2) := by simp [ByteBuffer.clear]; omega
    simp only [ByteBuffer.putShort, if_neg hc]
    have hf : ¬ ((b.clear.putWithEndianness native (toMem native 2 (toUnsigned 16 v)) 2).flip.limit
        - (b.clear.putWithEndianness native (toMem native 2 (toUnsigned 16 v)) 2).flip.position
          < 2) := by
      simp [ByteBuffer.flip, hp]
    simp only [ByteBuffer.getShort, if_neg hf, hr, fromMem_toMem,
      toSigned_toUnsigned_16 v h1 h2]
    simp
  · intro v h1 h2 hs
    have hp := ByteBuffer.put_clear_position native b 4 (toUnsigned 32 v) hA (by simpa using hs)
    have hr := ByteBuffer.roundtrip_bytes native b 4 (toUnsigned 32 v) hA (by simpa using hs)
    have hc : ¬ (b.clear.limit - b.clear.position < 4) := by simp [ByteBuffer.clear]; omega
    simp only [ByteBuffer.putInt, if_neg hc]
    have hf : ¬ ((b.clear.putWithEndianness native (toMem native 4 (toUnsigned 32 v)) 4).flip.limit
        - (b.clear.putWithEndianness native (toMem native 4 (toUnsigned 32 v)) 4).flip.position
          < 4) := by
      simp [ByteBuffer.flip, hp]
    simp only [ByteBuffer.getInt, if_neg hf, hr, fromMem_toMem,
      toSigned_toUnsigned_32 v h1 h2]
    simp
  · intro v h1 h2 hs
    have hp := ByteBuffer.put_clear_position native b 8 (toUnsigned 64 v) hA (by simpa using hs)
    have hr := ByteBuffer.roundtrip_bytes native b 8 (toUnsigned 64 v) hA (by simpa using hs)
    have hc : ¬ (b.clear.limit - b.clear.position < 8) := by simp [ByteBuffer.clear]; omega
    simp only [ByteBuffer.putLong, if_neg hc]
    have hf : ¬ ((b.clear.putWithEndianness native (toMem native 8 (toUnsigned 64 v)) 8).flip.limit
        - (b.clear.putWithEndianness native (toMem native 8 (toUnsigned 64 v)) 8).flip.position
          < 8) := by
      simp [ByteBuffer.flip, hp]
    simp only [ByteBuffer.getLong, if_neg hf, hr, fromMem_toMem,
      toSigned_toUnsigned_64 v h1 h2]
    simp
  · intro v h1 hs
    have hp := ByteBuffer.put_clear_position native b 4 v hA (by simpa using hs)
    have hr := ByteBuffer.roundtrip_bytes native b 4 v hA (by simpa using hs)
    have hc : ¬ (b.clear.limit - b.clear.position < 4) := by simp [ByteBuffer.clear]; omega
    simp only [ByteBuffer.putFloat, if_neg hc]
    have hf : ¬ ((b.clear.putWithEndianness native (toMem native 4 v) 4).flip.limit
        - (b.clear.putWithEndianness native (toMem native 4 v) 4).flip.position < 4) := by
      simp [ByteBuffer.flip, hp]
    have hm : v % 256 ^ 4 = v := Nat.mod_eq_of_lt (by norm_num at h1 ⊢; omega)
    simp only [ByteBuffer.getFloat, if_neg hf, hr, fromMem_toMem, hm]
    simp
  · intro v h1 hs
    have hp := ByteBuffer.put_clear_position native b 8 v hA (by simpa using hs)
    have hr := ByteBuffer.roundtrip_bytes native b 8 v hA (by simpa using hs)
    have hc : ¬ (b.clear.limit - b.clear.position < 8) := by simp [ByteBuffer.clear]; omega
    simp only [ByteBuffer.putDouble, if_neg hc]
    have hf : ¬ ((b.clear.putWithEndianness native (toMem native 8 v) 8).flip.limit
        - (b.clear.putWithEndianness native (toMem native 8 v) 8).flip.position < 8) := by
      simp [ByteBuffer.flip, hp]
    have hm : v % 256 ^ 8 = v := Nat.mod_eq_of_lt (by norm_num at h1 ⊢; omega)
    simp only [ByteBuffer.getDouble, if_neg hf, hr, fromMem_toMem, hm]
    simp

/-! ### ByteBuffer: failures and the cursor invariant -/

namespace ByteBuffer

theorem foldl_store_cursor {ι : Type} (f : ι → Nat) (l : List ι) (b : ByteBuffer) :
    (l.foldl (fun acc i => acc.store (f i)) b).position = b.position + l.length ∧
    (l.foldl (fun acc i => acc.store (f i)) b).limit = b.limit ∧
    (l.foldl (fun acc i => acc.store (f i)) b).size = b.size := by
  induction l generalizing b with
  | nil => simp
  | cons i l ih =>
    simp only [List.foldl_cons, List.length_cons]
    obtain ⟨h1, h2, h3⟩ := ih (b.store (f i))
    refine ⟨?_, ?_, ?_⟩
    · rw [h1]; simp; omega
    · rw [h2]; simp
    · rw [h3]; simp

theorem foldl_getStep_cursor (l : List Nat) (dest : List Nat) (b : ByteBuffer) :
    (l.foldl getStep (dest, b)).2.position = b.position + l.length ∧
    (l.foldl getStep (dest, b)).2.limit = b.limit ∧
    (l.foldl getStep (dest, b)).2.size = b.size := by
  induction l generalizing dest b with
  | nil => simp
  | cons i l ih =>
    simp only [List.foldl_cons, List.length_cons, getStep]
    obtain ⟨h1, h2, h3⟩ := ih (dest.set i b.next.1) b.next.2
    refine ⟨?_, ?_, ?_⟩
    · rw [h1]; simp; omega
    · rw [h2]; simp
    · rw [h3]; simp

theorem foldl_getBulkStep_cursor (offset : Int) (l : List Nat) (dst : Mem) (b : ByteBuffer) :
    (l.foldl (getBulkStep offset) (dst, b)).2.position = b.position + l.length ∧
    (l.foldl (getBulkStep offset) (dst, b)).2.limit = b.limit ∧
    (l.foldl (getBulkStep offset) (dst, b)).2.size = b.size := by
  induction l generalizing dst b with
  | nil => simp
  | cons i l ih =>
    simp only [List.foldl_cons, List.length_cons, getBulkStep]
    obtain ⟨h1, h2, h3⟩ := ih (dst.store (offset + i) b.next.1) b.next.2
    refine ⟨?_, ?_, ?_⟩
    · rw [h1]; simp; omega
    · rw [h2]; simp
    · rw [h3]; simp

theorem putWithEndianness_cursor (native : Int) (b : ByteBuffer) (src : List Nat) (k : Nat) :
    (b.putWithEndianness native src k).position = b.position + k ∧
    (b.putWithEndianness native src k).limit = b.limit ∧
    (b.putWithEndianness native src k).size = b.size := by
  unfold putWithEndianness
  split
  · simpa using foldl_store_cursor (fun i => src.getD i 0) (List.range k) b
  · simpa using foldl_store_cursor (fun i => src.getD i 0) (List.range k).reverse b

theorem getWithEndianness_cursor (native : Int) (b : ByteBuffer) (dest : List Nat) (k : Nat) :
    (b.getWithEndianness native dest k).2.position = b.position + k ∧
    (b.getWithEndianness native dest k).2.limit = b.limit ∧
    (b.getWithEndianness native dest k).2.size = b.size := by
  unfold getWithEndianness
  split
  · simpa using foldl_getStep_cursor (List.range k) dest b
  · simpa using foldl_getStep_cursor (List.range k).reverse dest b

theorem cursorInv_put (native : Int) (b : ByteBuffer) (src : List Nat) (k : Nat)
    (h : b.CursorInv) (hk : ¬ (b.limit - b.position < k)) :
    (b.putWithEndianness native src k).CursorInv := by
  obtain ⟨h1, h2, h3⟩ := putWithEndianness_cursor native b src k
  unfold CursorInv at h ⊢
  omega

theorem cursorInv_get (native : Int) (b : ByteBuffer) (dest : List Nat) (k : Nat)
    (h : b.CursorInv) (hk : ¬ (b.limit - b.position < k)) :
    (b.getWithEndianness native dest k).2.CursorInv := by
  obtain ⟨h1, h2, h3⟩ := getWithEndianness_cursor native b dest k
  unfold CursorInv at h ⊢
  omega

end ByteBuffer

/-- Sample run for C1 on a little-endian host and a big-endian buffer: one
boundary value of each primitive type makes the round trip. -/
theorem C1_put_flip_get_roundtrip_witness :
    sampleBuffer.Allocated ∧
    (sampleBuffer.clear.putBoolean true).2.flip.getBoolean.1 = .ok true ∧
    (sampleBuffer.clear.putByte (-128)).2.flip.getByte.1 = .ok (-128) ∧
    ((sampleBuffer.clear.putShort EPICS_ENDIAN_LITTLE (-1)).2.flip.getShort
      EPICS_ENDIAN_LITTLE).1 = .ok (-1) ∧
    ((sampleBuffer.clear.putInt EPICS_ENDIAN_LITTLE (2 ^ 31 - 1)).2.flip.getInt
      EPICS_ENDIAN_LITTLE).1 = .ok (2 ^ 31 - 1) ∧
    ((sampleBuffer.clear.putLong EPICS_ENDIAN_LITTLE (-2 ^ 63)).2.flip.getLong
      EPICS_ENDIAN_LITTLE).1 = .ok (-2 ^ 63) ∧
    ((sampleBuffer.clear.putFloat EPICS_ENDIAN_LITTLE 0).2.flip.getFloat
      EPICS_ENDIAN_LITTLE).1 = .ok 0 ∧
    ((sampleBuffer.clear.putDouble EPICS_ENDIAN_LITTLE (2 ^ 64 - 1)).2.flip.getDouble
      EPICS_ENDIAN_LITTLE).1 = .ok (2 ^ 64 - 1) :=
  have hA : sampleBuffer.Allocated := by simp [ByteBuffer.Allocated, sampleBuffer]
  have h := C1_put_flip_get_roundtrip EPICS_ENDIAN_LITTLE sampleBuffer hA
  ⟨hA,
    (h.1 true (by decide)).2.1,
    (h.2.1 (-128) (by norm_num) (by norm_num) (by decide)).2.1,
    (h.2.2.1 (-1) (by norm_num) (by norm_num) (by decide)).2.1,
    (h.2.2.2.1 (2 ^ 31 - 1) (by norm_num) (by norm_num) (by decide)).2.1,
    (h.2.2.2.2.1 (-2 ^ 63) (by norm_num) (by norm_num) (by decide)).2.1,
    (h.2.2.2.2.2.1 0 (by norm_num) (by decide)).2.1,
    (h.2.2.2.2.2.2 (2 ^ 64 - 1) (by norm_num) (by decide)).2.1⟩

/-- C3: every primitive `get`/`put` of width `k` fails (underflow for `get`,
overflow for `put`) exactly when `limit - position < k`, every bulk
`get`/`put` of `count` bytes fails exactly when `count > limit - position`,
and a failed call leaves position, limit and every stored byte as they were. -/
theorem C3_overflow_underflow_exact_and_atomic (native : Int) (b : ByteBuffer) :
    b.FailsExactlyWhen b.getBoolean "buffer underflow" (b.limit - b.position < 1) ∧
    b.FailsExactlyWhen b.getByte "buffer underflow" (b.limit - b.position < 1) ∧
    b.FailsExactlyWhen (b.getShort native) "buffer underflow" (b.limit - b.position < 2) ∧
    b.FailsExactlyWhen (b.getInt native) "buffer underflow" (b.limit - b.position < 4) ∧
    b.FailsExactlyWhen (b.getLong native) "buffer underflow" (b.limit - b.position < 8) ∧
    b.FailsExactlyWhen (b.getFloat native) "buffer underflow" (b.limit - b.position < 4) ∧
    b.FailsExactlyWhen (b.getDouble native) "buffer underflow" (b.limit - b.position < 8) ∧
    (∀ v, b.FailsExactlyWhen (b.putBoolean v) "buffer overflow" (b.limit - b.position < 1)) ∧
    (∀ v, b.FailsExactlyWhen (b.putByte v) "buffer overflow" (b.limit - b.position < 1)) ∧
    (∀ v, b.FailsExactlyWhen (b.putShort native v) "buffer overflow"
      (b.limit - b.position < 2)) ∧
    (∀ v, b.FailsExactlyWhen (b.putInt native v) "buffer overflow"
      (b.limit - b.position < 4)) ∧
    (∀ v, b.FailsExactlyWhen (b.putLong native v) "buffer overflow"
      (b.limit - b.position < 8)) ∧
    (∀ v, b.FailsExactlyWhen (b.putFloat native v) "buffer overflow"
      (b.limit - b.position < 4)) ∧
    (∀ v, b.FailsExactlyWhen (b.putDouble native v) "buffer overflow"
      (b.limit - b.position < 8)) ∧
    (∀ dst offset count, b.FailsExactlyWhen (b.get dst offset count) "buffer underflow"
      (count > b.limit - b.position)) ∧
    (∀ src offset count, b.FailsExactlyWhen (b.put src offset count) "buffer overflow"
      (count > b.limit - b.position)) := by
  have one : (b.limit - b.position < 1) ↔ ¬ (b.position < b.limit) := by omega
  refine ⟨?_, ?_, ?_, ?_, ?_, ?_, ?_, ?_, ?_, ?_, ?_, ?_, ?_, ?_, ?_, ?_⟩
  · constructor <;> intro h
    · simp [ByteBuffer.getBoolean, one.mp h]
    · rw [ByteBuffer.getBoolean, if_pos (not_not.mp (mt one.mpr h))]
      exact ⟨_, rfl⟩
  · constructor <;> intro h
    · simp [ByteBuffer.getByte, one.mp h]
    · simp [ByteBuffer.getByte, not_not.mp (mt one.mpr h)]
  · constructor <;> intro h <;> simp [ByteBuffer.getShort, h]
  · constructor <;> intro h <;> simp [ByteBuffer.getInt, h]
  · constructor <;> intro h <;> simp [ByteBuffer.getLong, h]
  · constructor <;> intro h <;> simp [ByteBuffer.getFloat, h]
  · constructor <;> intro h <;> simp [ByteBuffer.getDouble, h]
  · intro v
    constructor <;> intro h
    · simp [ByteBuffer.putBoolean, one.mp h]
    · simp [ByteBuffer.putBoolean, not_not.mp (mt one.mpr h)]
  · intro v
    constructor <;> intro h
    · simp [ByteBuffer.putByte, one.mp h]
    · simp [ByteBuffer.putByte, not_not.mp (mt one.mpr h)]
  · intro v; constructor <;> intro h <;> simp [ByteBuffer.putShort, h]
  · intro v; constructor <;> intro h <;> simp [ByteBuffer.putInt, h]
  · intro v; constructor <;> intro h <;> simp [ByteBuffer.putLong, h]
  · intro v; constructor <;> intro h <;> simp [ByteBuffer.putFloat, h]
  · intro v; constructor <;> intro h <;> simp [ByteBuffer.putDouble, h]
  · intro dst offset count
    constructor <;> intro h <;> simp [ByteBuffer.get, ByteBuffer.getRemaining, h]
  · intro src offset count
    constructor <;> intro h <;> simp [ByteBuffer.put, ByteBuffer.getRemaining, h]

/-- C4: the cursor invariant `0 ≤ position ≤ limit ≤ size` holds for every
successfully constructed buffer and is kept by `clear`, `flip`, `rewind`,
every primitive `get`/`put` and every bulk `get`/`put` with any count,
whether the call succeeds or fails. -/
theorem C4_cursor_invariant (native : Int) (b : ByteBuffer) (h : b.CursorInv) :
    (∀ size byteOrder c, ByteBuffer.new size byteOrder = .ok c → c.CursorInv) ∧
    b.clear.CursorInv ∧ b.flip.CursorInv ∧ b.rewind.CursorInv ∧
    b.getBoolean.2.CursorInv ∧ b.getByte.2.CursorInv ∧
    (b.getShort native).2.CursorInv ∧ (b.getInt native).2.CursorInv ∧
    (b.getLong native).2.CursorInv ∧ (b.getFloat native).2.CursorInv ∧
    (b.getDouble native).2.CursorInv ∧
    (∀ v, (b.putBoolean v).2.CursorInv) ∧ (∀ v, (b.putByte v).2.CursorInv) ∧
    (∀ v, (b.putShort native v).2.CursorInv) ∧ (∀ v, (b.putInt native v).2.CursorInv) ∧
    (∀ v, (b.putLong native v).2.CursorInv) ∧ (∀ v, (b.putFloat native v).2.CursorInv) ∧
    (∀ v, (b.putDouble native v).2.CursorInv) ∧
    (∀ dst offset count, (b.get dst offset count).2.CursorInv) ∧
    (∀ src offset count, (b.put src offset count).2.CursorInv) := by
  have h' := h
  obtain ⟨h1, h2, h3⟩ := h'
  refine ⟨?_, ?_, ?_, ?_, ?_, ?_, ?_, ?_, ?_, ?_, ?_, ?_, ?_, ?_, ?_, ?_, ?_, ?_, ?_, ?_⟩
  · intro size byteOrder c hc
    unfold ByteBuffer.new at hc
    split at hc
    · cases hc
    · split at hc
      · cases hc
      · cases hc
        simp only [ByteBuffer.CursorInv]
        omega
  · simp only [ByteBuffer.CursorInv, ByteBuffer.clear]; omega
  · simp only [ByteBuffer.CursorInv, ByteBuffer.flip]; omega
  · simp only [ByteBuffer.CursorInv, ByteBuffer.rewind]; omega
  · unfold ByteBuffer.getBoolean
    split
    · simp only [ByteBuffer.CursorInv, ByteBuffer.next]; omega
    · exact h
  · unfold ByteBuffer.getByte
    split
    · simp only [ByteBuffer.CursorInv, ByteBuffer.next]; omega
    · exact h
  · unfold ByteBuffer.getShort
    split
    · exact h
    · exact ByteBuffer.cursorInv_get native b _ 2 h (by push_cast; omega)
  · unfold ByteBuffer.getInt
    split
    · exact h
    · exact ByteBuffer.cursorInv_get native b _ 4 h (by push_cast; omega)
  · unfold ByteBuffer.getLong
    split
    · exact h
    · exact ByteBuffer.cursorInv_get native b _ 8 h (by push_cast; omega)
  · unfold ByteBuffer.getFloat
    split
    · exact h
    · exact ByteBuffer.cursorInv_get native b _ 4 h (by push_cast; omega)
  · unfold ByteBuffer.getDouble
    split
    · exact h
    · exact ByteBuffer.cursorInv_get native b _ 8 h (by push_cast; omega)
  · intro v
    unfold ByteBuffer.putBoolean
    split
    · simp only [ByteBuffer.CursorInv, ByteBuffer.store]; omega
    · exact h
  · intro v
    unfold ByteBuffer.putByte
    split
    · simp only [ByteBuffer.CursorInv, ByteBuffer.store]; omega
    · exact h
  · intro v
    unfold ByteBuffer.putShort
    split
    · exact h
    · exact ByteBuffer.cursorInv_put native b _ 2 h (by push_cast; omega)
  · intro v
    unfold ByteBuffer.putInt
    split
    · exact h
    · exact ByteBuffer.cursorInv_put native b _ 4 h (by push_cast; omega)
  · intro v
    unfold ByteBuffer.putLong
    split
    · exact h
    · exact ByteBuffer.cursorInv_put native b _ 8 h (by push_cast; omega)
  · intro v
    unfold ByteBuffer.putFloat
    split
    · exact h
    · exact ByteBuffer.cursorInv_put native b _ 4 h (by push_cast; omega)
  · intro v
    unfold ByteBuffer.putDouble
    split
    · exact h
    · exact ByteBuffer.cursorInv_put native b _ 8 h (by push_cast; omega)
  · intro dst offset count
    unfold ByteBuffer.get
    split
    · exact h
    · rename_i hc
      obtain ⟨e1, e2, e3⟩ :=
        ByteBuffer.foldl_getBulkStep_cursor offset (List.range count.toNat) dst b
      simp only [ByteBuffer.CursorInv, ByteBuffer.getRemaining, List.length_range] at hc e1 ⊢
      omega
  · intro src offset count
    unfold ByteBuffer.put
    split
    · exact h
    · rename_i hc
      obtain ⟨e1, e2, e3⟩ :=
        @ByteBuffer.foldl_store_cursor Nat (fun i => src.load (offset + (i : Int)))
          (List.range count.toNat) b
      simp only [ByteBuffer.CursorInv, ByteBuffer.getRemaining, List.length_range] at hc e1 ⊢
      omega

/-- Sample run for C4: the invariant on a buffer in mid-use, kept by a
negative bulk count, by a failing `getLong` and by a succeeding `putInt`. -/
theorem C4_cursor_invariant_witness :
    sampleBuffer.CursorInv ∧
    (sampleBuffer.get { cells := [], fault := false } 0 (-4)).2.CursorInv ∧
    (sampleBuffer.getLong EPICS_ENDIAN_LITTLE).2.CursorInv ∧
    (sampleBuffer.clear.putInt EPICS_ENDIAN_LITTLE 7).2.CursorInv :=
  have h : sampleBuffer.CursorInv := by simp [ByteBuffer.CursorInv, sampleBuffer]
  have hc := C4_cursor_invariant EPICS_ENDIAN_LITTLE sampleBuffer h
  ⟨h, hc.2.2.2.2.2.2.2.2.2.2.2.2.2.2.2.2.2.2.1 _ 0 (-4), hc.2.2.2.2.2.2.2.2.1,
    (C4_cursor_invariant EPICS_ENDIAN_LITTLE sampleBuffer.clear hc.2.1).2.2.2.2.2.2.2.2.2.2.2.2.2.2.1 7⟩

/-! ### Memory blocks -/

theorem map_getD_add_range (l : List Nat) (p n : Nat) (h : p + n ≤ l.length) :
    (List.range n).map (fun i => l.getD (p + i) 0) = (l.drop p).take n := by
  apply List.ext_getElem
  · simp; omega
  · intro j h1 h2
    simp at h1
    simp [List.getElem?_eq_getElem (show p + j < l.length by omega)]

/-- A loop that stores `f 0, f 1, .. f (n-1)` at the consecutive indices
`off, off+1, ..` of a block, all inside the block. -/
theorem Mem.foldl_store_range (m0 : Mem) (off : Int) (g : Nat → Int) (f : Nat → Nat)
    (hg : ∀ i, g i = off + i) (n : Nat) (h0 : 0 ≤ off)
    (hfit : off.toNat + n ≤ m0.cells.length) :
    (List.range n).foldl (fun m i => m.store (g i) (f i)) m0 =
      { cells := m0.cells.take off.toNat ++ (List.range n).map f ++
          m0.cells.drop (off.toNat + n),
        fault := m0.fault } := by
  induction n with
  | zero => simp
  | succ n ih =>
    rw [List.range_succ, List.foldl_append, ih (by omega)]
    simp only [List.foldl_cons, List.foldl_nil, Mem.store, hg, List.map_append, List.map_cons,
      List.map_nil]
    have hlen : (m0.cells.take off.toNat ++ (List.range n).map f ++
        m0.cells.drop (off.toNat + n)).length = m0.cells.length := by
      simp; omega
    have hin : 0 ≤ off + (n : Int) ∧ off + (n : Int) < (m0.cells.take off.toNat ++
        (List.range n).map f ++ m0.cells.drop (off.toNat + n)).length := by
      rw [hlen]; omega
    rw [if_pos hin]
    have e1 : (off + (n : Int)).toNat = off.toNat + n := by omega
    have hl2 : (m0.cells.take off.toNat ++ (List.range n).map f).length = off.toNat + n := by
      simp; omega
    have hlt : off.toNat + n < m0.cells.length := by omega
    congr 1
    rw [e1, List.set_append, if_neg (by omega), hl2, Nat.sub_self,
      List.drop_eq_getElem_cons hlt, List.set_cons_zero]
    simp [Nat.add_assoc]

theorem Mem.load_eq (m : Mem) (i : Nat) : m.load (i : Int) = m.cells.getD i 0 := by
  simp [Mem.load]

/-- A value of `int` is left as it is by the reduction to 32 bits. -/
theorem wrap32_eq (x : Int) (h : IsInt32 x) : wrap32 x = x := by
  unfold IsInt32 at h
  unfold wrap32
  omega

theorem Mem.store_length (m : Mem) (i : Int) (x : Nat) :
    (m.store i x).cells.length = m.cells.length := by
  unfold Mem.store
  split <;> simp

theorem Mem.store_load (m : Mem) (i j : Int) (x : Nat) (h : i ≠ j) :
    (m.store i x).load j = m.load j := by
  unfold Mem.store Mem.load
  split
  · split
    · simp only [List.getD_eq_getElem?_getD]
      rw [List.getElem?_set_ne (by omega)]
    · rfl
  · rfl

theorem Mem.store_fault (m : Mem) (i : Int) (x : Nat) (h0 : 0 ≤ i)
    (h : i < m.cells.length) : (m.store i x).fault = m.fault := by
  simp [Mem.store, h0, h]

/-- A loop that stores `v 0, v 1, .. v (n-1)` at the indices `idx 0, idx 1, ..`:
the block keeps its size, a cell that is none of the indices keeps its value,
and no store leaves the block when every index lies inside it. -/
theorem Mem.foldl_store_frame (idx : Nat → Int) (v : Nat → Nat) (n : Nat) (m0 : Mem) :
    ((List.range n).foldl (fun m (i : Nat) => m.store (idx i) (v i)) m0).cells.length =
      m0.cells.length ∧
    (∀ j : Int, (∀ i, i < n → idx i ≠ j) →
      ((List.range n).foldl (fun m (i : Nat) => m.store (idx i) (v i)) m0).load j =
        m0.load j) ∧
    ((∀ i, i < n → 0 ≤ idx i ∧ idx i < m0.cells.length) →
      ((List.range n).foldl (fun m (i : Nat) => m.store (idx i) (v i)) m0).fault =
        m0.fault) := by
  induction n with
  | zero => simp
  | succ n ih =>
    obtain ⟨h1, h2, h3⟩ := ih
    rw [List.range_succ, List.foldl_append]
    simp only [List.foldl_cons, List.foldl_nil]
    refine ⟨?_, ?_, ?_⟩
    · rw [Mem.store_length, h1]
    · intro j hj
      rw [Mem.store_load _ _ _ _ (hj n (by omega)), h2 j (fun i hi => hj i (by omega))]
    · intro hin
      rw [Mem.store_fault _ _ _ (hin n (by omega)).1 (by rw [h1]; exact (hin n (by omega)).2),
        h3 (fun i hi => hin i (by omega))]

/-! ### BasePVByteArray: get and put -/

namespace BasePVByteArray

/-- What `get` computes when its sum `offset + len` does not overflow. -/
theorem get_eq (a : BasePVByteArray) (offset len : Int) (hL : 0 ≤ a.length)
    (ho : IsInt32 offset) (hl : IsInt32 len) (hsum : IsInt32 (offset + len)) :
    a.get offset len =
      ((if offset + len > a.length then max 0 (a.length - offset) else len),
        { data := a.value, offset := offset }, a) := by
  unfold IsInt32 at ho hl hsum
  simp only [get, getLength, wrap32]
  congr 1
  by_cases h : offset + len > a.length
  · rw [if_pos (by omega), if_pos h]
    split <;> omega
  · rw [if_neg (by omega), if_neg h]

end BasePVByteArray

/-- C10 as stated fails: on the new array (length 0), `get(5, -1)` returns 0,
not `min(-1, max(0, 0 - 5)) = -1`.  It fails as well where the 32-bit sum
`offset + len` overflows: on the six-element sample array `get(1, 2147483647)`
returns `len` as it is, 2147483647, not `min(2147483647, max(0, 6 - 1)) = 5`. -/
theorem C10_get_length_counterexample :
    (BasePVByteArray.fresh.get 5 (-1)).1 = 0 ∧
    min (-1 : Int) (max 0 (BasePVByteArray.fresh.length - 5)) = -1 ∧
    (BasePVByteArray.fresh.get 5 (-1)).1 ≠
      min (-1 : Int) (max 0 (BasePVByteArray.fresh.length - 5)) ∧
    wrap32 (1 + 2147483647) = -2147483648 ∧
    (sampleArray.get 1 2147483647).1 = 2147483647 ∧
    min (2147483647 : Int) (max 0 (sampleArray.length - 1)) = 5 := by
  decide

/-- C10 amended: for every array of logical length `L ≥ 0` and all `offset`
and `len` of type `int` whose sum `offset + len` is a value of `int` too (the
32-bit addition does not overflow), `get(offset, len)` returns
`min(len, max(0, L - offset))` when `len ≥ 0` or `offset + len ≤ L`, and
returns 0 in the remaining case (a negative `len` from an offset that reaches
past the end); it sets the view to the internal buffer at the given offset
and changes nothing in the array. -/
theorem C10_get_length_amended (a : BasePVByteArray) (offset len : Int)
    (hL : 0 ≤ a.length) (ho : IsInt32 offset) (hl : IsInt32 len)
    (hsum : IsInt32 (offset + len)) :
    (0 ≤ len ∨ offset + len ≤ a.length →
      (a.get offset len).1 = min len (max 0 (a.length - offset))) ∧
    (len < 0 → a.length < offset + len → (a.get offset len).1 = 0) ∧
    (a.get offset len).2.1 = { data := a.value, offset := offset } ∧
    (a.get offset len).2.2 = a := by
  rw [BasePVByteArray.get_eq a offset len hL ho hl hsum]
  refine ⟨?_, ?_, rfl, rfl⟩
  · intro h
    simp only
    split <;> omega
  · intro h1 h2
    simp only
    split <;> omega

/-- Sample runs for the amended C10: a read that starts past the end, a read
inside the array, and a negative `len` from past the end. -/
theorem C10_get_length_amended_witness :
    (0 : Int) ≤ sampleArray.length ∧ IsInt32 9 ∧ IsInt32 4 ∧ IsInt32 (9 + 4) ∧
    ((0 : Int) ≤ 4 ∨ (9 : Int) + 4 ≤ sampleArray.length) ∧
    (sampleArray.get 9 4).1 = 0 ∧
    (sampleArray.get 2 3).1 = 3 ∧
    (-1 : Int) < 0 ∧ sampleArray.length < 9 + (-1) ∧ (sampleArray.get 9 (-1)).1 = 0 :=
  ⟨by decide, by decide, by decide, by decide, Or.inl (by decide),
    ((C10_get_length_amended sampleArray 9 4 (by decide) (by decide) (by decide)
      (by decide)).1 (Or.inl (by decide))).trans (by decide),
    ((C10_get_length_amended sampleArray 2 3 (by decide) (by decide) (by decide)
      (by decide)).1 (Or.inl (by decide))).trans (by decide),
    by decide, by decide,
    (C10_get_length_amended sampleArray 9 (-1) (by decide) (by decide) (by decide)
      (by decide)).2.1 (by decide) (by decide)⟩

namespace BasePVByteArray

theorem getD_mid (c xs r : List Nat) (i : Nat) (h : i < xs.length) :
    (c ++ xs ++ r).getD (c.length + i) 0 = xs.getD i 0 := by
  rw [List.append_assoc, List.getD_eq_getElem?_getD, List.getD_eq_getElem?_getD,
    List.getElem?_append_right (by omega), Nat.add_sub_cancel_left,
    List.getElem?_append_left h]

/-- A request for a capacity that is not negative does not throw. -/
theorem setCapacity_ok (a : BasePVByteArray) (capacity : Int) (hc : 0 ≤ capacity) :
    (a.setCapacity capacity).1 = .ok () := by
  unfold setCapacity
  split
  · rfl
  · split
    · rfl
    · simp only [if_neg (show ¬ capacity < 0 by omega)]

/-- A request for another capacity on an array that is not capacity-mutable
is reported and changes nothing else. -/
theorem setCapacity_fixed (a : BasePVByteArray) (capacity : Int)
    (hm : a.capacityMutable = false) (hne : a.capacity ≠ capacity) :
    a.setCapacity capacity = (.ok (), a.message "not capacityMutable") := by
  simp [setCapacity, getCapacity, isCapacityMutable, hm, hne]

/-- What `setCapacity` does to a capacity-mutable array whose block holds
`capacity` cells when the requested capacity is a new, non-negative one. -/
theorem setCapacity_eq_block (a : BasePVByteArray) (capacity : Int)
    (hlen : (a.value.cells.length : Int) = a.capacity) (hlc : a.length ≤ a.capacity)
    (hm : a.capacityMutable = true) (hne : a.capacity ≠ capacity) (hc : 0 ≤ capacity) :
    a.setCapacity capacity =
      (.ok (), { a with
        value := { cells := a.value.cells.take (min a.length capacity).toNat ++
                     List.replicate (capacity.toNat - (min a.length capacity).toNat) 0,
                   fault := a.value.fault }
        capacity := capacity
        length := min a.length capacity }) := by
  have hmin : (if a.length > capacity then capacity else a.length) = min a.length capacity := by
    split <;> omega
  simp only [setCapacity, getCapacity, isCapacityMutable, getLength, if_neg hne, hm,
    Bool.not_true, setCapacityLength, hmin, if_neg (show ¬ capacity < 0 by omega),
    Bool.false_eq_true, if_false]
  have hfit : (0 : Int).toNat + (min a.length capacity).toNat ≤
      (List.replicate capacity.toNat 0).length := by
    simp only [Int.toNat_zero, Nat.zero_add, List.length_replicate]
    omega
  rw [Mem.foldl_store_range { cells := List.replicate capacity.toNat 0, fault := a.value.fault }
    0 (fun (i : Nat) => (i : Int)) (fun (i : Nat) => a.value.load i) (by intro i; simp) _
    (le_refl 0) hfit]
  have hmap : (List.range (min a.length capacity).toNat).map
      (fun (i : Nat) => a.value.load (i : Int)) =
      a.value.cells.take (min a.length capacity).toNat := by
    have := map_getD_add_range a.value.cells 0 (min a.length capacity).toNat (by omega)
    simpa [Mem.load_eq] using this
  simp only [hmap]
  congr 3
  simp

/-- What `setCapacity` does to a well-formed, capacity-mutable array when the
requested capacity is a new, non-negative one. -/
theorem setCapacity_eq (a : BasePVByteArray) (capacity : Int) (hwf : a.WellFormed)
    (hm : a.capacityMutable = true) (hne : a.capacity ≠ capacity) (hc : 0 ≤ capacity) :
    a.setCapacity capacity =
      (.ok (), { a with
        value := { cells := a.value.cells.take (min a.length capacity).toNat ++
                     List.replicate (capacity.toNat - (min a.length capacity).toNat) 0,
                   fault := false }
        capacity := capacity
        length := min a.length capacity }) := by
  obtain ⟨hlen, hfault, hl0, hlc, hbytes⟩ := hwf
  rw [setCapacity_eq_block a capacity hlen hlc hm hne hc, hfault]

/-- The copy loop of `put`, when the window lies inside the block and below
`2 ^ 31`, so that no index `i + offset` overflows. -/
theorem putCopy_eq (a : BasePVByteArray) (offset len : Int) (src : Mem) (fromOffset : Int)
    (length : Int) (ho : 0 ≤ offset) (hl : 0 ≤ len)
    (hfit : offset + len ≤ a.value.cells.length) (hmax : offset + len ≤ 2147483648) :
    a.putCopy offset len src fromOffset length =
      (.ok len, { a with
        value := { cells := a.value.cells.take offset.toNat ++
                     (List.range len.toNat).map
                       (fun (i : Nat) => src.load (wrap32 (i + fromOffset))) ++
                     a.value.cells.drop (offset.toNat + len.toNat),
                   fault := a.value.fault }
        length := length
        postPuts := a.postPuts + 1 }) := by
  simp only [putCopy, setLength, postPut]
  have hext : (List.range len.toNat).foldl
      (fun m (i : Nat) => m.store (wrap32 (i + offset)) (src.load (wrap32 (i + fromOffset))))
      a.value =
      (List.range len.toNat).foldl
        (fun m (i : Nat) => m.store (offset + i) (src.load (wrap32 (i + fromOffset))))
        a.value := by
    apply List.foldl_ext
    intro m i hi
    rw [List.mem_range] at hi
    have e : wrap32 ((i : Int) + offset) = offset + i := by
      rw [wrap32_eq _ ⟨by omega, by omega⟩]; omega
    rw [e]
  rw [hext, Mem.foldl_store_range a.value offset (fun (i : Nat) => offset + (i : Int))
    (fun (i : Nat) => src.load (wrap32 (i + fromOffset))) (by intro i; rfl) _ ho (by omega)]

theorem putCopy_load (a : BasePVByteArray) (offset len : Int) (src : Mem) (fromOffset : Int)
    (length : Int) (ho : 0 ≤ offset) (hl : 0 ≤ len)
    (hfit : offset + len ≤ a.value.cells.length) (hmax : offset + len ≤ 2147483648)
    (hfo : IsInt32 fromOffset) (hfs : fromOffset + len ≤ 2147483648)
    (i : Int) (hi0 : 0 ≤ i) (hi : i < len) :
    (a.putCopy offset len src fromOffset length).2.value.load (offset + i) =
      src.load (fromOffset + i) := by
  rw [putCopy_eq a offset len src fromOffset length ho hl hfit hmax]
  have e1 : (offset + i).toNat = (a.value.cells.take offset.toNat).length + i.toNat := by
    simp; omega
  simp only [Mem.load, if_pos (show 0 ≤ offset + i by omega), e1]
  rw [getD_mid _ _ _ _ (by simp; omega)]
  rw [List.getD_eq_getElem _ _ (by simp; omega)]
  simp only [List.getElem_map, List.getElem_range, Mem.load]
  have e2 : wrap32 ((i.toNat : Int) + fromOffset) = fromOffset + i := by
    unfold IsInt32 at hfo
    rw [wrap32_eq _ ⟨by omega, by omega⟩]; omega
  rw [e2]

/-- The tail of `put` for an `int` count at an `int` offset that is not
negative: it returns the count, the block keeps its size, every cell outside
the window keeps its value, and no store leaves the block when the window
lies inside it and below `2 ^ 31`. -/
theorem putCopy_frame (a : BasePVByteArray) (offset len : Int) (src : Mem) (fromOffset : Int)
    (length : Int) (ho : 0 ≤ offset) (hoR : offset ≤ 2147483647) (hl : len ≤ 2147483647) :
    (a.putCopy offset len src fromOffset length).1 = .ok len ∧
    (a.putCopy offset len src fromOffset length).2.value.cells.length =
      a.value.cells.length ∧
    (a.putCopy offset len src fromOffset length).2.capacity = a.capacity ∧
    (a.putCopy offset len src fromOffset length).2.length = length ∧
    (∀ i : Int, 0 ≤ i → (i < offset ∨ offset + len ≤ i) →
      (a.putCopy offset len src fromOffset length).2.value.load i = a.value.load i) ∧
    (offset + len ≤ a.value.cells.length → offset + len ≤ 2147483648 →
      (a.putCopy offset len src fromOffset length).2.value.fault = a.value.fault) := by
  obtain ⟨h1, h2, h3⟩ := Mem.foldl_store_frame (fun (i : Nat) => wrap32 (i + offset))
    (fun (i : Nat) => src.load (wrap32 (i + fromOffset))) len.toNat a.value
  simp only [putCopy, setLength, postPut]
  refine ⟨trivial, h1, trivial, trivial, ?_, ?_⟩
  · intro j hj0 hj
    apply h2 j
    intro i hi
    simp only [wrap32]
    omega
  · intro hfit hmax
    apply h3
    intro i hi
    simp only [wrap32]
    omega

end BasePVByteArray

/-- C9 as stated fails: on the six-element sample array, which is neither
immutable nor of fixed capacity, `put(2147483647, 1, source, 0)` has
`offset ≥ 0` and `len ≥ 1`, but the 32-bit sum `offset + len` wraps around to
`-2147483648`, so the growth branch is skipped: the element is stored at
index 2147483647 outside the block of six cells (the ghost flag is raised), 1
is returned, and the length stays 6 instead of becoming `max(6, offset + 1)`.
On the same array with a fixed capacity the call returns 1 as well, not
`max(0, capacity - offset) = 0`. -/
theorem C9_put_postcondition_counterexample :
    sampleArray.immutable = false ∧ (0 : Int) ≤ 2147483647 ∧ (1 : Int) ≤ 1 ∧
    wrap32 (2147483647 + 1) = -2147483648 ∧
    sampleArray.put 2147483647 1 { cells := [7], fault := false } false 0 =
      (.ok 1, { sampleArray with
        value := { cells := [10, 20, 30, 40, 50, 60], fault := true }
        postPuts := 1 }) ∧
    (sampleArray.put 2147483647 1 { cells := [7], fault := false } false 0).2.length ≠
      max sampleArray.length (2147483647 + 1) ∧
    ({ sampleArray with capacityMutable := false }.put 2147483647 1
      { cells := [7], fault := false } false 0).1 = .ok 1 ∧
    max 0 (sampleArray.capacity - 2147483647) = 0 := by
  decide

/-- C9 amended: for a well-formed array that is not immutable, a source
distinct from the array's own buffer, `offset ≥ 0`, and arguments of type
`int` for which neither `offset + len` nor `sourceOffset + len - 1` exceeds
the largest `int`, 2147483647: when `len ≥ 1`, `put` returns the number `n`
of elements written, `n = len` if `offset+len` fits in the capacity or the
capacity can grow and `n = max(0, capacity - offset)` if growth is rejected;
afterwards `elements[offset+i] = source[sourceOffset+i]` for every `i < n`,
and `length = max(old length, offset + n)` when `n > 0`.  When `len < 1`,
`put` returns 0 and changes nothing. -/
theorem C9_put_postcondition_amended (a : BasePVByteArray) (offset len : Int) (src : Mem)
    (fromOffset : Int) (hwf : a.WellFormed) (him : a.immutable = false) (ho : 0 ≤ offset)
    (hsum : offset + len ≤ 2147483647) (hfo : IsInt32 fromOffset)
    (hfs : fromOffset + len ≤ 2147483648) :
    (1 ≤ len →
      (a.put offset len src false fromOffset).1 =
        .ok (if offset + len ≤ a.capacity ∨ a.capacityMutable = true then len
          else max 0 (a.capacity - offset)) ∧
      (∀ i : Int, 0 ≤ i →
        i < (if offset + len ≤ a.capacity ∨ a.capacityMutable = true then len
          else max 0 (a.capacity - offset)) →
        (a.put offset len src false fromOffset).2.value.load (offset + i) =
          src.load (fromOffset + i)) ∧
      (0 < (if offset + len ≤ a.capacity ∨ a.capacityMutable = true then len
          else max 0 (a.capacity - offset)) →
        (a.put offset len src false fromOffset).2.length =
          max a.length (offset + (if offset + len ≤ a.capacity ∨ a.capacityMutable = true
            then len else max 0 (a.capacity - offset))))) ∧
    (len < 1 → a.put offset len src false fromOffset = (.ok 0, a)) := by
  have hwf' := hwf
  obtain ⟨hlen, hfault, hl0, hlc, hbytes⟩ := hwf'
  constructor
  · intro h1
    have hn1 : ¬ len < 1 := by omega
    have hw : wrap32 (offset + len) = offset + len := wrap32_eq _ ⟨by omega, by omega⟩
    by_cases hgrow : offset + len > a.length
    · by_cases hcap : offset + len > a.capacity
      · by_cases hm : a.capacityMutable = true
        · -- the block is reallocated to `offset + len` cells
          have hsc := BasePVByteArray.setCapacity_eq a (offset + len) hwf hm (by omega) (by omega)
          have hcapEq : (a.setCapacity (offset + len)).2.capacity = offset + len := by
            rw [hsc]
          have hput : a.put offset len src false fromOffset =
              (a.setCapacity (offset + len)).2.putCopy offset len src fromOffset
                (offset + len) := by
            have hsub : wrap32 (offset + len - offset) = len :=
              (congrArg wrap32 (by omega)).trans (wrap32_eq len ⟨by omega, by omega⟩)
            simp only [BasePVByteArray.put, BasePVByteArray.isImmutable, him, hw,
              BasePVByteArray.getLength, BasePVByteArray.getCapacity, if_pos hgrow, if_pos hcap,
              if_neg hn1, Bool.false_eq_true, if_false]
            rw [hsc]
            simp only [hsub, if_neg (show ¬ len ≤ 0 by omega)]
          have hcells : ((a.setCapacity (offset + len)).2.value.cells.length : Int) =
              offset + len := by
            rw [hsc]; simp; omega
          have hfit : offset + len ≤ (a.setCapacity (offset + len)).2.value.cells.length := by
            omega
          have hif : (if offset + len ≤ a.capacity ∨ a.capacityMutable = true then len
              else max 0 (a.capacity - offset)) = len := if_pos (Or.inr hm)
          rw [hput, hif]
          have h1' := BasePVByteArray.putCopy_eq (a.setCapacity (offset + len)).2 offset len src
            fromOffset (offset + len) ho (by omega) hfit (by omega)
          refine ⟨?_, ?_, ?_⟩
          · rw [h1']
          · intro i hi0 hi
            exact BasePVByteArray.putCopy_load _ offset len src fromOffset _ ho (by omega)
              hfit (by omega) hfo hfs i hi0 hi
          · intro _
            rw [h1']; simp only; omega
        · -- growth is rejected: the capacity stays
          have hm' : a.capacityMutable = false := by simpa using hm
          have hsc := BasePVByteArray.setCapacity_fixed a (offset + len) hm' (by omega)
          have hsub : wrap32 (a.capacity - offset) = a.capacity - offset :=
            wrap32_eq _ ⟨by omega, by omega⟩
          have hif : (if offset + len ≤ a.capacity ∨ a.capacityMutable = true then len
              else max 0 (a.capacity - offset)) = max 0 (a.capacity - offset) :=
            if_neg (by rw [hm']; simp; omega)
          rw [hif]
          by_cases hroom : a.capacity - offset ≤ 0
          · have hput : a.put offset len src false fromOffset =
                (.ok 0, a.message "not capacityMutable") := by
              simp only [BasePVByteArray.put, BasePVByteArray.isImmutable, him, hw,
                BasePVByteArray.getLength, BasePVByteArray.getCapacity, if_pos hgrow,
                if_pos hcap, if_neg hn1, Bool.false_eq_true, if_false, hsc]
              simp only [BasePVByteArray.message, hsub, if_pos hroom]
            rw [hput]
            refine ⟨?_, ?_, ?_⟩
            · simp only [Prod.mk.injEq, Except.ok.injEq]; omega
            · intro i hi0 hi; omega
            · intro h; omega
          · have hput : a.put offset len src false fromOffset =
                (a.message "not capacityMutable").putCopy offset (a.capacity - offset) src
                  fromOffset a.capacity := by
              simp only [BasePVByteArray.put, BasePVByteArray.isImmutable, him, hw,
                BasePVByteArray.getLength, BasePVByteArray.getCapacity, if_pos hgrow,
                if_pos hcap, if_neg hn1, Bool.false_eq_true, if_false, hsc]
              simp only [BasePVByteArray.message, hsub, if_neg hroom]
            have hfit : offset + (a.capacity - offset) ≤
                ((a.message "not capacityMutable").value.cells.length : Int) := by
              simp only [BasePVByteArray.message]; omega
            have hmx : max 0 (a.capacity - offset) = a.capacity - offset := by omega
            rw [hput, hmx]
            have h1' := BasePVByteArray.putCopy_eq (a.message "not capacityMutable") offset
              (a.capacity - offset) src fromOffset a.capacity ho (by omega) hfit (by omega)
            refine ⟨?_, ?_, ?_⟩
            · rw [h1']
            · intro i hi0 hi
              exact BasePVByteArray.putCopy_load _ offset _ src fromOffset _ ho (by omega)
                hfit (by omega) hfo (by omega) i hi0 hi
            · intro _
              rw [h1']; simp only [BasePVByteArray.message]; omega
      · -- the window fits in the allocated block, the length grows
        have hput : a.put offset len src false fromOffset =
            a.putCopy offset len src fromOffset (offset + len) := by
          simp only [BasePVByteArray.put, BasePVByteArray.isImmutable, him, hw,
            BasePVByteArray.getLength, BasePVByteArray.getCapacity, if_pos hgrow, if_neg hcap,
            if_neg hn1, Bool.false_eq_true, if_false]
        have hfit : offset + len ≤ (a.value.cells.length : Int) := by omega
        have hif : (if offset + len ≤ a.capacity ∨ a.capacityMutable = true then len
            else max 0 (a.capacity - offset)) = len := if_pos (Or.inl (by omega))
        rw [hput, hif]
        have h1' := BasePVByteArray.putCopy_eq a offset len src fromOffset (offset + len) ho
          (by omega) hfit (by omega)
        refine ⟨?_, ?_, ?_⟩
        · rw [h1']
        · intro i hi0 hi
          exact BasePVByteArray.putCopy_load _ offset len src fromOffset _ ho (by omega)
            hfit (by omega) hfo hfs i hi0 hi
        · intro _
          rw [h1']; simp only; omega
    · -- the window lies inside the current length
      have hput : a.put offset len src false fromOffset =
          a.putCopy offset len src fromOffset a.length := by
        simp only [BasePVByteArray.put, BasePVByteArray.isImmutable, him, hw,
          BasePVByteArray.getLength, BasePVByteArray.getCapacity, if_neg hgrow,
          if_neg hn1, Bool.false_eq_true, if_false]
      have hfit : offset + len ≤ (a.value.cells.length : Int) := by omega
      have hif : (if offset + len ≤ a.capacity ∨ a.capacityMutable = true then len
          else max 0 (a.capacity - offset)) = len := if_pos (Or.inl (by omega))
      rw [hput, hif]
      have h1' := BasePVByteArray.putCopy_eq a offset len src fromOffset a.length ho
        (by omega) hfit (by omega)
      refine ⟨?_, ?_, ?_⟩
      · rw [h1']
      · intro i hi0 hi
        exact BasePVByteArray.putCopy_load _ offset len src fromOffset _ ho (by omega)
          hfit (by omega) hfo hfs i hi0 hi
      · intro _
        rw [h1']; simp only; omega
  · intro h1
    simp [BasePVByteArray.put, BasePVByteArray.isImmutable, him, h1]

/-- Sample run for the amended C9: three bytes put at offset 4 of a
six-element array make it grow to seven elements. -/
theorem C9_put_postcondition_amended_witness :
    sampleArray.WellFormed ∧ sampleArray.immutable = false ∧ (0 : Int) ≤ 4 ∧
    (4 : Int) + 3 ≤ 2147483647 ∧ IsInt32 0 ∧ (0 : Int) + 3 ≤ 2147483648 ∧ (1 : Int) ≤ 3 ∧
    (sampleArray.put 4 3 { cells := [7, 8, 9], fault := false } false 0).1 = .ok 3 ∧
    (sampleArray.put 4 3 { cells := [7, 8, 9], fault := false } false 0).2.length = 7 ∧
    (sampleArray.put 4 3 { cells := [7, 8, 9], fault := false } false 0).2.value.load 6 = 9 :=
  have hwf : sampleArray.WellFormed := by
    simp [BasePVByteArray.WellFormed, sampleArray]
  have h := (C9_put_postcondition_amended sampleArray 4 3 { cells := [7, 8, 9], fault := false }
    0 hwf rfl (by decide) (by decide) (by decide) (by decide)).1 (by decide)
  ⟨hwf, rfl, by decide, by decide, by decide, by decide, by decide,
    h.1.trans (by decide), (h.2.2 (by decide)).trans (by decide),
    (h.2.1 2 (by decide) (by decide)).trans (by decide)⟩

/-- C7 as stated fails: the byte `0xFF` decodes to the size -1 under the
one-byte codec, and `deserialize` returns normally with the array untouched
instead of raising an error. -/
theorem C7_deserialize_sentinel_counterexample :
    readSizeByte refill (smallBuffer.flip, [255, 7]) =
      .ok (-1, ({ smallBuffer with position := 1, limit := 2, buffer := [255, 7] }, [])) ∧
    sampleArray.deserialize (readSizeByte refill) refill 1 (smallBuffer.flip, [255, 7]) =
      some (.ok (sampleArray,
        ({ smallBuffer with position := 1, limit := 2, buffer := [255, 7] }, []))) := by
  constructor <;> rfl

/-- C7 amended: for every array and every input whose decoded size is
negative, `deserialize` returns normally, raising nothing, with the array
unchanged and the channel as `readSize` left it. -/
theorem C7_deserialize_sentinel_amended {σ : Type}
    (readSize : ByteBuffer × σ → Except String (Int × (ByteBuffer × σ)))
    (ensureData : Int → ByteBuffer × σ → Except String (ByteBuffer × σ))
    (a : BasePVByteArray) (fuel : Nat) (s s1 : ByteBuffer × σ) (size : Int)
    (hread : readSize s = .ok (size, s1)) (hneg : size < 0) :
    a.deserialize readSize ensureData fuel s = some (.ok (a, s1)) := by
  have h : ¬ size ≥ 0 := by omega
  simp only [BasePVByteArray.deserialize, hread, if_neg h]

/-- Sample run for the amended C7: the size byte `0xFF`. -/
theorem C7_deserialize_sentinel_amended_witness :
    readSizeByte refill (smallBuffer.flip, [255, 7]) =
      .ok (-1, ({ smallBuffer with position := 1, limit := 2, buffer := [255, 7] }, [])) ∧
    (-1 : Int) < 0 ∧
    sampleArray.deserialize (readSizeByte refill) refill 0 (smallBuffer.flip, [255, 7]) =
      some (.ok (sampleArray,
        ({ smallBuffer with position := 1, limit := 2, buffer := [255, 7] }, []))) :=
  have hread : readSizeByte refill (smallBuffer.flip, [255, 7]) =
      .ok (-1, ({ smallBuffer with position := 1, limit := 2, buffer := [255, 7] }, [])) := by
    rfl
  ⟨hread, by decide,
    C7_deserialize_sentinel_amended (readSizeByte refill) refill sampleArray 0
      (smallBuffer.flip, [255, 7]) _ (-1) hread (by decide)⟩

/-- C8, the code at the failing input: an array of capacity 0 that is not
capacity-mutable receives the size 1 and one element byte.  `setCapacity(1)`
is rejected, the capacity stays 0, the element is stored at index 0 outside
the block (the ghost flag is raised), and the length is set to 1. -/
theorem C8_deserialize_fixed_capacity_overrun :
    fixedArray.deserialize (readSizeByte refill) refill 2 (smallBuffer.flip, [1, 7]) =
      some (.ok ({ value := { cells := [], fault := true }, capacity := 0, length := 1,
                   immutable := false, capacityMutable := false,
                   messages := ["not capacityMutable"], postPuts := 1 },
        ({ smallBuffer with position := 2, limit := 2, buffer := [1, 7] }, []))) := by
  rfl

/-! ### The writing side: putByte, the element loop and the streaming loop -/

namespace ByteBuffer

theorem take_succ_set (l : List Nat) (p x : Nat) (h : p < l.length) :
    (l.set p x).take (p + 1) = l.take p ++ [x] := by
  rw [List.set_eq_take_append_cons_drop, if_pos h, List.take_append_eq_append_take]
  simp [List.length_take, Nat.min_eq_left (Nat.le_of_lt h)]

theorem putByte_ok (b : ByteBuffer) (v : Int) (h : b.position < b.limit) :
    b.putByte v = (.ok (), b.store (toUnsigned 8 v)) := by
  simp [putByte, h]

theorem written_store (b : ByteBuffer) (x : Nat) (h0 : 0 ≤ b.position)
    (h : b.position.toNat < b.buffer.length) :
    (b.store x).written = b.written ++ [x] := by
  have e1 : (b.position + 1).toNat = b.position.toNat + 1 := by omega
  simp only [written, store, e1]
  exact take_succ_set b.buffer b.position.toNat x h

/-- A store under the limit keeps the buffer in order and uses one free byte. -/
theorem store_ready (b : ByteBuffer) (x : Nat) (hc : b.CursorInv) (ha : b.Allocated)
    (h : b.position < b.limit) :
    (b.store x).CursorInv ∧ (b.store x).Allocated ∧
    (b.store x).getRemaining = b.getRemaining - 1 ∧ (b.store x).written = b.written ++ [x] := by
  obtain ⟨h1, h2, h3⟩ := hc
  obtain ⟨h4, h5⟩ := ha
  refine ⟨?_, ?_, ?_, ?_⟩
  · simp only [CursorInv, store]; omega
  · simp only [Allocated, store, List.length_set]; omega
  · simp only [getRemaining, store]; omega
  · exact written_store b x h1 (by omega)

end ByteBuffer

namespace BasePVByteArray

theorem drop_take_succ (l : List Nat) (i n : Nat) (h : i < l.length) :
    (l.drop i).take (n + 1) = l.getD i 0 :: (l.drop (i + 1)).take n := by
  rw [List.drop_eq_getElem_cons h, List.take_succ_cons, List.getD_eq_getElem _ _ h]

theorem drop_take_add (l : List Nat) (i k m : Nat) :
    (l.drop i).take k ++ (l.drop (i + k)).take m = (l.drop i).take (k + m) := by
  rw [List.take_add, List.drop_drop]

/-- The inner loop of `serialize` writes `n` consecutive elements when they
fit in the buffer, and it does not throw. -/
theorem putElements_ok (value : Mem) (hbytes : ∀ x ∈ value.cells, x < 256) :
    ∀ (n : Nat) (i : Int) (b : ByteBuffer), b.CursorInv → b.Allocated →
      (n : Int) ≤ b.getRemaining → 0 ≤ i → i + n ≤ value.cells.length →
      ∃ b1, putElements value n i b = .ok b1 ∧ b1.CursorInv ∧ b1.Allocated ∧
        b1.size = b.size ∧ b1.getRemaining = b.getRemaining - n ∧
        b1.written = b.written ++ (value.cells.drop i.toNat).take n := by
  intro n
  induction n with
  | zero =>
    intro i b hc ha _ _ _
    exact ⟨b, rfl, hc, ha, rfl, by simp, by simp⟩
  | succ n ih =>
    intro i b hc ha hrem hi hfit
    have hlt : b.position < b.limit := by
      simp only [ByteBuffer.getRemaining] at hrem; omega
    have hin : i.toNat < value.cells.length := by omega
    have hcell : value.load i = value.cells.getD i.toNat 0 := by simp [Mem.load, hi]
    have hlt256 : value.cells.getD i.toNat 0 < 256 := by
      rw [List.getD_eq_getElem _ _ hin]
      exact hbytes _ (List.getElem_mem _)
    obtain ⟨s1, s2, s3, s4⟩ := ByteBuffer.store_ready b (value.cells.getD i.toNat 0) hc ha hlt
    obtain ⟨b1, e1, e2, e3, e4, e5, e6⟩ := ih (i + 1) (b.store (value.cells.getD i.toNat 0))
      s1 s2 (by rw [s3]; push_cast at hrem; omega) (by omega) (by push_cast at hfit; omega)
    refine ⟨b1, ?_, e2, e3, ?_, ?_, ?_⟩
    · simp only [putElements, ByteBuffer.putByte_ok b _ hlt, hcell,
        toUnsigned_toSigned_8 _ hlt256]
      exact e1
    · rw [e4]; rfl
    · rw [e5, s3]; push_cast; omega
    · have e7 : (i + 1).toNat = i.toNat + 1 := by omega
      rw [e6, s4, e7, drop_take_succ _ _ _ hin]
      simp

/-- The streaming loop of `serialize`, entered with a free byte in the buffer
or with nothing left to write: it ends within `stop - i + 1` rounds and
appends exactly the elements `i .. stop - 1`. -/
theorem serializeLoop_ok {σ : Type} (out : σ → List Nat)
    (flush : ByteBuffer × σ → Except String (ByteBuffer × σ)) (hflush : FlushOk out flush)
    (value : Mem) (hbytes : ∀ x ∈ value.cells, x < 256) (stop : Int)
    (hstop : stop ≤ value.cells.length) :
    ∀ (fuel : Nat) (i : Int) (s : ByteBuffer × σ), Ready s → 0 ≤ i → i ≤ stop →
      (1 ≤ s.1.getRemaining ∨ i = stop) → (stop - i).toNat + 1 ≤ fuel →
      ∃ s1, serializeLoop flush value stop fuel i s = some (.ok s1) ∧ Ready s1 ∧
        drained out s1 = drained out s ++ (value.cells.drop i.toNat).take (stop - i).toNat := by
  intro fuel
  induction fuel with
  | zero => intro i s _ _ _ _ hf; omega
  | succ fuel ih =>
    intro i s hs hi his hrem hf
    obtain ⟨hc, ha, hsz⟩ := hs
    have hrem0 : 0 ≤ s.1.getRemaining := by
      simp only [ByteBuffer.getRemaining]; have := hc.2.1; omega
    have hk0 : 0 ≤ min (stop - i) s.1.getRemaining := by omega
    have ek : min (stop - i) s.1.getRemaining + i - i = min (stop - i) s.1.getRemaining := by
      omega
    obtain ⟨b1, e1, e2, e3, e4, e5, e6⟩ := putElements_ok value hbytes
      (min (stop - i) s.1.getRemaining).toNat i s.1 hc ha (by omega) hi (by omega)
    simp only [serializeLoop, ek, e1]
    by_cases hmore : (if i < min (stop - i) s.1.getRemaining + i
        then min (stop - i) s.1.getRemaining + i else i) < stop
    · rw [if_pos hmore]
      have hi1 : (if i < min (stop - i) s.1.getRemaining + i
          then min (stop - i) s.1.getRemaining + i else i) = i + s.1.getRemaining := by
        split at hmore <;> split <;> omega
      rw [hi1] at hmore ⊢
      have hkrem : min (stop - i) s.1.getRemaining = s.1.getRemaining := by omega
      rw [hkrem] at e6 e5
      obtain ⟨s2, f1, f2, f3, f4⟩ := hflush (b1, s.2) ⟨e2, e3, by rw [e4]; exact hsz⟩
      rw [f1]
      obtain ⟨s3, g1, g2, g3⟩ := ih (i + s.1.getRemaining) s2 f2 (by omega) (by omega)
        (Or.inl f3) (by omega)
      refine ⟨s3, g1, g2, ?_⟩
      rw [g3, f4]
      simp only [drained, e6, List.append_assoc]
      have e7 : (i + s.1.getRemaining).toNat = i.toNat + s.1.getRemaining.toNat := by omega
      have e8 : (stop - i).toNat =
          s.1.getRemaining.toNat + (stop - (i + s.1.getRemaining)).toNat := by omega
      rw [e7, drop_take_add, ← e8]
    · rw [if_neg hmore]
      have hkstop : min (stop - i) s.1.getRemaining = stop - i := by
        split at hmore <;> omega
      rw [hkstop] at e6
      refine ⟨(b1, s.2), rfl, ⟨e2, e3, by rw [e4]; exact hsz⟩, ?_⟩
      simp only [drained, e6, List.append_assoc]

/-- The streaming loop of `serialize` from any ready channel: one more round
covers a buffer that is full on entry. -/
theorem serializeLoop_ok_any {σ : Type} (out : σ → List Nat)
    (flush : ByteBuffer × σ → Except String (ByteBuffer × σ)) (hflush : FlushOk out flush)
    (value : Mem) (hbytes : ∀ x ∈ value.cells, x < 256) (stop : Int)
    (hstop : stop ≤ value.cells.length) (fuel : Nat) (i : Int) (s : ByteBuffer × σ)
    (hs : Ready s) (hi : 0 ≤ i) (his : i ≤ stop) (hf : (stop - i).toNat + 2 ≤ fuel) :
    ∃ s1, serializeLoop flush value stop fuel i s = some (.ok s1) ∧ Ready s1 ∧
      drained out s1 = drained out s ++ (value.cells.drop i.toNat).take (stop - i).toNat := by
  by_cases hrem : 1 ≤ s.1.getRemaining ∨ i = stop
  · exact serializeLoop_ok out flush hflush value hbytes stop hstop fuel i s hs hi his hrem
      (by omega)
  · obtain ⟨fuel, rfl⟩ : ∃ k, fuel = k + 1 := ⟨fuel - 1, by omega⟩
    have hs' := hs
    obtain ⟨hc, ha, hsz⟩ := hs'
    have hrem0 : s.1.getRemaining = 0 := by
      have : 0 ≤ s.1.getRemaining := by
        simp only [ByteBuffer.getRemaining]; have := hc.2.1; omega
      omega
    have hlt : i < stop := by omega
    have ek : min (stop - i) 0 + i - i = 0 := by omega
    have ei : (if i < min (stop - i) 0 + i then min (stop - i) 0 + i else i) = i := by
      split <;> omega
    obtain ⟨s2, f1, f2, f3, f4⟩ := hflush (s.1, s.2) hs
    simp only [serializeLoop, hrem0, ek, Int.toNat_zero, putElements, ei, if_pos hlt, f1]
    obtain ⟨s3, g1, g2, g3⟩ := serializeLoop_ok out flush hflush value hbytes stop hstop fuel i
      s2 f2 hi his (Or.inl f3) (by omega)
    exact ⟨s3, g1, g2, by rw [g3, f4]⟩

end BasePVByteArray

/-! ### serialize -/

theorem drainFlush_ok : FlushOk id drainFlush := by
  intro s hs
  obtain ⟨hc, ha, hsz⟩ := hs
  refine ⟨(s.1.clear, s.2 ++ s.1.written), rfl, ⟨?_, ?_, ?_⟩, ?_, ?_⟩
  · simp only [ByteBuffer.CursorInv, ByteBuffer.clear]; omega
  · exact ha
  · exact hsz
  · simp only [ByteBuffer.getRemaining, ByteBuffer.clear]; omega
  · simp [drained, ByteBuffer.written, ByteBuffer.clear]

/-- The one-byte codec of the sample runs meets the contract of `writeSize`
over any flusher that meets its own. -/
theorem writeSizeByte_ok {σ : Type} (out : σ → List Nat)
    (flush : ByteBuffer × σ → Except String (ByteBuffer × σ)) (hflush : FlushOk out flush)
    (n : Int) : WriteSizeOk out (writeSizeByte flush) n [toUnsigned 8 n] := by
  intro s hs
  have key : ∀ t : ByteBuffer × σ, Ready t → 1 ≤ t.1.getRemaining →
      ∃ s1, (match t.1.putByte n with
          | (.ok _, b) => (Except.ok (b, t.2) : Except String (ByteBuffer × σ))
          | (.error e, _) => .error e) = .ok s1 ∧ Ready s1 ∧
        drained out s1 = drained out t ++ [toUnsigned 8 n] := by
    intro t ht hrem
    obtain ⟨hc, ha, hsz⟩ := ht
    have hlt : t.1.position < t.1.limit := by
      simp only [ByteBuffer.getRemaining] at hrem; omega
    obtain ⟨s1, s2, s3, s4⟩ := ByteBuffer.store_ready t.1 (toUnsigned 8 n) hc ha hlt
    rw [ByteBuffer.putByte_ok _ _ hlt]
    exact ⟨_, rfl, ⟨s1, s2, hsz⟩, by simp [drained, s4]⟩
  unfold writeSizeByte
  by_cases hfull : s.1.getRemaining < 1
  · obtain ⟨s2, f1, f2, f3, f4⟩ := hflush s hs
    obtain ⟨s3, g1, g2, g3⟩ := key s2 f2 f3
    rw [if_pos hfull, f1]
    exact ⟨s3, g1, g2, by rw [g3, f4]⟩
  · obtain ⟨s3, g1, g2, g3⟩ := key s hs (by omega)
    rw [if_neg hfull]
    exact ⟨s3, g1, g2, g3⟩

namespace BasePVByteArray

/-- The bounds check of `serialize` computes the clamped range. -/
theorem serialize_eq {σ : Type}
    (writeSize : Int → ByteBuffer × σ → Except String (ByteBuffer × σ))
    (flush : ByteBuffer × σ → Except String (ByteBuffer × σ))
    (a : BasePVByteArray) (fuel : Nat) (s : ByteBuffer × σ) (offset count : Int)
    (hl : 0 ≤ a.length) :
    a.serialize writeSize flush fuel s offset count =
      serializeWrite writeSize flush a.value fuel s (clampOffset a.length offset)
        (clampCount a.length offset count) := by
  have eo : (if offset < 0 then 0 else if offset > a.length then a.length else offset) =
      clampOffset a.length offset := by
    unfold clampOffset
    split
    · omega
    · split <;> omega
  have ec : (if (if count < 0 then a.length else count) > a.length - clampOffset a.length offset
      then a.length - clampOffset a.length offset
      else (if count < 0 then a.length else count)) = clampCount a.length offset count := by
    have h0 : 0 ≤ clampOffset a.length offset := by unfold clampOffset; omega
    unfold clampCount
    split
    · split <;> omega
    · split <;> omega
  simp only [serialize, getLength, eo, ec]

theorem clamp_bounds (L offset count : Int) (hl : 0 ≤ L) :
    0 ≤ clampOffset L offset ∧ 0 ≤ clampCount L offset count ∧
    clampOffset L offset + clampCount L offset count ≤ L := by
  unfold clampCount clampOffset
  split <;> omega

/-- With collaborators that meet their contracts `serialize` returns and
appends the wire form of the clamped count and then the clamped range. -/
theorem serialize_ok {σ : Type} (out : σ → List Nat)
    (writeSize : Int → ByteBuffer × σ → Except String (ByteBuffer × σ))
    (flush : ByteBuffer × σ → Except String (ByteBuffer × σ))
    (a : BasePVByteArray) (offset count : Int) (enc : List Nat) (s : ByteBuffer × σ)
    (fuel : Nat) (hwf : a.WellFormed) (hflush : FlushOk out flush)
    (hws : WriteSizeOk out writeSize (clampCount a.length offset count) enc)
    (hs : Ready s) (hfuel : (clampCount a.length offset count).toNat + 2 ≤ fuel) :
    ∃ s1, a.serialize writeSize flush fuel s offset count = some (.ok s1) ∧ Ready s1 ∧
      drained out s1 = drained out s ++ enc ++
        a.slice (clampOffset a.length offset) (clampCount a.length offset count) := by
  obtain ⟨hlen, hfault, hl0, hlc, hbytes⟩ := hwf
  obtain ⟨b0, b1, b2⟩ := clamp_bounds a.length offset count hl0
  obtain ⟨s1, w1, w2, w3⟩ := hws s hs
  rw [serialize_eq writeSize flush a fuel s offset count hl0]
  simp only [serializeWrite, w1]
  obtain ⟨s2, g1, g2, g3⟩ := serializeLoop_ok_any out flush hflush a.value hbytes
    (clampOffset a.length offset + clampCount a.length offset count) (by omega) fuel
    (clampOffset a.length offset) s1 w2 b0 (by omega) (by
      have : clampOffset a.length offset + clampCount a.length offset count -
        clampOffset a.length offset = clampCount a.length offset count := by omega
      rw [this]; exact hfuel)
  refine ⟨s2, g1, g2, ?_⟩
  have e : clampOffset a.length offset + clampCount a.length offset count -
      clampOffset a.length offset = clampCount a.length offset count := by omega
  rw [g3, w3, e]
  rfl

end BasePVByteArray

/-- C5: on a well-formed array of length `L`, for all integers `offset` and
`count`, `serialize(buffer, control, offset, count)` uses `offset'` =
`offset` clamped to `[0, L]` and `count'` = `L - offset'` if `count < 0`,
else `min(count, L - offset')`: its write part runs on `offset'` and
`count'`, and with collaborators that meet their contracts it returns having
written the wire form of `count'` through the size codec followed by exactly
the elements at the indices `offset' .. offset'+count'-1`. -/
theorem C5_serialize_clamps_range {σ : Type} (out : σ → List Nat)
    (writeSize : Int → ByteBuffer × σ → Except String (ByteBuffer × σ))
    (flush : ByteBuffer × σ → Except String (ByteBuffer × σ))
    (a : BasePVByteArray) (offset count : Int) (enc : List Nat) (s : ByteBuffer × σ)
    (fuel : Nat) (hwf : a.WellFormed) (hflush : FlushOk out flush)
    (hws : WriteSizeOk out writeSize (clampCount a.length offset count) enc)
    (hs : Ready s) (hfuel : (clampCount a.length offset count).toNat + 2 ≤ fuel) :
    a.serialize writeSize flush fuel s offset count =
      BasePVByteArray.serializeWrite writeSize flush a.value fuel s
        (clampOffset a.length offset) (clampCount a.length offset count) ∧
    ∃ s1, a.serialize writeSize flush fuel s offset count = some (.ok s1) ∧
      drained out s1 = drained out s ++ enc ++
        a.slice (clampOffset a.length offset) (clampCount a.length offset count) := by
  refine ⟨BasePVByteArray.serialize_eq writeSize flush a fuel s offset count hwf.2.2.1, ?_⟩
  obtain ⟨s1, h1, _, h3⟩ := BasePVByteArray.serialize_ok out writeSize flush a offset count enc
    s fuel hwf hflush hws hs hfuel
  exact ⟨s1, h1, h3⟩

/-- Sample run for C5 through a two-byte buffer: `offset=2, count=3` on
`[10,20,30,40,50,60]` emits the size 3 followed by `[30,40,50]`, and an
offset beyond the length emits the size 0 and no element. -/
theorem C5_serialize_clamps_range_witness :
    sampleArray.WellFormed ∧ FlushOk id drainFlush ∧ Ready (smallBuffer, ([] : List Nat)) ∧
    (∃ s1, sampleArray.serialize (writeSizeByte drainFlush) drainFlush 5 (smallBuffer, []) 2 3
        = some (.ok s1) ∧ drained id s1 = [3, 30, 40, 50]) ∧
    (∃ s1, sampleArray.serialize (writeSizeByte drainFlush) drainFlush 5 (smallBuffer, []) 9 3
        = some (.ok s1) ∧ drained id s1 = [0]) := by
  have hwf : sampleArray.WellFormed := by simp [BasePVByteArray.WellFormed, sampleArray]
  have hs : Ready (smallBuffer, ([] : List Nat)) := by
    simp [Ready, ByteBuffer.CursorInv, ByteBuffer.Allocated, smallBuffer]
  refine ⟨hwf, drainFlush_ok, hs, ?_, ?_⟩
  · obtain ⟨s1, h1, h2⟩ := (C5_serialize_clamps_range id (writeSizeByte drainFlush) drainFlush
      sampleArray 2 3 _ (smallBuffer, []) 5 hwf drainFlush_ok
      (writeSizeByte_ok id drainFlush drainFlush_ok _) hs (by decide)).2
    exact ⟨s1, h1, h2.trans (by decide)⟩
  · obtain ⟨s1, h1, h2⟩ := (C5_serialize_clamps_range id (writeSizeByte drainFlush) drainFlush
      sampleArray 9 3 _ (smallBuffer, []) 5 hwf drainFlush_ok
      (writeSizeByte_ok id drainFlush drainFlush_ok _) hs (by decide)).2
    exact ⟨s1, h1, h2.trans (by decide)⟩

/-- C6: for every well-formed array and every range, serialized over any two
channels (buffers of any capacities of at least one byte, flushers that drain
the written bytes and leave a free byte, size codecs with the same wire
form), both runs return once the fuel covers `count' + 2` rounds, and the
drained bytes followed by the bytes left in the buffer are in both cases the
wire form of the element count followed by the selected elements in
ascending index order, each once and with nothing in between. -/
theorem C6_serialize_chunking_independent {σ₁ σ₂ : Type}
    (out₁ : σ₁ → List Nat)
    (writeSize₁ : Int → ByteBuffer × σ₁ → Except String (ByteBuffer × σ₁))
    (flush₁ : ByteBuffer × σ₁ → Except String (ByteBuffer × σ₁))
    (out₂ : σ₂ → List Nat)
    (writeSize₂ : Int → ByteBuffer × σ₂ → Except String (ByteBuffer × σ₂))
    (flush₂ : ByteBuffer × σ₂ → Except String (ByteBuffer × σ₂))
    (a : BasePVByteArray) (offset count : Int) (enc : List Nat)
    (s₁ : ByteBuffer × σ₁) (s₂ : ByteBuffer × σ₂)
    (hwf : a.WellFormed) (hflush₁ : FlushOk out₁ flush₁) (hflush₂ : FlushOk out₂ flush₂)
    (hws₁ : WriteSizeOk out₁ writeSize₁ (clampCount a.length offset count) enc)
    (hws₂ : WriteSizeOk out₂ writeSize₂ (clampCount a.length offset count) enc)
    (hs₁ : Ready s₁) (hs₂ : Ready s₂)
    (hempty₁ : drained out₁ s₁ = []) (hempty₂ : drained out₂ s₂ = []) :
    ∀ fuel₁ fuel₂, (clampCount a.length offset count).toNat + 2 ≤ fuel₁ →
      (clampCount a.length offset count).toNat + 2 ≤ fuel₂ →
      ∃ r₁ r₂, a.serialize writeSize₁ flush₁ fuel₁ s₁ offset count = some (.ok r₁) ∧
        a.serialize writeSize₂ flush₂ fuel₂ s₂ offset count = some (.ok r₂) ∧
        drained out₁ r₁ = enc ++
          a.slice (clampOffset a.length offset) (clampCount a.length offset count) ∧
        drained out₂ r₂ = drained out₁ r₁ := by
  intro fuel₁ fuel₂ hf₁ hf₂
  obtain ⟨r₁, a1, _, a3⟩ := BasePVByteArray.serialize_ok out₁ writeSize₁ flush₁ a offset count
    enc s₁ fuel₁ hwf hflush₁ hws₁ hs₁ hf₁
  obtain ⟨r₂, b1, _, b3⟩ := BasePVByteArray.serialize_ok out₂ writeSize₂ flush₂ a offset count
    enc s₂ fuel₂ hwf hflush₂ hws₂ hs₂ hf₂
  refine ⟨r₁, r₂, a1, b1, ?_, ?_⟩
  · rw [a3, hempty₁]; simp
  · rw [a3, b3, hempty₁, hempty₂]

/-- Sample run for C6: the whole of `[10,20,30,40,50,60]` through a two-byte
buffer and through an eight-byte buffer gives the same seven bytes. -/
theorem C6_serialize_chunking_independent_witness :
    sampleArray.WellFormed ∧ FlushOk id drainFlush ∧
    Ready (smallBuffer, ([] : List Nat)) ∧ Ready (sampleBuffer.clear, ([] : List Nat)) ∧
    ∃ r₁ r₂,
      sampleArray.serialize (writeSizeByte drainFlush) drainFlush 8 (smallBuffer, []) 0 (-1)
        = some (.ok r₁) ∧
      sampleArray.serialize (writeSizeByte drainFlush) drainFlush 9
        (sampleBuffer.clear, []) 0 (-1) = some (.ok r₂) ∧
      drained id r₁ = [6, 10, 20, 30, 40, 50, 60] ∧
      drained id r₂ = drained id r₁ := by
  have hwf : sampleArray.WellFormed := by simp [BasePVByteArray.WellFormed, sampleArray]
  have hs₁ : Ready (smallBuffer, ([] : List Nat)) := by
    simp [Ready, ByteBuffer.CursorInv, ByteBuffer.Allocated, smallBuffer]
  have hs₂ : Ready (sampleBuffer.clear, ([] : List Nat)) := by
    simp [Ready, ByteBuffer.CursorInv, ByteBuffer.Allocated, sampleBuffer, ByteBuffer.clear]
  obtain ⟨r₁, r₂, h1, h2, h3, h4⟩ :=
    C6_serialize_chunking_independent id (writeSizeByte drainFlush) drainFlush
      id (writeSizeByte drainFlush) drainFlush sampleArray 0 (-1) _
      (smallBuffer, []) (sampleBuffer.clear, []) hwf drainFlush_ok drainFlush_ok
      (writeSizeByte_ok id drainFlush drainFlush_ok _)
      (writeSizeByte_ok id drainFlush drainFlush_ok _) hs₁ hs₂ rfl rfl 8 9
      (by decide) (by decide)
  exact ⟨hwf, drainFlush_ok, hs₁, hs₂, r₁, r₂, h1, h2, h3.trans (by decide), h4⟩

/-! ### The reading side: the bulk get and the streaming loop -/

namespace ByteBuffer

theorem unread_length (b : ByteBuffer) (hc : b.CursorInv) (ha : b.Allocated) :
    (b.unread.length : Int) = b.getRemaining := by
  obtain ⟨h1, h2, h3⟩ := hc
  obtain ⟨h4, h5⟩ := ha
  simp only [unread, getRemaining, List.length_drop, List.length_take]
  omega

theorem unread_cons (b : ByteBuffer) (hc : b.CursorInv) (ha : b.Allocated)
    (hlt : b.position < b.limit) :
    b.unread = b.buffer.getD b.position.toNat 0 ::
      ({ b with position := b.position + 1 } : ByteBuffer).unread := by
  obtain ⟨h1, h2, h3⟩ := hc
  obtain ⟨h4, h5⟩ := ha
  have e1 : (b.position + 1).toNat = b.position.toNat + 1 := by omega
  have hp : b.position.toNat < (b.buffer.take b.limit.toNat).length := by
    simp only [List.length_take]; omega
  have hb : b.position.toNat < b.buffer.length := by omega
  simp only [unread, e1]
  rw [List.drop_eq_getElem_cons hp, List.getElem_take, List.getD_eq_getElem _ _ hb]

theorem unread_take (b : ByteBuffer) (n : Nat) (hn : b.position.toNat + n ≤ b.limit.toNat) :
    b.unread.take n = (b.buffer.drop b.position.toNat).take n := by
  simp only [unread, List.drop_take, List.take_take]
  congr 1
  omega

theorem unread_advance (b : ByteBuffer) (n : Int) (h0 : 0 ≤ b.position) (hn : 0 ≤ n) :
    ({ b with position := b.position + n } : ByteBuffer).unread = b.unread.drop n.toNat := by
  have e1 : (b.position + n).toNat = b.position.toNat + n.toNat := by omega
  simp only [unread, e1, List.drop_drop]

theorem foldl_getBulkStep_eq (offset : Int) (n : Nat) (dst : Mem) (b : ByteBuffer)
    (h0 : 0 ≤ b.position) :
    (List.range n).foldl (getBulkStep offset) (dst, b) =
      ((List.range n).foldl
          (fun m (j : Nat) => m.store (offset + j) (b.buffer.getD (b.position.toNat + j) 0)) dst,
        { b with position := b.position + n }) := by
  induction n with
  | zero => simp
  | succ n ih =>
    rw [List.range_succ, List.foldl_append, List.foldl_append, ih]
    have e1 : (b.position + (n : Int)).toNat = b.position.toNat + n := by omega
    simp [getBulkStep, e1, Int.add_assoc]

/-- The bulk `get` of `n` readable bytes into the cells `i .. i+n-1` of a
block that has them. -/
theorem get_ok (b : ByteBuffer) (dst : Mem) (i n : Int) (hc : b.CursorInv) (ha : b.Allocated)
    (hn0 : 0 ≤ n) (hn : n ≤ b.getRemaining) (hi : 0 ≤ i) (hfit : i + n ≤ dst.cells.length) :
    b.get dst i n =
      (.ok { cells := dst.cells.take i.toNat ++ b.unread.take n.toNat ++
               dst.cells.drop (i.toNat + n.toNat),
             fault := dst.fault },
        { b with position := b.position + n }) := by
  obtain ⟨h1, h2, h3⟩ := hc
  obtain ⟨h4, h5⟩ := ha
  simp only [getRemaining] at hn
  have hnot : ¬ n > b.getRemaining := by simp only [getRemaining]; omega
  simp only [get, if_neg hnot]
  rw [foldl_getBulkStep_eq i _ dst b h1]
  rw [Mem.foldl_store_range dst i (fun (j : Nat) => i + (j : Int))
    (fun (j : Nat) => b.buffer.getD (b.position.toNat + j) 0) (by intro j; rfl) _ hi (by omega)]
  rw [map_getD_add_range b.buffer b.position.toNat n.toNat (by omega),
    unread_take b n.toNat (by omega)]
  have e : ((n.toNat : Nat) : Int) = n := by omega
  rw [e]

end ByteBuffer

namespace BasePVByteArray

/-- One round of the loop of `deserialize` seen on the stream: the `k` bytes
read are the first `k` bytes of `data`, and what is left to come afterwards
is the rest of `data` followed by `rest`. -/
theorem pending_split {σ : Type} (inp : σ → List Nat) (s : ByteBuffer × σ)
    (data rest : List Nat) (k : Int) (hc : s.1.CursorInv) (ha : s.1.Allocated)
    (hp : pending inp s = data ++ rest) (hk0 : 0 ≤ k) (hk1 : k ≤ s.1.getRemaining)
    (hk2 : k ≤ data.length) :
    s.1.unread.take k.toNat = data.take k.toNat ∧
    pending inp (({ s.1 with position := s.1.position + k } : ByteBuffer), s.2) =
      data.drop k.toNat ++ rest := by
  have hul := ByteBuffer.unread_length s.1 hc ha
  constructor
  · have h1 := congrArg (List.take k.toNat) hp
    simp only [pending] at h1
    rwa [List.take_append_of_le_length (by omega),
      List.take_append_of_le_length (by omega)] at h1
  · have h1 := congrArg (List.drop k.toNat) hp
    simp only [pending] at h1 ⊢
    rw [List.drop_append_of_le_length (by omega),
      List.drop_append_of_le_length (by omega)] at h1
    rw [ByteBuffer.unread_advance s.1 _ hc.1 hk0]
    exact h1

/-- The block after one round of the loop of `deserialize`, cut at the new
index and at `size`. -/
theorem block_after_round (cells data : List Nat) (i k size : Nat) (hi : i + k ≤ size)
    (hsize : size ≤ cells.length) (hk : k ≤ data.length) :
    (cells.take i ++ data.take k ++ cells.drop (i + k)).take (i + k) ++ data.drop k ++
        (cells.take i ++ data.take k ++ cells.drop (i + k)).drop size =
      cells.take i ++ data ++ cells.drop size := by
  have hA : (cells.take i ++ data.take k).length = i + k := by
    simp only [List.length_append, List.length_take]; omega
  have e2 : size = (i + k) + (size - (i + k)) := by omega
  rw [List.take_left' hA]
  conv => lhs; rw [e2, ← hA, List.drop_append, hA, List.drop_drop, ← e2]
  simp only [List.append_assoc]
  rw [← List.append_assoc (data.take _), List.take_append_drop]

/-- The streaming loop of `deserialize`: from a stream that starts with the
`size - i` bytes `data`, it ends within `size - i + 2` rounds, stores `data`
into the cells `i .. size-1` of the block and consumes nothing else. -/
theorem deserializeLoop_ok {σ : Type} (inp : σ → List Nat)
    (ensureData : Int → ByteBuffer × σ → Except String (ByteBuffer × σ))
    (hens : EnsureDataOk inp ensureData) (size : Int) :
    ∀ (fuel : Nat) (i : Int) (value : Mem) (s : ByteBuffer × σ) (data rest : List Nat),
      Ready s → 0 ≤ i → i ≤ size → size ≤ value.cells.length →
      pending inp s = data ++ rest → (data.length : Int) = size - i →
      (size - i).toNat + 1 ≤ fuel →
      (s.1.getRemaining < 1 → i < size → (size - i).toNat + 2 ≤ fuel) →
      ∃ s1, deserializeLoop ensureData size fuel i value s =
          some (.ok ({ cells := value.cells.take i.toNat ++ data ++ value.cells.drop size.toNat,
                       fault := value.fault }, s1)) ∧
        Ready s1 ∧ pending inp s1 = rest := by
  intro fuel
  induction fuel with
  | zero => intro i value s data rest _ _ _ _ _ _ hf; omega
  | succ fuel ih =>
    intro i value s data rest hs hi his hsize hp hdata hf hf2
    obtain ⟨hc, ha, hsz⟩ := hs
    have hrem0 : 0 ≤ s.1.getRemaining := by
      simp only [ByteBuffer.getRemaining]; have := hc.2.1; omega
    obtain ⟨k, hk⟩ : ∃ k, k = min (size - i) s.1.getRemaining := ⟨_, rfl⟩
    have hk0 : 0 ≤ k := by omega
    have hget := ByteBuffer.get_ok s.1 value i k hc ha hk0 (by omega) hi (by omega)
    obtain ⟨htake, hdrop⟩ := pending_split inp s data rest k hc ha hp hk0 (by omega) (by omega)
    have hready1 : Ready (({ s.1 with position := s.1.position + k } : ByteBuffer), s.2) := by
      obtain ⟨c1, c2, c3⟩ := hc
      refine ⟨?_, ha, hsz⟩
      simp only [ByteBuffer.CursorInv, ByteBuffer.getRemaining] at *
      omega
    simp only [deserializeLoop, ← hk, hget, htake]
    by_cases hmore : i + k < size
    · rw [if_pos hmore]
      have hne : pending inp (({ s.1 with position := s.1.position + k } : ByteBuffer), s.2)
          ≠ [] := by
        rw [hdrop]
        intro hnil
        have := congrArg List.length hnil
        simp only [List.length_append, List.length_drop, List.length_nil] at this
        omega
      obtain ⟨s2, f1, f2, f3, f4⟩ := hens _ hready1 hne
      rw [f1]
      have hlen1 : (({ cells := value.cells.take i.toNat ++ data.take k.toNat ++
          value.cells.drop (i.toNat + k.toNat), fault := value.fault } : Mem).cells.length : Int)
          = value.cells.length := by
        simp only [List.length_append, List.length_take, List.length_drop]
        omega
      obtain ⟨s3, g1, g2, g3⟩ := ih (i + k) _ s2 (data.drop k.toNat) rest f2 (by omega)
        (by omega) (by rw [hlen1]; exact hsize) (by rw [f4, hdrop])
        (by simp only [List.length_drop]; omega) (by
          by_cases hz : s.1.getRemaining < 1
          · have := hf2 hz (by omega); omega
          · omega) (by intro h; omega)
      refine ⟨s3, g1.trans ?_, g2, g3⟩
      have e3 : (i + k).toNat = i.toNat + k.toNat := by omega
      have hb := block_after_round value.cells data i.toNat k.toNat size.toNat (by omega)
        (by omega) (by omega)
      simp only [e3, hb]
    · rw [if_neg hmore]
      have hkstop : k = size - i := by omega
      refine ⟨_, ?_, hready1, ?_⟩
      · have e4 : i.toNat + k.toNat = size.toNat := by omega
        rw [e4, List.take_of_length_le (show data.length ≤ k.toNat by omega)]
      · rw [hdrop, List.drop_of_length_le (show data.length ≤ k.toNat by omega)]
        rfl

end BasePVByteArray

namespace BasePVByteArray

/-- The loop of `deserialize` on a prepared block: it fills the first `n`
cells with the element bytes of the stream and leaves the block in bounds. -/
theorem deserialize_fill {σ : Type} (inp : σ → List Nat)
    (ensureData : Int → ByteBuffer × σ → Except String (ByteBuffer × σ))
    (hens : EnsureDataOk inp ensureData) (a1 : BasePVByteArray) (n : Int)
    (data rest : List Nat) (s1 : ByteBuffer × σ) (fuel : Nat)
    (hcells : (a1.value.cells.length : Int) = a1.capacity) (hcap : n ≤ a1.capacity)
    (hfault : a1.value.fault = false) (hs : Ready s1) (hp : pending inp s1 = data ++ rest)
    (hn : (data.length : Int) = n) (hfuel : n.toNat + 2 ≤ fuel) :
    ∃ v s2, deserializeLoop ensureData n fuel 0 a1.value s1 = some (.ok (v, s2)) ∧
      v.cells.take n.toNat = data ∧ v.fault = false ∧
      (v.cells.length : Int) = a1.capacity ∧ Ready s2 ∧ pending inp s2 = rest := by
  obtain ⟨s2, g1, g2, g3⟩ := deserializeLoop_ok inp ensureData hens n fuel 0 a1.value s1 data
    rest hs (le_refl 0) (by omega) (by omega) hp (by omega) (by omega) (by intro _ _; omega)
  refine ⟨_, s2, g1, ?_, hfault, ?_, g2, g3⟩
  · simp only [Int.toNat_zero, List.take_zero, List.nil_append]
    exact List.take_left' (by omega)
  · simp only [Int.toNat_zero, List.take_zero, List.nil_append,
      List.length_append, List.length_drop]
    omega

/-- With collaborators that meet their contracts and a block that can hold
the decoded count, `deserialize` returns with the length set to the count
and the first cells holding the element bytes of the stream, in order. -/
theorem deserialize_ok {σ : Type} (inp : σ → List Nat)
    (readSize : ByteBuffer × σ → Except String (Int × (ByteBuffer × σ)))
    (ensureData : Int → ByteBuffer × σ → Except String (ByteBuffer × σ))
    (a : BasePVByteArray) (n : Int) (enc data rest : List Nat) (s : ByteBuffer × σ)
    (fuel : Nat) (hwf : a.WellFormed) (hgrow : a.capacityMutable = true ∨ n ≤ a.capacity)
    (hens : EnsureDataOk inp ensureData) (hrs : ReadSizeOk inp readSize n enc)
    (hs : Ready s) (hp : pending inp s = enc ++ (data ++ rest))
    (hn : (data.length : Int) = n) (hfuel : n.toNat + 2 ≤ fuel) :
    ∃ a1 s1, a.deserialize readSize ensureData fuel s = some (.ok (a1, s1)) ∧
      a1.length = n ∧ a1.capacity = max a.capacity n ∧ a1.value.cells.take n.toNat = data ∧
      a1.value.fault = false ∧ (a1.value.cells.length : Int) = a1.capacity ∧
      Ready s1 ∧ pending inp s1 = rest := by
  have hwf' := hwf
  obtain ⟨hlen, hfault, hl0, hlc, hbytes⟩ := hwf'
  have hn0 : n ≥ 0 := by omega
  obtain ⟨s1, r1, r2, r3⟩ := hrs s (data ++ rest) hs hp
  simp only [deserialize, r1, if_pos hn0, getCapacity]
  by_cases hbig : n > a.capacity
  · have hm : a.capacityMutable = true := by
      rcases hgrow with h | h
      · exact h
      · omega
    have hsc := setCapacity_eq a n hwf hm (by omega) (by omega)
    have hsc2 : a.setCapacity n = (.ok (), (a.setCapacity n).2) := by rw [hsc]
    simp only [if_pos hbig]
    rw [hsc2]
    obtain ⟨v, s2, h1, h4, h5, h6, h7, h8⟩ := deserialize_fill inp ensureData hens
      (a.setCapacity n).2 n data rest s1 fuel
      (by rw [hsc]; simp only [List.length_append, List.length_take, List.length_replicate]
          omega)
      (by rw [hsc]) (by rw [hsc]) r2 r3 hn hfuel
    simp only [h1]
    have hcapn : (a.setCapacity n).2.capacity = n := by rw [hsc]
    refine ⟨_, s2, rfl, rfl, ?_, h4, h5, ?_, h7, h8⟩
    · simp only [setLength, postPut, hcapn]; omega
    · simp only [setLength, postPut]; exact h6
  · simp only [if_neg hbig]
    obtain ⟨v, s2, h1, h4, h5, h6, h7, h8⟩ := deserialize_fill inp ensureData hens
      a n data rest s1 fuel hlen (by omega) hfault r2 r3 hn hfuel
    simp only [h1]
    refine ⟨_, s2, rfl, rfl, ?_, h4, h5, ?_, h7, h8⟩
    · simp only [setLength, postPut]; omega
    · simp only [setLength, postPut]; exact h6

end BasePVByteArray

/-- The chunked refill of the round-trip property meets the contract of
`ensureData(1)`. -/
theorem refill_ok : EnsureDataOk id refill := by
  intro s hs hne
  have hs' := hs
  obtain ⟨hc, ha, hsz⟩ := hs'
  by_cases hrem : 1 ≤ s.1.getRemaining
  · exact ⟨s, by simp [refill, hrem], hs, hrem, rfl⟩
  · have hul := ByteBuffer.unread_length s.1 hc ha
    have hrem0 : 0 ≤ s.1.getRemaining := by
      simp only [ByteBuffer.getRemaining]; have := hc.2.1; omega
    have hun : s.1.unread = [] := List.length_eq_zero.mp (by omega)
    have hs2 : s.2 ≠ [] := by
      simpa [pending, hun] using hne
    have hpos : 0 < s.2.length := List.length_pos.mpr hs2
    have hlenle : (s.2.take s.1.size.toNat).length ≤ s.1.size.toNat := by
      simp only [List.length_take]; omega
    have hlen1 : 1 ≤ (s.2.take s.1.size.toNat).length := by
      simp only [List.length_take]; omega
    have hnot : ¬ (((s.2.take s.1.size.toNat).length : Int) < 1) := by omega
    apply Exists.intro
    refine ⟨?_, ?_⟩
    · simp only [refill, if_neg hrem, hun, List.nil_append, List.length_nil,
        Nat.sub_zero, if_neg hnot]
      rfl
    refine ⟨⟨?_, ?_, hsz⟩, ?_, ?_⟩
    · simp only [ByteBuffer.CursorInv]; omega
    · simp only [ByteBuffer.Allocated, List.length_append, List.length_replicate]
      have := ha.1
      omega
    · simp only [ByteBuffer.getRemaining]; omega
    · simp only [pending, ByteBuffer.unread, hun, List.nil_append, id, Int.toNat_ofNat,
        List.take_left, Int.toNat_zero, List.drop_zero, List.take_append_drop]
      have hun' := hun
      simp only [ByteBuffer.unread] at hun'
      rw [hun', List.nil_append]

/-- The reader of the one-byte codec of the sample runs meets the contract
of `readSize` for the counts of a signed byte, over any `ensureData` that
meets its own. -/
theorem readSizeByte_ok {σ : Type} (inp : σ → List Nat)
    (ensureData : Int → ByteBuffer × σ → Except String (ByteBuffer × σ))
    (hens : EnsureDataOk inp ensureData) (n : Int) (h1 : -128 ≤ n) (h2 : n < 128) :
    ReadSizeOk inp (readSizeByte ensureData) n [toUnsigned 8 n] := by
  intro s rest hs hp
  obtain ⟨s1, f1, f2, f3, f4⟩ := hens s hs (by rw [hp]; simp)
  obtain ⟨hc, ha, hsz⟩ := f2
  have hlt : s1.1.position < s1.1.limit := by
    simp only [ByteBuffer.getRemaining] at f3; omega
  have hcons := ByteBuffer.unread_cons s1.1 hc ha hlt
  have hp1 : pending inp s1 = [toUnsigned 8 n] ++ rest := by rw [f4, hp]
  simp only [pending, hcons, List.cons_append, List.singleton_append, List.cons.injEq] at hp1
  obtain ⟨hbyte, hrest⟩ := hp1
  refine ⟨(({ s1.1 with position := s1.1.position + 1 } : ByteBuffer), s1.2), ?_, ⟨?_, ha, hsz⟩,
    ?_⟩
  · simp only [readSizeByte, f1, ByteBuffer.getByte, if_pos hlt, ByteBuffer.next_fst,
      ByteBuffer.next_snd, hbyte, toSigned_toUnsigned_8 n h1 h2]
  · obtain ⟨c1, c2, c3⟩ := hc
    simp only [ByteBuffer.CursorInv]; omega
  · simpa [pending] using hrest

/-- C2: for every well-formed byte array of `N` elements and all transport
buffers of capacity at least 1 (in particular smaller than `N`), serializing
with the flush collaborator that appends the written bytes to an output
sequence and clears the buffer returns, and deserializing that byte sequence
into a new capacity-0 array, through a buffer refilled in chunks of at most
its capacity, returns and leaves the new array with length `N` and the
elements `[0, N)` equal to the original ones in the same order.  The size
codec is any pair that meets the `writeSize`/`readSize` contracts for `N`;
fuel for `N + 2` rounds of either loop is enough. -/
theorem C2_roundtrip_under_chunking
    (writeSize : Int → ByteBuffer × List Nat → Except String (ByteBuffer × List Nat))
    (readSize : ByteBuffer × List Nat → Except String (Int × (ByteBuffer × List Nat)))
    (a : BasePVByteArray) (enc : List Nat) (bw br : ByteBuffer)
    (hwf : a.WellFormed) (hbw : bw.Allocated) (hBw : 1 ≤ bw.size)
    (hbr : br.Allocated) (hBr : 1 ≤ br.size)
    (hws : WriteSizeOk id writeSize a.length enc)
    (hrs : ReadSizeOk id readSize a.length enc) :
    ∀ fuel₁ fuel₂, a.length.toNat + 2 ≤ fuel₁ → a.length.toNat + 2 ≤ fuel₂ →
      ∃ w, a.serializeFull writeSize drainFlush fuel₁ (bw.clear, []) = some (.ok w) ∧
        ∃ a1 r, BasePVByteArray.fresh.deserialize readSize refill fuel₂
            (br.clear.flip, drained id w) = some (.ok (a1, r)) ∧
          a1.length = a.length ∧ a1.value.fault = false ∧
          a1.value.cells.take a.length.toNat = a.value.cells.take a.length.toNat := by
  have hwf' := hwf
  obtain ⟨hlen, hfault, hl0, hlc, hbytes⟩ := hwf'
  have eo : clampOffset a.length 0 = 0 := by unfold clampOffset; omega
  have ec : clampCount a.length 0 a.length = a.length := by
    unfold clampCount; rw [eo]; split <;> omega
  intro fuel₁ fuel₂ hf₁ hf₂
  have hsw : Ready (bw.clear, ([] : List Nat)) := by
    refine ⟨?_, hbw, hBw⟩
    simp only [ByteBuffer.CursorInv, ByteBuffer.clear]; omega
  obtain ⟨w, w1, _, w3⟩ := BasePVByteArray.serialize_ok id writeSize drainFlush a 0 a.length
    enc (bw.clear, []) fuel₁ hwf drainFlush_ok (by rw [ec]; exact hws) hsw
    (by rw [ec]; exact hf₁)
  refine ⟨w, w1, ?_⟩
  have hbytesOut : drained id w = enc ++ (a.value.cells.take a.length.toNat ++ []) := by
    rw [w3, eo, ec]
    simp [drained, ByteBuffer.written, ByteBuffer.clear, BasePVByteArray.slice]
  have hsr : Ready (br.clear.flip, drained id w) := by
    refine ⟨?_, hbr, hBr⟩
    simp only [ByteBuffer.CursorInv, ByteBuffer.clear, ByteBuffer.flip]
    have := hbr.1
    omega
  have hfreshwf : BasePVByteArray.fresh.WellFormed := by
    simp [BasePVByteArray.WellFormed, BasePVByteArray.fresh]
  obtain ⟨a1, r, d1, d2, _, d4, d5, _, _, _⟩ := BasePVByteArray.deserialize_ok id readSize refill
    BasePVByteArray.fresh a.length enc (a.value.cells.take a.length.toNat) [] _ fuel₂
    hfreshwf (Or.inl rfl) refill_ok hrs hsr
    (by simp only [pending, id, ByteBuffer.unread, ByteBuffer.clear, ByteBuffer.flip,
          Int.toNat_zero, List.take_zero, List.drop_zero, List.nil_append]
        exact hbytesOut)
    (by simp only [List.length_take]; omega) hf₂
  exact ⟨a1, r, d1, d2, d5, d4⟩

/-- Sample run for C2: the six elements `[10,20,30,40,50,60]` through
two-byte buffers on both sides, with the one-byte size codec. -/
theorem C2_roundtrip_under_chunking_witness :
    sampleArray.WellFormed ∧ smallBuffer.Allocated ∧ 1 ≤ smallBuffer.size ∧
    WriteSizeOk id (writeSizeByte drainFlush) sampleArray.length [6] ∧
    ReadSizeOk id (readSizeByte refill) sampleArray.length [6] ∧
    ∃ w, sampleArray.serializeFull (writeSizeByte drainFlush) drainFlush 8
        (smallBuffer.clear, []) = some (.ok w) ∧
      ∃ a1 r, BasePVByteArray.fresh.deserialize (readSizeByte refill) refill 8
          (smallBuffer.clear.flip, drained id w) = some (.ok (a1, r)) ∧
        a1.length = 6 ∧ a1.value.fault = false ∧
        a1.value.cells.take 6 = [10, 20, 30, 40, 50, 60] :=
  have hwf : sampleArray.WellFormed := by simp [BasePVByteArray.WellFormed, sampleArray]
  have hb : smallBuffer.Allocated := by simp [ByteBuffer.Allocated, smallBuffer]
  have hB : 1 ≤ smallBuffer.size := by decide
  have hws : WriteSizeOk id (writeSizeByte drainFlush) sampleArray.length [6] :=
    writeSizeByte_ok id drainFlush drainFlush_ok 6
  have hrs : ReadSizeOk id (readSizeByte refill) sampleArray.length [6] :=
    readSizeByte_ok id refill refill_ok 6 (by decide) (by decide)
  ⟨hwf, hb, hB, hws, hrs,
    C2_roundtrip_under_chunking (writeSizeByte drainFlush) (readSizeByte refill) sampleArray [6]
      smallBuffer smallBuffer hwf hb hB hb hB hws hrs 8 8 (by decide) (by decide)⟩

/-! ### ByteBuffer: construction -/

/-- C17: constructing a buffer with `(size, byteOrder)` fails with an
exception exactly when `size < 0` or `byteOrder` is neither the big-endian
nor the little-endian constant; when it succeeds the new buffer has
`position = 0` and `limit = size` (and the requested size and byte order). -/
theorem C17_construction_validated (size byteOrder : Int) :
    ((∃ e, ByteBuffer.new size byteOrder = .error e) ↔
      (size < 0 ∨ (byteOrder ≠ EPICS_ENDIAN_BIG ∧ byteOrder ≠ EPICS_ENDIAN_LITTLE))) ∧
    (¬ (size < 0 ∨ (byteOrder ≠ EPICS_ENDIAN_BIG ∧ byteOrder ≠ EPICS_ENDIAN_LITTLE)) →
      ∃ b, ByteBuffer.new size byteOrder = .ok b) ∧
    (∀ b, ByteBuffer.new size byteOrder = .ok b →
      b.position = 0 ∧ b.limit = size ∧ b.size = size ∧ b.bufferByteOrder = byteOrder) := by
  by_cases h1 : size < 0
  · simp [ByteBuffer.new, h1]
  · by_cases h2 : byteOrder ≠ EPICS_ENDIAN_BIG ∧ byteOrder ≠ EPICS_ENDIAN_LITTLE
    · refine ⟨?_, ?_, ?_⟩
      · simp [ByteBuffer.new, h1, h2]
      · intro h; exact absurd (Or.inr h2) h
      · intro b hb
        simp [ByteBuffer.new, h1, h2] at hb
    · refine ⟨?_, ?_, ?_⟩
      · constructor
        · rintro ⟨e, he⟩
          simp only [ByteBuffer.new, if_neg h1, if_neg h2] at he
          cases he
        · rintro (h | h)
          · exact absurd h h1
          · exact absurd h h2
      · intro _
        apply Exists.intro
        simp only [ByteBuffer.new, if_neg h1, if_neg h2]
        rfl
      · intro b hb
        simp only [ByteBuffer.new, if_neg h1, if_neg h2, Except.ok.injEq] at hb
        subst hb
        exact ⟨rfl, rfl, rfl, rfl⟩

/-- Sample runs for C17: an eight-byte big-endian buffer is built, and a
negative size and an unknown byte order are refused. -/
theorem C17_construction_validated_witness :
    ByteBuffer.new 8 EPICS_ENDIAN_BIG =
      .ok { bufferByteOrder := EPICS_ENDIAN_BIG, size := 8, position := 0, limit := 8,
            buffer := [0, 0, 0, 0, 0, 0, 0, 0] } ∧
    (∃ b, ByteBuffer.new 8 EPICS_ENDIAN_BIG = .ok b ∧ b.position = 0 ∧ b.limit = 8) ∧
    (∃ e, ByteBuffer.new (-1) EPICS_ENDIAN_BIG = .error e) ∧
    (∃ e, ByteBuffer.new 8 7 = .error e) :=
  ⟨rfl,
    ⟨_, rfl, ((C17_construction_validated 8 EPICS_ENDIAN_BIG).2.2 _ rfl).1,
      ((C17_construction_validated 8 EPICS_ENDIAN_BIG).2.2 _ rfl).2.1⟩,
    (C17_construction_validated (-1) EPICS_ENDIAN_BIG).1.mpr (Or.inl (by decide)),
    (C17_construction_validated 8 7).1.mpr (Or.inr (by decide))⟩

/-! ### BasePVByteArray: setCapacity and the two policies -/

/-- C11: for every well-formed capacity-mutable array and every
`newCapacity ≥ 0` different from the current capacity, `setCapacity(newCapacity)`
returns normally and afterwards the capacity is `newCapacity`, the length is
`min(old length, newCapacity)` and the first `min(old length, newCapacity)`
elements are the old elements at the same indices; when `newCapacity` equals
the current capacity the call changes nothing. -/
theorem C11_setCapacity_postcondition (a : BasePVByteArray) (newCapacity : Int)
    (hwf : a.WellFormed) :
    (a.capacityMutable = true → 0 ≤ newCapacity → newCapacity ≠ a.capacity →
      (a.setCapacity newCapacity).1 = .ok () ∧
      (a.setCapacity newCapacity).2.capacity = newCapacity ∧
      (a.setCapacity newCapacity).2.length = min a.length newCapacity ∧
      ((a.setCapacity newCapacity).2.value.cells.length : Int) = newCapacity ∧
      ∀ i : Int, 0 ≤ i → i < min a.length newCapacity →
        (a.setCapacity newCapacity).2.value.load i = a.value.load i) ∧
    (newCapacity = a.capacity → a.setCapacity newCapacity = (.ok (), a)) := by
  constructor
  · intro hm h0 hne
    have hwf' := hwf
    obtain ⟨hlen, hfault, hl0, hlc, hbytes⟩ := hwf'
    rw [BasePVByteArray.setCapacity_eq a newCapacity hwf hm (Ne.symm hne) h0]
    refine ⟨rfl, rfl, rfl, ?_, ?_⟩
    · simp only [List.length_append, List.length_take, List.length_replicate]
      omega
    · intro i hi0 hi
      have hin : i.toNat < (a.value.cells.take (min a.length newCapacity).toNat).length := by
        simp only [List.length_take]; omega
      simp only [Mem.load, if_pos hi0, List.getD_eq_getElem?_getD]
      rw [List.getElem?_append_left hin, List.getElem?_take_of_lt (by omega)]
  · intro h
    simp [BasePVByteArray.setCapacity, BasePVByteArray.getCapacity, h]

/-- Sample runs for C11: the six-element array shrunk to four cells and
grown to nine. -/
theorem C11_setCapacity_postcondition_witness :
    sampleArray.WellFormed ∧ sampleArray.capacityMutable = true ∧
    (sampleArray.setCapacity 4).1 = .ok () ∧
    (sampleArray.setCapacity 4).2.capacity = 4 ∧ (sampleArray.setCapacity 4).2.length = 4 ∧
    (sampleArray.setCapacity 4).2.value.load 3 = 40 ∧
    (sampleArray.setCapacity 9).2.length = 6 ∧
    sampleArray.setCapacity 6 = (.ok (), sampleArray) :=
  have hwf : sampleArray.WellFormed := by simp [BasePVByteArray.WellFormed, sampleArray]
  have h4 := (C11_setCapacity_postcondition sampleArray 4 hwf).1 rfl (by decide) (by decide)
  have h9 := (C11_setCapacity_postcondition sampleArray 9 hwf).1 rfl (by decide) (by decide)
  ⟨hwf, rfl, h4.1, h4.2.1, h4.2.2.1.trans (by decide),
    (h4.2.2.2.2 3 (by decide) (by decide)).trans (by decide), h9.2.2.1.trans (by decide),
    (C11_setCapacity_postcondition sampleArray 6 hwf).2 rfl⟩

/-- C12: on an array with `immutable = true`, `put` with any arguments
returns 0 and does nothing but report "field is immutable", so length,
capacity and all element contents stay as they were; on an array with
`capacityMutable = false`, `setCapacity` to a different capacity does nothing
but report "not capacityMutable".  Neither call raises: the outcome of each
is `ok`. -/
theorem C12_policy_violations_soft (a : BasePVByteArray) :
    (a.immutable = true → ∀ (offset len : Int) (src : Mem) (fromIsValue : Bool)
        (fromOffset : Int),
      a.put offset len src fromIsValue fromOffset =
        (.ok 0, a.message "field is immutable") ∧
      (a.put offset len src fromIsValue fromOffset).2.length = a.length ∧
      (a.put offset len src fromIsValue fromOffset).2.capacity = a.capacity ∧
      (a.put offset len src fromIsValue fromOffset).2.value = a.value) ∧
    (a.capacityMutable = false → ∀ newCapacity : Int, newCapacity ≠ a.capacity →
      a.setCapacity newCapacity = (.ok (), a.message "not capacityMutable") ∧
      (a.setCapacity newCapacity).2.length = a.length ∧
      (a.setCapacity newCapacity).2.capacity = a.capacity ∧
      (a.setCapacity newCapacity).2.value = a.value) := by
  constructor
  · intro him offset len src fromIsValue fromOffset
    have h : a.put offset len src fromIsValue fromOffset =
        (.ok 0, a.message "field is immutable") := by
      simp [BasePVByteArray.put, BasePVByteArray.isImmutable, him]
    rw [h]
    exact ⟨rfl, rfl, rfl, rfl⟩
  · intro hm newCapacity hne
    rw [BasePVByteArray.setCapacity_fixed a newCapacity hm (Ne.symm hne)]
    exact ⟨rfl, rfl, rfl, rfl⟩

/-- Sample runs for C12: a `put` on the immutable sample array and a
`setCapacity` on the new array of fixed capacity. -/
theorem C12_policy_violations_soft_witness :
    lockedArray.immutable = true ∧
    lockedArray.put 1 2 { cells := [7, 8], fault := false } false 0 =
      (.ok 0, lockedArray.message "field is immutable") ∧
    fixedArray.capacityMutable = false ∧ (4 : Int) ≠ fixedArray.capacity ∧
    fixedArray.setCapacity 4 = (.ok (), fixedArray.message "not capacityMutable") :=
  ⟨rfl,
    ((C12_policy_violations_soft lockedArray).1 rfl 1 2 { cells := [7, 8], fault := false }
      false 0).1,
    rfl, by decide,
    ((C12_policy_violations_soft fixedArray).2 rfl 4 (by decide)).1⟩

/-! ### BasePVByteArray: the immutable flag and the invariant `length ≤ capacity` -/

namespace BasePVByteArray

theorem putCopy_length_capacity (a : BasePVByteArray) (offset len : Int) (src : Mem)
    (fromOffset length : Int) :
    (a.putCopy offset len src fromOffset length).2.length = length ∧
    (a.putCopy offset len src fromOffset length).2.capacity = a.capacity := by
  simp [putCopy, setLength, postPut]

/-- The method `setCapacity` keeps `length ≤ capacity` for every argument and
either flag state, also when it throws. -/
theorem setCapacity_length_le (a : BasePVByteArray) (capacity : Int)
    (h : a.length ≤ a.capacity) :
    (a.setCapacity capacity).2.length ≤ (a.setCapacity capacity).2.capacity := by
  unfold setCapacity
  split
  · exact h
  · split
    · exact h
    · simp only [setCapacityLength, getLength]
      split
      · exact h
      · simp only
        split <;> omega

/-- The method `put` keeps `length ≤ capacity` for all arguments and either
flag state, also when its call of `setCapacity` throws. -/
theorem put_length_le (a : BasePVByteArray) (offset len : Int) (src : Mem)
    (fromIsValue : Bool) (fromOffset : Int) (h : a.length ≤ a.capacity) :
    (a.put offset len src fromIsValue fromOffset).2.length ≤
      (a.put offset len src fromIsValue fromOffset).2.capacity := by
  have hsc := setCapacity_length_le a (wrap32 (offset + len)) h
  unfold put
  split
  · exact h
  · split
    · exact h
    · split
      · exact h
      · simp only [getLength, getCapacity]
        split
        · split
          · split
            · rename_i e a1 heq
              rw [heq] at hsc
              exact hsc
            · rename_i u a1 heq
              rw [heq] at hsc
              split
              · exact hsc
              · obtain ⟨e1, e2⟩ := putCopy_length_capacity a1 offset
                  (wrap32 (a1.capacity - offset)) src fromOffset a1.capacity
                rw [e1, e2]
          · obtain ⟨e1, e2⟩ := putCopy_length_capacity a offset len src fromOffset
              (wrap32 (offset + len))
            rw [e1, e2]; omega
        · obtain ⟨e1, e2⟩ := putCopy_length_capacity a offset len src fromOffset a.length
          rw [e1, e2]; exact h

/-- When it returns an array, `deserialize` has kept `length ≤ capacity`,
provided the block could take the decoded size: the array is capacity-mutable
or the size does not exceed the capacity. -/
theorem deserialize_length_le {σ : Type}
    (readSize : ByteBuffer × σ → Except String (Int × (ByteBuffer × σ)))
    (ensureData : Int → ByteBuffer × σ → Except String (ByteBuffer × σ))
    (a : BasePVByteArray) (fuel : Nat) (s : ByteBuffer × σ) (a1 : BasePVByteArray)
    (s1 : ByteBuffer × σ) (h : a.length ≤ a.capacity)
    (hroom : a.capacityMutable = true ∨
      ∀ size s2, readSize s = .ok (size, s2) → size ≤ a.capacity)
    (hres : a.deserialize readSize ensureData fuel s = some (.ok (a1, s1))) :
    a1.length ≤ a1.capacity := by
  unfold deserialize at hres
  cases hr : readSize s with
  | error e => simp [hr] at hres
  | ok p =>
    obtain ⟨size, s2⟩ := p
    simp only [hr] at hres
    by_cases hs : size ≥ 0
    · simp only [if_pos hs, getCapacity] at hres
      have hok : (if size > a.capacity then a.setCapacity size else (Except.ok (), a)) =
          (.ok (), (if size > a.capacity then (a.setCapacity size).2 else a)) := by
        split
        · exact Prod.ext (setCapacity_ok a size (by omega)) rfl
        · rfl
      rw [hok] at hres
      simp only at hres
      have hcap : size ≤ (if size > a.capacity then (a.setCapacity size).2 else a).capacity := by
        split
        · rename_i hbig
          rcases hroom with hm | hle
          · simp [setCapacity, getCapacity, isCapacityMutable, hm, setCapacityLength,
              show ¬ a.capacity = size by omega, show ¬ size < 0 by omega]
          · have := hle size s2 hr; omega
        · omega
      cases hl : deserializeLoop ensureData size fuel 0
          (if size > a.capacity then (a.setCapacity size).2 else a).value s2 with
      | none => simp [hl] at hres
      | some r =>
        cases r with
        | error e => simp [hl] at hres
        | ok q =>
          obtain ⟨v, s3⟩ := q
          simp only [hl, Option.some.injEq, Except.ok.injEq, Prod.mk.injEq] at hres
          obtain ⟨ha1, _⟩ := hres
          subst ha1
          simpa [setLength, postPut] using hcap
    · simp only [if_neg hs, Option.some.injEq, Except.ok.injEq, Prod.mk.injEq] at hres
      obtain ⟨ha1, _⟩ := hres
      subst ha1
      exact h

end BasePVByteArray

/-- C13 as stated fails: each of `setCapacity`, `shareData` and `deserialize`
changes the length or an element of the immutable sample array
`[10,20,30,40,50,60]`. -/
theorem C13_immutable_never_mutated_counterexample :
    lockedArray.immutable = true ∧ lockedArray.length = 6 ∧ lockedArray.value.load 0 = 10 ∧
    (lockedArray.setCapacity 1).2.length = 1 ∧
    (lockedArray.shareData { cells := [1, 2], fault := false } 2 2).length = 2 ∧
    (lockedArray.shareData { cells := [1, 2], fault := false } 2 2).value.load 0 = 1 ∧
    lockedArray.deserialize (readSizeByte refill) refill 3 (smallBuffer.flip, [1, 99]) =
      some (.ok ({ lockedArray with
          value := { cells := [99, 20, 30, 40, 50, 60], fault := false }
          length := 1
          postPuts := 1 },
        ({ smallBuffer with position := 2, limit := 2, buffer := [1, 99] }, []))) := by
  refine ⟨rfl, rfl, rfl, rfl, rfl, rfl, rfl⟩

/-- C13 amended: for every well-formed array with `immutable = true`, `put`
with any arguments leaves the length and every element as they were, and
`setCapacity(newCapacity)` leaves the length and the elements below the
length as they were whenever the array is not capacity-mutable or
`newCapacity` is at least the length.  (`setCapacity` below the length of a
capacity-mutable array, `shareData` and `deserialize` do not consult the
immutable flag.) -/
theorem C13_immutable_never_mutated_amended (a : BasePVByteArray) (hwf : a.WellFormed)
    (him : a.immutable = true) :
    (∀ (offset len : Int) (src : Mem) (fromIsValue : Bool) (fromOffset : Int),
      (a.put offset len src fromIsValue fromOffset).2.length = a.length ∧
      (a.put offset len src fromIsValue fromOffset).2.value = a.value) ∧
    (∀ newCapacity : Int, a.capacityMutable = false ∨ a.length ≤ newCapacity →
      (a.setCapacity newCapacity).2.length = a.length ∧
      ∀ i : Int, 0 ≤ i → i < a.length →
        (a.setCapacity newCapacity).2.value.load i = a.value.load i) := by
  have hwf' := hwf
  obtain ⟨hlen, hfault, hl0, hlc, hbytes⟩ := hwf'
  constructor
  · intro offset len src fromIsValue fromOffset
    have h : a.put offset len src fromIsValue fromOffset =
        (.ok 0, a.message "field is immutable") := by
      simp [BasePVByteArray.put, BasePVByteArray.isImmutable, him]
    rw [h]
    exact ⟨rfl, rfl⟩
  · intro newCapacity hcase
    by_cases heq : a.capacity = newCapacity
    · have h : a.setCapacity newCapacity = (.ok (), a) := by
        simp [BasePVByteArray.setCapacity, BasePVByteArray.getCapacity, heq]
      rw [h]
      exact ⟨rfl, fun _ _ _ => rfl⟩
    · by_cases hm : a.capacityMutable = true
      · have hge : a.length ≤ newCapacity := by
          rcases hcase with h | h
          · rw [hm] at h; cases h
          · exact h
        rw [BasePVByteArray.setCapacity_eq a newCapacity hwf hm heq (by omega)]
        have hmin : min a.length newCapacity = a.length := by omega
        refine ⟨hmin, ?_⟩
        intro i hi0 hi
        have hin : i.toNat < (a.value.cells.take (min a.length newCapacity).toNat).length := by
          simp only [List.length_take]; omega
        simp only [Mem.load, if_pos hi0, List.getD_eq_getElem?_getD]
        rw [List.getElem?_append_left hin, List.getElem?_take_of_lt (by omega)]
      · have hm' : a.capacityMutable = false := by simpa using hm
        rw [BasePVByteArray.setCapacity_fixed a newCapacity hm' heq]
        exact ⟨rfl, fun _ _ _ => rfl⟩

/-- Sample runs for the amended C13 on the immutable sample array: a `put`
and a `setCapacity` that grows the block. -/
theorem C13_immutable_never_mutated_amended_witness :
    lockedArray.WellFormed ∧ lockedArray.immutable = true ∧
    (lockedArray.put 0 2 { cells := [7, 8], fault := false } false 0).2.value =
      lockedArray.value ∧
    (lockedArray.setCapacity 9).2.length = 6 ∧
    (lockedArray.setCapacity 9).2.value.load 5 = 60 :=
  have hwf : lockedArray.WellFormed := by
    simp [BasePVByteArray.WellFormed, lockedArray, sampleArray]
  have h := C13_immutable_never_mutated_amended lockedArray hwf rfl
  ⟨hwf, rfl, (h.1 0 2 { cells := [7, 8], fault := false } false 0).2,
    (h.2 9 (Or.inr (by decide))).1,
    ((h.2 9 (Or.inr (by decide))).2 5 (by decide) (by decide)).trans (by decide)⟩

/-- C14 as stated fails: `shareData(buffer, 0, 5)` on the new array leaves
`length = 5` above `capacity = 0`. -/
theorem C14_length_le_capacity_counterexample :
    BasePVByteArray.fresh.length ≤ BasePVByteArray.fresh.capacity ∧
    (BasePVByteArray.fresh.shareData { cells := [], fault := false } 0 5).length = 5 ∧
    (BasePVByteArray.fresh.shareData { cells := [], fault := false } 0 5).capacity = 0 ∧
    ¬ ((BasePVByteArray.fresh.shareData { cells := [], fault := false } 0 5).length ≤
      (BasePVByteArray.fresh.shareData { cells := [], fault := false } 0 5).capacity) := by
  decide

/-- C14 amended: `length ≤ capacity` holds for a newly created array and is
kept by `setCapacity` and by `put` with any arguments and either flag state
(a `setCapacity` that throws, which it does for a negative request on a
capacity-mutable array, leaves the array as it was, and so does a `put` whose
`setCapacity` throws), by `shareData(buffer, newCapacity, newLength)` when
`newLength ≤ newCapacity`, and by a `deserialize` that returns, when the array
is capacity-mutable or the decoded size does not exceed the capacity. -/
theorem C14_length_le_capacity_amended (a : BasePVByteArray) (h : a.length ≤ a.capacity) :
    BasePVByteArray.fresh.length ≤ BasePVByteArray.fresh.capacity ∧
    (∀ newCapacity : Int,
      (a.setCapacity newCapacity).2.length ≤ (a.setCapacity newCapacity).2.capacity ∧
      (a.capacityMutable = true → newCapacity < 0 → newCapacity ≠ a.capacity →
        a.setCapacity newCapacity = (.error "std::bad_alloc", a))) ∧
    (∀ (offset len : Int) (src : Mem) (fromIsValue : Bool) (fromOffset : Int),
      (a.put offset len src fromIsValue fromOffset).2.length ≤
        (a.put offset len src fromIsValue fromOffset).2.capacity) ∧
    (∀ (shareValue : Mem) (newCapacity newLength : Int), newLength ≤ newCapacity →
      (a.shareData shareValue newCapacity newLength).length ≤
        (a.shareData shareValue newCapacity newLength).capacity) ∧
    (∀ (readSize : ByteBuffer × List Nat → Except String (Int × (ByteBuffer × List Nat)))
       (ensureData : Int → ByteBuffer × List Nat → Except String (ByteBuffer × List Nat))
       (fuel : Nat) (s s1 : ByteBuffer × List Nat) (a1 : BasePVByteArray),
      (a.capacityMutable = true ∨
        ∀ size s2, readSize s = .ok (size, s2) → size ≤ a.capacity) →
      a.deserialize readSize ensureData fuel s = some (.ok (a1, s1)) →
      a1.length ≤ a1.capacity) := by
  refine ⟨by decide, ?_, ?_, ?_, ?_⟩
  · intro newCapacity
    refine ⟨BasePVByteArray.setCapacity_length_le a newCapacity h, ?_⟩
    intro hm hneg hne
    simp [BasePVByteArray.setCapacity, BasePVByteArray.getCapacity,
      BasePVByteArray.isCapacityMutable, hm, hneg, Ne.symm hne]
  · intro offset len src fromIsValue fromOffset
    exact BasePVByteArray.put_length_le a offset len src fromIsValue fromOffset h
  · intro shareValue newCapacity newLength hle
    simpa [BasePVByteArray.shareData, BasePVByteArray.setCapacityLength] using hle
  · intro readSize ensureData fuel s s1 a1 hroom hres
    exact BasePVByteArray.deserialize_length_le readSize ensureData a fuel s a1 s1 h hroom hres

/-- Sample runs for the amended C14 on the sample array: each operation
leaves `length ≤ capacity`, among them a `setCapacity(-1)`, which throws, and
a `put` whose 32-bit sum `offset + len` wraps around. -/
theorem C14_length_le_capacity_amended_witness :
    sampleArray.length ≤ sampleArray.capacity ∧
    (sampleArray.setCapacity 2).2.length ≤ (sampleArray.setCapacity 2).2.capacity ∧
    sampleArray.setCapacity (-1) = (.error "std::bad_alloc", sampleArray) ∧
    (sampleArray.put 4 3 { cells := [7, 8, 9], fault := false } false 0).2.length ≤
      (sampleArray.put 4 3 { cells := [7, 8, 9], fault := false } false 0).2.capacity ∧
    (sampleArray.put 2147483647 1 { cells := [7], fault := false } false 0).2.length ≤
      (sampleArray.put 2147483647 1 { cells := [7], fault := false } false 0).2.capacity ∧
    (sampleArray.shareData { cells := [1, 2, 3], fault := false } 3 2).length ≤
      (sampleArray.shareData { cells := [1, 2, 3], fault := false } 3 2).capacity ∧
    ∃ a1 s1, sampleArray.deserialize (readSizeByte refill) refill 4
        (smallBuffer.flip, [2, 5, 6]) = some (.ok (a1, s1)) ∧ a1.length ≤ a1.capacity :=
  have h := C14_length_le_capacity_amended sampleArray (by decide)
  ⟨by decide, (h.2.1 2).1, (h.2.1 (-1)).2 rfl (by decide) (by decide),
    h.2.2.1 4 3 { cells := [7, 8, 9], fault := false } false 0,
    h.2.2.1 2147483647 1 { cells := [7], fault := false } false 0,
    h.2.2.2.1 { cells := [1, 2, 3], fault := false } 3 2 (by decide),
    ⟨_, _, rfl, h.2.2.2.2 (readSizeByte refill) refill 4 (smallBuffer.flip, [2, 5, 6]) _ _
      (Or.inl rfl) rfl⟩⟩

/-! ### BasePVByteArray: put keeps what it does not overwrite -/

namespace BasePVByteArray

/-- The prefix of a reallocated block below the old length holds the old
elements. -/
theorem load_take_append (c r : List Nat) (k : Nat) (i : Int) (hi0 : 0 ≤ i)
    (hi : i.toNat < k) (hk : k ≤ c.length) (f1 f2 : Bool) :
    ({ cells := c.take k ++ r, fault := f1 } : Mem).load i =
      ({ cells := c, fault := f2 } : Mem).load i := by
  have hin : i.toNat < (c.take k).length := by
    simp only [List.length_take]; omega
  simp only [Mem.load, if_pos hi0, List.getD_eq_getElem?_getD]
  rw [List.getElem?_append_left hin, List.getElem?_take_of_lt hi]

/-- The tail of `put` on an array in its block, for an `int` count at an
`int` offset that is not negative: it returns the count, the array stays in
its block, the capacity stays, every cell outside the window keeps its value,
and no store leaves the block when the window lies inside it. -/
theorem putCopy_inBlock (a : BasePVByteArray) (offset len : Int) (src : Mem)
    (fromOffset : Int) (length : Int) (hcells : (a.value.cells.length : Int) = a.capacity)
    (hcmax : a.capacity ≤ 2147483647) (ho : 0 ≤ offset) (hoR : offset ≤ 2147483647)
    (hl : len ≤ 2147483647) (hL0 : 0 ≤ length) (hL : length ≤ a.capacity) :
    (a.putCopy offset len src fromOffset length).1 = .ok len ∧
    (a.putCopy offset len src fromOffset length).2.InBlock ∧
    (a.putCopy offset len src fromOffset length).2.capacity = a.capacity ∧
    (∀ i : Int, 0 ≤ i → (i < offset ∨ offset + len ≤ i) →
      (a.putCopy offset len src fromOffset length).2.value.load i = a.value.load i) ∧
    (offset + len ≤ a.capacity →
      (a.putCopy offset len src fromOffset length).2.value.fault = a.value.fault) := by
  obtain ⟨f1, f2, f3, f4, f5, f6⟩ := putCopy_frame a offset len src fromOffset length ho hoR hl
  refine ⟨f1, ⟨?_, ?_, ?_, ?_⟩, f3, f5, ?_⟩
  · rw [f2, f3]; exact hcells
  · rw [f4]; exact hL0
  · rw [f4, f3]; exact hL
  · rw [f3]; exact hcmax
  · intro hfit
    exact f6 (by omega) (by omega)

/-- One `put` with arguments of type `int` at an offset that is not negative,
on an array in its block: the call returns a count, the array stays in its
block, the capacity does not decrease, and every element below the previous
length and outside the written window keeps its value.  No store leaves the
block unless the 32-bit sum `offset + len` overflows. -/
theorem put_frame (a : BasePVByteArray) (offset len : Int) (src : Mem) (fromIsValue : Bool)
    (fromOffset : Int) (hb : a.InBlock) (ho : 0 ≤ offset) (hoR : IsInt32 offset)
    (hl : IsInt32 len) :
    (a.put offset len src fromIsValue fromOffset).2.InBlock ∧
    a.capacity ≤ (a.put offset len src fromIsValue fromOffset).2.capacity ∧
    (∃ n, (a.put offset len src fromIsValue fromOffset).1 = .ok n ∧
      ∀ i : Int, 0 ≤ i → i < a.length → (i < offset ∨ offset + n ≤ i) →
        (a.put offset len src fromIsValue fromOffset).2.value.load i = a.value.load i) ∧
    (a.value.fault = false → (len < 1 ∨ offset + len ≤ 2147483647) →
      (a.put offset len src fromIsValue fromOffset).2.value.fault = false) := by
  have hb' := hb
  obtain ⟨hlen, hl0, hlc, hcmax⟩ := hb'
  unfold IsInt32 at hoR hl
  by_cases him : a.immutable = true
  · have h : a.put offset len src fromIsValue fromOffset =
        (.ok 0, a.message "field is immutable") := by
      simp [put, isImmutable, him]
    rw [h]
    exact ⟨hb, le_refl _, ⟨0, rfl, fun _ _ _ _ => rfl⟩, fun hf _ => hf⟩
  have him' : a.immutable = false := by simpa using him
  by_cases hal : fromIsValue = true
  · have h : a.put offset len src fromIsValue fromOffset = (.ok len, a) := by
      simp [put, isImmutable, him', hal]
    rw [h]
    exact ⟨hb, le_refl _, ⟨len, rfl, fun _ _ _ _ => rfl⟩, fun hf _ => hf⟩
  have hal' : fromIsValue = false := by simpa using hal
  by_cases h1 : len < 1
  · have h : a.put offset len src fromIsValue fromOffset = (.ok 0, a) := by
      simp [put, isImmutable, him', hal', h1]
    rw [h]
    exact ⟨hb, le_refl _, ⟨0, rfl, fun _ _ _ _ => rfl⟩, fun hf _ => hf⟩
  by_cases hov : offset + len ≤ 2147483647
  · have hw : wrap32 (offset + len) = offset + len := wrap32_eq _ ⟨by omega, by omega⟩
    by_cases hgrow : offset + len > a.length
    · by_cases hcap : offset + len > a.capacity
      · by_cases hm : a.capacityMutable = true
        · -- the block is reallocated to `offset + len` cells
          have hsc := setCapacity_eq_block a (offset + len) hlen hlc hm (by omega) (by omega)
          have hcapEq : (a.setCapacity (offset + len)).2.capacity = offset + len := by rw [hsc]
          have hput : a.put offset len src fromIsValue fromOffset =
              (a.setCapacity (offset + len)).2.putCopy offset len src fromOffset
                (offset + len) := by
            have hsub : wrap32 (offset + len - offset) = len :=
              (congrArg wrap32 (by omega)).trans (wrap32_eq len ⟨by omega, by omega⟩)
            simp only [put, isImmutable, him', hal', hw, getLength, getCapacity, if_pos hgrow,
              if_pos hcap, if_neg h1, Bool.false_eq_true, if_false]
            rw [hsc]
            simp only [hsub, if_neg (show ¬ len ≤ 0 by omega)]
          have hcells : ((a.setCapacity (offset + len)).2.value.cells.length : Int) =
              (a.setCapacity (offset + len)).2.capacity := by
            rw [hsc]
            simp only [List.length_append, List.length_take, List.length_replicate]
            omega
          obtain ⟨f1, f2, f3, f4, f5⟩ := putCopy_inBlock (a.setCapacity (offset + len)).2
            offset len src fromOffset (offset + len) hcells (by omega) ho (by omega) (by omega)
            (by omega) (by omega)
          rw [hput]
          refine ⟨f2, by rw [f3, hcapEq]; omega, ⟨len, f1, ?_⟩, ?_⟩
          · intro i hi0 hi hout
            rw [f4 i hi0 hout, hsc]
            exact load_take_append a.value.cells _ _ i hi0 (by omega) (by omega) _ _
          · intro hf _
            rw [f5 (by omega), hsc]
            exact hf
        · -- growth is rejected: the capacity stays
          have hm' : a.capacityMutable = false := by simpa using hm
          have hsc := setCapacity_fixed a (offset + len) hm' (by omega)
          have hsub : wrap32 (a.capacity - offset) = a.capacity - offset :=
            wrap32_eq _ ⟨by omega, by omega⟩
          by_cases hroom : a.capacity - offset ≤ 0
          · have hput : a.put offset len src fromIsValue fromOffset =
                (.ok 0, a.message "not capacityMutable") := by
              simp only [put, isImmutable, him', hal', hw, getLength, getCapacity, if_pos hgrow,
                if_pos hcap, if_neg h1, Bool.false_eq_true, if_false, hsc]
              simp only [message, hsub, if_pos hroom]
            rw [hput]
            exact ⟨hb, le_refl _, ⟨0, rfl, fun _ _ _ _ => rfl⟩, fun hf _ => hf⟩
          · have hput : a.put offset len src fromIsValue fromOffset =
                (a.message "not capacityMutable").putCopy offset (a.capacity - offset) src
                  fromOffset a.capacity := by
              simp only [put, isImmutable, him', hal', hw, getLength, getCapacity, if_pos hgrow,
                if_pos hcap, if_neg h1, Bool.false_eq_true, if_false, hsc]
              simp only [message, hsub, if_neg hroom]
            obtain ⟨f1, f2, f3, f4, f5⟩ := putCopy_inBlock (a.message "not capacityMutable")
              offset (a.capacity - offset) src fromOffset a.capacity hlen hcmax ho (by omega)
              (by omega) (by omega) (le_refl _)
            rw [hput]
            exact ⟨f2, by rw [f3]; exact le_refl _, ⟨_, f1, fun i hi0 _ hout => f4 i hi0 hout⟩,
              fun hf _ => (f5 (by simp only [message]; omega)).trans hf⟩
      · -- the window fits in the allocated block, the length grows
        have hput : a.put offset len src fromIsValue fromOffset =
            a.putCopy offset len src fromOffset (offset + len) := by
          simp only [put, isImmutable, him', hal', hw, getLength, getCapacity, if_pos hgrow,
            if_neg hcap, if_neg h1, Bool.false_eq_true, if_false]
        obtain ⟨f1, f2, f3, f4, f5⟩ := putCopy_inBlock a offset len src fromOffset
          (offset + len) hlen hcmax ho (by omega) (by omega) (by omega) (by omega)
        rw [hput]
        exact ⟨f2, by rw [f3], ⟨_, f1, fun i hi0 _ hout => f4 i hi0 hout⟩,
          fun hf _ => (f5 (by omega)).trans hf⟩
    · -- the window lies inside the current length
      have hput : a.put offset len src fromIsValue fromOffset =
          a.putCopy offset len src fromOffset a.length := by
        simp only [put, isImmutable, him', hal', hw, getLength, getCapacity, if_neg hgrow,
          if_neg h1, Bool.false_eq_true, if_false]
      obtain ⟨f1, f2, f3, f4, f5⟩ := putCopy_inBlock a offset len src fromOffset a.length
        hlen hcmax ho (by omega) (by omega) hl0 hlc
      rw [hput]
      exact ⟨f2, by rw [f3], ⟨_, f1, fun i hi0 _ hout => f4 i hi0 hout⟩,
        fun hf _ => (f5 (by omega)).trans hf⟩
  · -- the 32-bit sum wraps around to a negative number: no growth, and the
    -- copy loop runs over the `len` indices from `offset`
    have hw : ¬ wrap32 (offset + len) > a.length := by
      simp only [wrap32]; omega
    have hput : a.put offset len src fromIsValue fromOffset =
        a.putCopy offset len src fromOffset a.length := by
      simp only [put, isImmutable, him', hal', getLength, getCapacity, if_neg hw,
        if_neg h1, Bool.false_eq_true, if_false]
    obtain ⟨f1, f2, f3, f4, f5⟩ := putCopy_inBlock a offset len src fromOffset a.length
      hlen hcmax ho (by omega) (by omega) hl0 hlc
    rw [hput]
    exact ⟨f2, by rw [f3], ⟨_, f1, fun i hi0 _ hout => f4 i hi0 hout⟩,
      fun _ hno => by omega⟩

/-- A sequence of `put` calls with arguments of type `int` at offsets that
are not negative keeps the array in its block. -/
theorem putSeq_inBlock (calls : List PutArgs) (a : BasePVByteArray) (hb : a.InBlock)
    (ho : ∀ c ∈ calls, c.InRange) : (a.putSeq calls).InBlock := by
  induction calls generalizing a with
  | nil => exact hb
  | cons c cs ih =>
    simp only [putSeq, List.foldl_cons]
    have hc := ho c (List.mem_cons_self _ _)
    exact ih _ (put_frame a c.offset c.len c.src c.fromIsValue c.fromOffset hb
      hc.1 hc.2.1 hc.2.2).1 (fun d hd => ho d (List.mem_cons_of_mem _ hd))

end BasePVByteArray

/-- C15: for every sequence of `put(offset, len, source, sourceOffset)` calls
with arguments of type `int` and `offset ≥ 0`, made on an array in its block
(in particular on the new array of capacity 0), the next such call returns a
count, never decreases the capacity, and every element at an index below the
previous length that lies outside the written window
`[offset, offset + returned count)` has the same value after the call as
before, also when the call reallocates the block through `setCapacity`.  If
no store had left the block before the call, none does during it, unless
`len ≥ 1` and the 32-bit sum `offset + len` overflows. -/
theorem C15_put_grows_without_losing_data (a0 : BasePVByteArray) (calls : List PutArgs)
    (c : PutArgs) (hb : a0.InBlock) (hcalls : ∀ d ∈ calls, d.InRange) (hc : c.InRange) :
    (a0.putSeq calls).capacity ≤
      ((a0.putSeq calls).put c.offset c.len c.src c.fromIsValue c.fromOffset).2.capacity ∧
    (∃ n, ((a0.putSeq calls).put c.offset c.len c.src c.fromIsValue c.fromOffset).1 = .ok n ∧
      ∀ i : Int, 0 ≤ i → i < (a0.putSeq calls).length → (i < c.offset ∨ c.offset + n ≤ i) →
        ((a0.putSeq calls).put c.offset c.len c.src c.fromIsValue c.fromOffset).2.value.load i =
          (a0.putSeq calls).value.load i) ∧
    ((a0.putSeq calls).value.fault = false →
      (c.len < 1 ∨ c.offset + c.len ≤ 2147483647) →
      ((a0.putSeq calls).put c.offset c.len c.src c.fromIsValue c.fromOffset).2.value.fault =
        false) := by
  have hb1 := BasePVByteArray.putSeq_inBlock calls a0 hb hcalls
  exact (BasePVByteArray.put_frame (a0.putSeq calls) c.offset c.len c.src c.fromIsValue
    c.fromOffset hb1 hc.1 hc.2.1 hc.2.2).2

/-- Sample run for C15: on the new array, after two `put` calls, a third one
at offset 4 reallocates the block from four to six cells and keeps the
element at index 1. -/
theorem C15_put_grows_without_losing_data_witness :
    BasePVByteArray.fresh.InBlock ∧ (∀ d ∈ samplePuts, d.InRange) ∧
    (BasePVByteArray.fresh.putSeq samplePuts).capacity = 4 ∧
    ((BasePVByteArray.fresh.putSeq samplePuts).put 4 2 { cells := [7, 8], fault := false }
      false 0).2.capacity = 6 ∧
    ((BasePVByteArray.fresh.putSeq samplePuts).put 4 2 { cells := [7, 8], fault := false }
      false 0).2.value.load 1 = 20 ∧
    ((BasePVByteArray.fresh.putSeq samplePuts).put 4 2 { cells := [7, 8], fault := false }
      false 0).2.value.fault = false :=
  have hb : BasePVByteArray.fresh.InBlock := by decide
  have ho : ∀ d ∈ samplePuts, d.InRange := by decide
  have h := C15_put_grows_without_losing_data BasePVByteArray.fresh samplePuts
    { offset := 4, len := 2, src := { cells := [7, 8], fault := false },
      fromIsValue := false, fromOffset := 0 } hb ho (by decide)
  have hn : ((BasePVByteArray.fresh.putSeq samplePuts).put 4 2
      { cells := [7, 8], fault := false } false 0).1 = .ok 2 := by decide
  ⟨hb, ho, by decide, by decide,
    h.2.1.elim (fun n hn1 => (hn1.2 1 (by decide) (by decide) (Or.inl (by decide))).trans
      (by decide)),
    h.2.2 (by decide) (Or.inr (by decide))⟩

/-! ### ByteBuffer: the cursor laws -/

namespace ByteBuffer

/-- A primitive `put` that succeeds moves the cursor by the width of its
type and leaves limit and size alone. -/
theorem putPrim_cursor (native : Int) (b b1 : ByteBuffer) (c : PrimPut) (u : Unit)
    (h : b.putPrim native c = (.ok u, b1)) :
    b1.position = b.position + c.width ∧ b1.limit = b.limit ∧ b1.size = b.size := by
  cases c with
  | boolean v =>
    simp only [putPrim, putBoolean] at h
    split at h
    · cases h; exact ⟨rfl, rfl, rfl⟩
    · cases h
  | byte v =>
    simp only [putPrim, putByte] at h
    split at h
    · cases h; exact ⟨rfl, rfl, rfl⟩
    · cases h
  | short v =>
    simp only [putPrim, putShort] at h
    split at h
    · cases h
    · cases h; exact putWithEndianness_cursor native b _ 2
  | int v =>
    simp only [putPrim, putInt] at h
    split at h
    · cases h
    · cases h; exact putWithEndianness_cursor native b _ 4
  | long v =>
    simp only [putPrim, putLong] at h
    split at h
    · cases h
    · cases h; exact putWithEndianness_cursor native b _ 8
  | float v =>
    simp only [putPrim, putFloat] at h
    split at h
    · cases h
    · cases h; exact putWithEndianness_cursor native b _ 4
  | double v =>
    simp only [putPrim, putDouble] at h
    split at h
    · cases h
    · cases h; exact putWithEndianness_cursor native b _ 8

/-- After a run of successful primitive `put` calls the cursor has moved by
the sum of their widths. -/
theorem putPrims_cursor (native : Int) (calls : List PrimPut) (b b1 : ByteBuffer)
    (h : b.putPrims native calls = some b1) :
    b1.position = b.position + (calls.map PrimPut.width).sum ∧ b1.limit = b.limit ∧
    b1.size = b.size := by
  induction calls generalizing b with
  | nil =>
    simp only [putPrims, Option.some.injEq] at h
    subst h
    simp
  | cons c cs ih =>
    simp only [putPrims] at h
    cases hr : b.putPrim native c with
    | mk r b2 =>
      cases r with
      | error e => simp [hr] at h
      | ok u =>
        simp only [hr] at h
        obtain ⟨e1, e2, e3⟩ := putPrim_cursor native b b2 c u hr
        obtain ⟨f1, f2, f3⟩ := ih b2 h
        refine ⟨?_, by rw [f2, e2], by rw [f3, e3]⟩
        rw [f1, e1]
        simp only [List.map_cons, List.sum_cons]
        omega

theorem sum_width_const (calls : List PrimPut) (w : Int) (h : ∀ c ∈ calls, c.width = w) :
    (calls.map PrimPut.width).sum = calls.length * w := by
  induction calls with
  | nil => simp
  | cons c cs ih =>
    simp only [List.map_cons, List.sum_cons, List.length_cons]
    rw [ih (fun d hd => h d (List.mem_cons_of_mem _ hd)), h c (List.mem_cons_self _ _)]
    push_cast
    ring

end ByteBuffer

/-- C18: after `clear()`, `position = 0` and `getRemaining() = size`;
starting from a cleared buffer, after `n` successful puts of primitives
`getRemaining()` is `size` less the sum of their widths, that is
`size - n*w` when all have the width `w`; `flip()` after writing these `k`
bytes gives `position = 0` and `limit = k`, so exactly `k` bytes are
readable; `rewind()` sets the position to 0 and leaves the limit unchanged. -/
theorem C18_cursor_laws (native : Int) (b : ByteBuffer) :
    (b.clear.position = 0 ∧ b.clear.getRemaining = b.size) ∧
    (∀ (calls : List PrimPut) (b1 : ByteBuffer), b.clear.putPrims native calls = some b1 →
      b1.getRemaining = b.size - (calls.map PrimPut.width).sum ∧
      (∀ w : Int, (∀ c ∈ calls, c.width = w) → b1.getRemaining = b.size - calls.length * w) ∧
      b1.flip.position = 0 ∧ b1.flip.limit = (calls.map PrimPut.width).sum ∧
      b1.flip.getRemaining = (calls.map PrimPut.width).sum) ∧
    (b.rewind.position = 0 ∧ b.rewind.limit = b.limit) := by
  refine ⟨⟨rfl, by simp [ByteBuffer.getRemaining, ByteBuffer.clear]⟩, ?_, ⟨rfl, rfl⟩⟩
  intro calls b1 h
  obtain ⟨e1, e2, e3⟩ := ByteBuffer.putPrims_cursor native calls b.clear b1 h
  simp only [ByteBuffer.clear, Int.zero_add] at e1 e2 e3
  refine ⟨?_, ?_, rfl, ?_, ?_⟩
  · simp only [ByteBuffer.getRemaining, e1, e2]
  · intro w hw
    rw [← ByteBuffer.sum_width_const calls w hw]
    simp only [ByteBuffer.getRemaining, e1, e2]
  · simp only [ByteBuffer.flip, e1]
  · simp only [ByteBuffer.getRemaining, ByteBuffer.flip, e1]
    omega

/-- Sample run for C18: three `putShort` calls on the cleared eight-byte
buffer leave two bytes free, and `flip()` then exposes six bytes. -/
theorem C18_cursor_laws_witness :
    (∃ b1, sampleBuffer.clear.putPrims EPICS_ENDIAN_LITTLE [.short 1, .short 2, .short 3] =
        some b1 ∧
      b1.getRemaining = 8 - 3 * 2 ∧ b1.flip.position = 0 ∧ b1.flip.limit = 6) ∧
    sampleBuffer.clear.getRemaining = 8 ∧
    sampleBuffer.rewind.position = 0 ∧ sampleBuffer.rewind.limit = 5 :=
  have h := C18_cursor_laws EPICS_ENDIAN_LITTLE sampleBuffer
  ⟨⟨_, rfl, ((h.2.1 [.short 1, .short 2, .short 3] _ rfl).2.1 2 (by decide)).trans (by decide),
      (h.2.1 [.short 1, .short 2, .short 3] _ rfl).2.2.1,
      ((h.2.1 [.short 1, .short 2, .short 3] _ rfl).2.2.2.1).trans (by decide)⟩,
    h.1.2.trans (by decide), h.2.2.1, h.2.2.2.trans (by decide)⟩

/-! ### ByteBuffer: the byte-order rule -/

theorem leBytes_ofLeBytes (xs : List Nat) (h : ∀ x ∈ xs, x < 256) :
    leBytes xs.length (ofLeBytes xs) = xs := by
  induction xs with
  | nil => rfl
  | cons x xs ih =>
    have hx : x < 256 := h x (List.mem_cons_self _ _)
    have e1 : (x + 256 * ofLeBytes xs) % 256 = x := by omega
    have e2 : (x + 256 * ofLeBytes xs) / 256 = ofLeBytes xs := by omega
    simp only [List.length_cons, ofLeBytes, leBytes, e1, e2]
    rw [ih (fun y hy => h y (List.mem_cons_of_mem _ hy))]

theorem ofLeBytes_lt (xs : List Nat) (h : ∀ x ∈ xs, x < 256) :
    ofLeBytes xs < 256 ^ xs.length := by
  induction xs with
  | nil => simp [ofLeBytes]
  | cons x xs ih =>
    have hx : x < 256 := h x (List.mem_cons_self _ _)
    have := ih (fun y hy => h y (List.mem_cons_of_mem _ hy))
    simp only [ofLeBytes, List.length_cons, pow_succ]
    omega

/-- The in-memory bytes of the pattern read out of the in-memory bytes `bs`
are `bs` again. -/
theorem toMem_fromMem (native : Int) (bs : List Nat) (h : ∀ x ∈ bs, x < 256) :
    toMem native bs.length (fromMem native bs) = bs := by
  unfold toMem fromMem
  split
  · have h' : ∀ x ∈ bs.reverse, x < 256 := fun x hx => h x (List.mem_reverse.mp hx)
    have := leBytes_ofLeBytes bs.reverse h'
    rw [List.length_reverse] at this
    rw [this, List.reverse_reverse]
  · exact leBytes_ofLeBytes bs h

theorem fromMem_lt (native : Int) (bs : List Nat) (h : ∀ x ∈ bs, x < 256) :
    fromMem native bs < 256 ^ bs.length := by
  unfold fromMem
  split
  · have h' : ∀ x ∈ bs.reverse, x < 256 := fun x hx => h x (List.mem_reverse.mp hx)
    have := ofLeBytes_lt bs.reverse h'
    rwa [List.length_reverse] at this
  · exact ofLeBytes_lt bs h

theorem toUnsigned_toSigned_16 (u : Nat) (h : u < 256 ^ 2) :
    toUnsigned 16 (toSigned 16 u) = u := by
  unfold toSigned toUnsigned
  norm_num at h ⊢
  split <;> omega

theorem toUnsigned_toSigned_32 (u : Nat) (h : u < 256 ^ 4) :
    toUnsigned 32 (toSigned 32 u) = u := by
  unfold toSigned toUnsigned
  norm_num at h ⊢
  split <;> omega

theorem toUnsigned_toSigned_64 (u : Nat) (h : u < 256 ^ 8) :
    toUnsigned 64 (toSigned 64 u) = u := by
  unfold toSigned toUnsigned
  norm_num at h ⊢
  split <;> omega

namespace ByteBuffer

theorem orderBytes_length (native : Int) (b : ByteBuffer) (bytes : List Nat) :
    (b.orderBytes native bytes).length = bytes.length := by
  unfold orderBytes
  split <;> simp

theorem orderBytes_bytes (native : Int) (b : ByteBuffer) (bytes : List Nat)
    (h : ∀ x ∈ bytes, x < 256) : ∀ x ∈ b.orderBytes native bytes, x < 256 := by
  unfold orderBytes
  split
  · exact h
  · intro x hx
    exact h x (List.mem_reverse.mp hx)

theorem window_length (b : ByteBuffer) (k : Nat)
    (hfit : b.position.toNat + k ≤ b.buffer.length) : (b.window k).length = k := by
  simp only [window, List.length_take, List.length_drop]
  omega

theorem window_bytes (b : ByteBuffer) (k : Nat) (h : ∀ x ∈ b.buffer, x < 256) :
    ∀ x ∈ b.window k, x < 256 := by
  intro x hx
  exact h x (List.mem_of_mem_drop (List.mem_of_mem_take hx))

/-- The private writer on a buffer with room for `src`: it stores the bytes
that the byte-order rule makes of `src`, at the cursor. -/
theorem putWithEndianness_writesAt (native : Int) (b : ByteBuffer) (src : List Nat) (k : Nat)
    (hk : src.length = k) (hc : b.CursorInv) (ha : b.Allocated)
    (hroom : ¬ (b.limit - b.position < k)) :
    WritesAt (.ok (), b.putWithEndianness native src k) b (b.orderBytes native src) := by
  obtain ⟨h1, h2, h3⟩ := hc
  obtain ⟨h4, h5⟩ := ha
  subst hk
  have hl := orderBytes_length native b src
  unfold WritesAt
  rw [putWithEndianness_eq]
  have := foldl_store (b.orderBytes native src) b h1 (by rw [hl]; omega)
  unfold orderBytes at this hl ⊢
  rw [this]

/-- The private reader on a buffer with `k` readable bytes: it returns what
the byte-order rule makes of the bytes under the cursor. -/
theorem getWithEndianness_window (native : Int) (b : ByteBuffer) (k : Nat)
    (hc : b.CursorInv) (ha : b.Allocated) (hroom : ¬ (b.limit - b.position < k)) :
    b.getWithEndianness native (List.replicate k 0) k =
      (b.orderBytes native (b.window k), { b with position := b.position + k }) := by
  obtain ⟨h1, h2, h3⟩ := hc
  obtain ⟨h4, h5⟩ := ha
  rw [getWithEndianness_eq native b _ k h1 (by simp) (by omega)]
  rfl

end ByteBuffer

/-- C16: on a buffer in order, for every multi-byte primitive of width `k`
in `{2, 4, 8}` and every value `v`: a `put` with room for `k` bytes stores at
the positions `position .. position+k-1` the `k` in-memory bytes of `v`
verbatim when the buffer's byte order is the native one and their reverse
otherwise, and changes nothing else; a `get` with `k` readable bytes `w`
advances the cursor by `k` and returns the value whose in-memory bytes are
`w` when the buffer's byte order is the native one and `reverse w` otherwise. -/
theorem C16_byte_order_rule (native : Int) (b : ByteBuffer) (hc : b.CursorInv)
    (ha : b.Allocated) (hbytes : ∀ x ∈ b.buffer, x < 256) :
    ((∀ xs, b.bufferByteOrder = native → b.orderBytes native xs = xs) ∧
     (∀ xs, b.bufferByteOrder ≠ native → b.orderBytes native xs = xs.reverse)) ∧
    ((∀ v, ¬ (b.limit - b.position < 2) → ByteBuffer.WritesAt (b.putShort native v) b
        (b.orderBytes native (toMem native 2 (toUnsigned 16 v)))) ∧
     (∀ v, ¬ (b.limit - b.position < 4) → ByteBuffer.WritesAt (b.putInt native v) b
        (b.orderBytes native (toMem native 4 (toUnsigned 32 v)))) ∧
     (∀ v, ¬ (b.limit - b.position < 8) → ByteBuffer.WritesAt (b.putLong native v) b
        (b.orderBytes native (toMem native 8 (toUnsigned 64 v)))) ∧
     (∀ v, ¬ (b.limit - b.position < 4) → ByteBuffer.WritesAt (b.putFloat native v) b
        (b.orderBytes native (toMem native 4 v))) ∧
     (∀ v, ¬ (b.limit - b.position < 8) → ByteBuffer.WritesAt (b.putDouble native v) b
        (b.orderBytes native (toMem native 8 v)))) ∧
    ((¬ (b.limit - b.position < 2) →
        (b.getShort native).2 = { b with position := b.position + 2 } ∧
        ∃ v, (b.getShort native).1 = .ok v ∧
          toMem native 2 (toUnsigned 16 v) = b.orderBytes native (b.window 2)) ∧
     (¬ (b.limit - b.position < 4) →
        (b.getInt native).2 = { b with position := b.position + 4 } ∧
        ∃ v, (b.getInt native).1 = .ok v ∧
          toMem native 4 (toUnsigned 32 v) = b.orderBytes native (b.window 4)) ∧
     (¬ (b.limit - b.position < 8) →
        (b.getLong native).2 = { b with position := b.position + 8 } ∧
        ∃ v, (b.getLong native).1 = .ok v ∧
          toMem native 8 (toUnsigned 64 v) = b.orderBytes native (b.window 8)) ∧
     (¬ (b.limit - b.position < 4) →
        (b.getFloat native).2 = { b with position := b.position + 4 } ∧
        ∃ v, (b.getFloat native).1 = .ok v ∧
          toMem native 4 v = b.orderBytes native (b.window 4)) ∧
     (¬ (b.limit - b.position < 8) →
        (b.getDouble native).2 = { b with position := b.position + 8 } ∧
        ∃ v, (b.getDouble native).1 = .ok v ∧
          toMem native 8 v = b.orderBytes native (b.window 8))) := by
  have hwin : ∀ k : Nat, ¬ (b.limit - b.position < k) →
      (b.orderBytes native (b.window k)).length = k ∧
      (∀ x ∈ b.orderBytes native (b.window k), x < 256) ∧
      b.getWithEndianness native (List.replicate k 0) k =
        (b.orderBytes native (b.window k), { b with position := b.position + k }) := by
    intro k hk
    refine ⟨?_, ?_, ByteBuffer.getWithEndianness_window native b k hc ha hk⟩
    · rw [ByteBuffer.orderBytes_length]
      simp only [ByteBuffer.window, List.length_take, List.length_drop]
      have := hc.1; have := hc.2.1; have := hc.2.2; have := ha.2
      omega
    · exact ByteBuffer.orderBytes_bytes native b _ (ByteBuffer.window_bytes b k hbytes)
  refine ⟨⟨?_, ?_⟩, ⟨?_, ?_, ?_, ?_, ?_⟩, ⟨?_, ?_, ?_, ?_, ?_⟩⟩
  · intro xs h; simp [ByteBuffer.orderBytes, h]
  · intro xs h; simp [ByteBuffer.orderBytes, h]
  · intro v h
    simp only [ByteBuffer.putShort, if_neg h]
    exact ByteBuffer.putWithEndianness_writesAt native b _ 2 (toMem_length _ _ _) hc ha
      (by push_cast; exact h)
  · intro v h
    simp only [ByteBuffer.putInt, if_neg h]
    exact ByteBuffer.putWithEndianness_writesAt native b _ 4 (toMem_length _ _ _) hc ha
      (by push_cast; exact h)
  · intro v h
    simp only [ByteBuffer.putLong, if_neg h]
    exact ByteBuffer.putWithEndianness_writesAt native b _ 8 (toMem_length _ _ _) hc ha
      (by push_cast; exact h)
  · intro v h
    simp only [ByteBuffer.putFloat, if_neg h]
    exact ByteBuffer.putWithEndianness_writesAt native b _ 4 (toMem_length _ _ _) hc ha
      (by push_cast; exact h)
  · intro v h
    simp only [ByteBuffer.putDouble, if_neg h]
    exact ByteBuffer.putWithEndianness_writesAt native b _ 8 (toMem_length _ _ _) hc ha
      (by push_cast; exact h)
  · intro h
    obtain ⟨w1, w2, w3⟩ := hwin 2 (by push_cast; exact h)
    simp only [ByteBuffer.getShort, if_neg h, w3]
    refine ⟨rfl, _, rfl, ?_⟩
    have hlt := fromMem_lt native _ w2
    rw [w1] at hlt
    rw [toUnsigned_toSigned_16 _ hlt]
    have := toMem_fromMem native _ w2
    rwa [w1] at this
  · intro h
    obtain ⟨w1, w2, w3⟩ := hwin 4 (by push_cast; exact h)
    simp only [ByteBuffer.getInt, if_neg h, w3]
    refine ⟨rfl, _, rfl, ?_⟩
    have hlt := fromMem_lt native _ w2
    rw [w1] at hlt
    rw [toUnsigned_toSigned_32 _ hlt]
    have := toMem_fromMem native _ w2
    rwa [w1] at this
  · intro h
    obtain ⟨w1, w2, w3⟩ := hwin 8 (by push_cast; exact h)
    simp only [ByteBuffer.getLong, if_neg h, w3]
    refine ⟨rfl, _, rfl, ?_⟩
    have hlt := fromMem_lt native _ w2
    rw [w1] at hlt
    rw [toUnsigned_toSigned_64 _ hlt]
    have := toMem_fromMem native _ w2
    rwa [w1] at this
  · intro h
    obtain ⟨w1, w2, w3⟩ := hwin 4 (by push_cast; exact h)
    simp only [ByteBuffer.getFloat, if_neg h, w3]
    refine ⟨rfl, _, rfl, ?_⟩
    have := toMem_fromMem native _ w2
    rwa [w1] at this
  · intro h
    obtain ⟨w1, w2, w3⟩ := hwin 8 (by push_cast; exact h)
    simp only [ByteBuffer.getDouble, if_neg h, w3]
    refine ⟨rfl, _, rfl, ?_⟩
    have := toMem_fromMem native _ w2
    rwa [w1] at this

/-- Sample run for C16 on a little-endian host and the big-endian sample
buffer (position 3, limit 5): `putShort(0x0102)` stores the reverse `[1, 2]`
of the in-memory bytes `[2, 1]`, and `getShort` reads the bytes `[4, 5]` as
`0x0405`. -/
theorem C16_byte_order_rule_witness :
    sampleBuffer.CursorInv ∧ sampleBuffer.Allocated ∧ (∀ x ∈ sampleBuffer.buffer, x < 256) ∧
    toMem EPICS_ENDIAN_LITTLE 2 (toUnsigned 16 258) = [2, 1] ∧
    ByteBuffer.WritesAt (sampleBuffer.putShort EPICS_ENDIAN_LITTLE 258) sampleBuffer [1, 2] ∧
    (sampleBuffer.getShort EPICS_ENDIAN_LITTLE).1 = .ok 1029 ∧
    (sampleBuffer.getShort EPICS_ENDIAN_LITTLE).2 =
      { sampleBuffer with position := sampleBuffer.position + 2 } := by
  have hc : sampleBuffer.CursorInv := by simp [ByteBuffer.CursorInv, sampleBuffer]
  have ha : sampleBuffer.Allocated := by simp [ByteBuffer.Allocated, sampleBuffer]
  have hb : ∀ x ∈ sampleBuffer.buffer, x < 256 := by decide
  have h := C16_byte_order_rule EPICS_ENDIAN_LITTLE sampleBuffer hc ha hb
  have hput := h.2.1.1 258 (by decide)
  have e : sampleBuffer.orderBytes EPICS_ENDIAN_LITTLE
      (toMem EPICS_ENDIAN_LITTLE 2 (toUnsigned 16 258)) = [1, 2] := by decide
  rw [e] at hput
  exact ⟨hc, ha, hb, by decide, hput, by decide, (h.2.2.1 (by decide)).1⟩

/-! ### ByteBuffer: the wire bytes and the host -/

theorem endian_constants_ne : EPICS_ENDIAN_BIG ≠ EPICS_ENDIAN_LITTLE := by decide

namespace ByteBuffer

/-- On either host, the byte-order rule turns the in-memory bytes of a value
into its bytes most significant first for a big-endian buffer and least
significant first for a little-endian buffer. -/
theorem orderBytes_toMem (native : Int) (b : ByteBuffer) (k u : Nat)
    (hn : native = EPICS_ENDIAN_BIG ∨ native = EPICS_ENDIAN_LITTLE) :
    (b.bufferByteOrder = EPICS_ENDIAN_BIG →
      b.orderBytes native (toMem native k u) = msbFirst k u) ∧
    (b.bufferByteOrder = EPICS_ENDIAN_LITTLE →
      b.orderBytes native (toMem native k u) = lsbFirst k u) := by
  have hne := endian_constants_ne
  constructor
  · intro ho
    rcases hn with h | h <;> subst h
    · simp [orderBytes, toMem, msbFirst, ho]
    · simp [orderBytes, toMem, msbFirst, ho, hne, hne.symm]
  · intro ho
    rcases hn with h | h <;> subst h
    · simp [orderBytes, toMem, lsbFirst, ho, hne, hne.symm]
    · simp [orderBytes, toMem, lsbFirst, ho, hne.symm]

/-- Bytes written under the byte-order rule on one host and read back under
it on another give the same bit pattern, when the byte order of the buffer
is one of the two recognised ones. -/
theorem fromMem_cross_host (n1 n2 order : Int) (k u : Nat)
    (h1 : n1 = EPICS_ENDIAN_BIG ∨ n1 = EPICS_ENDIAN_LITTLE)
    (h2 : n2 = EPICS_ENDIAN_BIG ∨ n2 = EPICS_ENDIAN_LITTLE)
    (ho : order = EPICS_ENDIAN_BIG ∨ order = EPICS_ENDIAN_LITTLE) :
    fromMem n2 (if order = n2 then (if order = n1 then toMem n1 k u else (toMem n1 k u).reverse)
      else (if order = n1 then toMem n1 k u else (toMem n1 k u).reverse).reverse) =
      u % 256 ^ k := by
  have hne := endian_constants_ne
  rcases h1 with h1 | h1 <;> rcases h2 with h2 | h2 <;> rcases ho with ho | ho <;>
    subst h1 <;> subst h2 <;> subst ho <;>
    simp [fromMem, toMem, hne, hne.symm, ofLeBytes_leBytes]

/-- Writing `src` into a cleared buffer on one host and reading it back,
after `flip`, on another. -/
theorem put_flip_get_cross (n1 n2 : Int) (b : ByteBuffer) (src : List Nat)
    (hA : b.Allocated) (hk : (src.length : Int) ≤ b.size) :
    ((b.clear.putWithEndianness n1 src src.length).flip.getWithEndianness n2
        (List.replicate src.length 0) src.length).1 =
      (if b.bufferByteOrder = n2 then (if b.bufferByteOrder = n1 then src else src.reverse)
        else (if b.bufferByteOrder = n1 then src else src.reverse).reverse) ∧
    (b.clear.putWithEndianness n1 src src.length).flip.limit = src.length ∧
    (b.clear.putWithEndianness n1 src src.length).flip.position = 0 := by
  rw [put_clear_eq n1 b src hA hk]
  obtain ⟨h0, hlen⟩ := hA
  have hl : (if b.bufferByteOrder = n1 then src else src.reverse).length = src.length := by
    split <;> simp
  refine ⟨?_, rfl, rfl⟩
  rw [getWithEndianness_eq]
  · simp only [flip, Int.toNat_zero, List.drop_zero]
    rw [List.take_left' hl]
  · simp [flip]
  · simp
  · simp only [flip, Int.toNat_zero, Nat.zero_add, List.length_append, hl]
    omega

/-- A value of `k` bytes written on one host and read on another: the
pattern read is the pattern written. -/
theorem roundtrip_cross (n1 n2 : Int) (b : ByteBuffer) (k u : Nat) (hA : b.Allocated)
    (hk : (k : Int) ≤ b.size)
    (h1 : n1 = EPICS_ENDIAN_BIG ∨ n1 = EPICS_ENDIAN_LITTLE)
    (h2 : n2 = EPICS_ENDIAN_BIG ∨ n2 = EPICS_ENDIAN_LITTLE)
    (ho : b.bufferByteOrder = EPICS_ENDIAN_BIG ∨ b.bufferByteOrder = EPICS_ENDIAN_LITTLE) :
    fromMem n2 ((b.clear.putWithEndianness n1 (toMem n1 k u) k).flip.getWithEndianness n2
        (List.replicate k 0) k).1 = u % 256 ^ k ∧
    (b.clear.putWithEndianness n1 (toMem n1 k u) k).flip.limit = k ∧
    (b.clear.putWithEndianness n1 (toMem n1 k u) k).flip.position = 0 := by
  have h := put_flip_get_cross n1 n2 b (toMem n1 k u) hA (by rw [toMem_length]; exact hk)
  rw [toMem_length] at h
  obtain ⟨e1, e2, e3⟩ := h
  refine ⟨?_, e2, e3⟩
  rw [e1]
  exact fromMem_cross_host n1 n2 b.bufferByteOrder k u h1 h2 ho

end ByteBuffer

/-- C19: whether the host's native order (`EPICS_BYTE_ORDER`) is big-endian
or little-endian, for every int16/int32/int64 value `v` a buffer configured
big-endian writes the bytes of `v` most significant first and a buffer
configured little-endian writes them least significant first; hence a value
written into a cleared buffer on a host of one native order is read back,
after `flip`, as the same value on a host of the other native order, the
buffer keeping its configured byte order. -/
theorem C19_wire_bytes_host_independent (native : Int) (b : ByteBuffer)
    (hn : native = EPICS_ENDIAN_BIG ∨ native = EPICS_ENDIAN_LITTLE)
    (hc : b.CursorInv) (ha : b.Allocated) :
    (b.bufferByteOrder = EPICS_ENDIAN_BIG →
      (∀ v, ¬ (b.limit - b.position < 2) →
        ByteBuffer.WritesAt (b.putShort native v) b (msbFirst 2 (toUnsigned 16 v))) ∧
      (∀ v, ¬ (b.limit - b.position < 4) →
        ByteBuffer.WritesAt (b.putInt native v) b (msbFirst 4 (toUnsigned 32 v))) ∧
      (∀ v, ¬ (b.limit - b.position < 8) →
        ByteBuffer.WritesAt (b.putLong native v) b (msbFirst 8 (toUnsigned 64 v)))) ∧
    (b.bufferByteOrder = EPICS_ENDIAN_LITTLE →
      (∀ v, ¬ (b.limit - b.position < 2) →
        ByteBuffer.WritesAt (b.putShort native v) b (lsbFirst 2 (toUnsigned 16 v))) ∧
      (∀ v, ¬ (b.limit - b.position < 4) →
        ByteBuffer.WritesAt (b.putInt native v) b (lsbFirst 4 (toUnsigned 32 v))) ∧
      (∀ v, ¬ (b.limit - b.position < 8) →
        ByteBuffer.WritesAt (b.putLong native v) b (lsbFirst 8 (toUnsigned 64 v)))) ∧
    (∀ reader : Int, reader = EPICS_ENDIAN_BIG ∨ reader = EPICS_ENDIAN_LITTLE →
      b.bufferByteOrder = EPICS_ENDIAN_BIG ∨ b.bufferByteOrder = EPICS_ENDIAN_LITTLE →
      (∀ v : Int, -2 ^ 15 ≤ v → v < 2 ^ 15 → 2 ≤ b.size →
        ((b.clear.putShort native v).2.flip.getShort reader).1 = .ok v) ∧
      (∀ v : Int, -2 ^ 31 ≤ v → v < 2 ^ 31 → 4 ≤ b.size →
        ((b.clear.putInt native v).2.flip.getInt reader).1 = .ok v) ∧
      (∀ v : Int, -2 ^ 63 ≤ v → v < 2 ^ 63 → 8 ≤ b.size →
        ((b.clear.putLong native v).2.flip.getLong reader).1 = .ok v)) := by
  have hput : ∀ (k u : Nat), ¬ (b.limit - b.position < k) →
      ByteBuffer.WritesAt (.ok (), b.putWithEndianness native (toMem native k u) k) b
        (b.orderBytes native (toMem native k u)) := fun k u h =>
    ByteBuffer.putWithEndianness_writesAt native b _ k (toMem_length _ _ _) hc ha h
  refine ⟨?_, ?_, ?_⟩
  · intro ho
    refine ⟨?_, ?_, ?_⟩
    · intro v h
      have := hput 2 (toUnsigned 16 v) (by push_cast; exact h)
      rw [(ByteBuffer.orderBytes_toMem native b 2 _ hn).1 ho] at this
      simpa only [ByteBuffer.putShort, if_neg h] using this
    · intro v h
      have := hput 4 (toUnsigned 32 v) (by push_cast; exact h)
      rw [(ByteBuffer.orderBytes_toMem native b 4 _ hn).1 ho] at this
      simpa only [ByteBuffer.putInt, if_neg h] using this
    · intro v h
      have := hput 8 (toUnsigned 64 v) (by push_cast; exact h)
      rw [(ByteBuffer.orderBytes_toMem native b 8 _ hn).1 ho] at this
      simpa only [ByteBuffer.putLong, if_neg h] using this
  · intro ho
    refine ⟨?_, ?_, ?_⟩
    · intro v h
      have := hput 2 (toUnsigned 16 v) (by push_cast; exact h)
      rw [(ByteBuffer.orderBytes_toMem native b 2 _ hn).2 ho] at this
      simpa only [ByteBuffer.putShort, if_neg h] using this
    · intro v h
      have := hput 4 (toUnsigned 32 v) (by push_cast; exact h)
      rw [(ByteBuffer.orderBytes_toMem native b 4 _ hn).2 ho] at this
      simpa only [ByteBuffer.putInt, if_neg h] using this
    · intro v h
      have := hput 8 (toUnsigned 64 v) (by push_cast; exact h)
      rw [(ByteBuffer.orderBytes_toMem native b 8 _ hn).2 ho] at this
      simpa only [ByteBuffer.putLong, if_neg h] using this
  · intro reader hr ho
    refine ⟨?_, ?_, ?_⟩
    · intro v h1 h2 hs
      obtain ⟨e1, e2, e3⟩ := ByteBuffer.roundtrip_cross native reader b 2 (toUnsigned 16 v) ha
        (by simpa using hs) hn hr ho
      have hcl : ¬ (b.clear.limit - b.clear.position < 2) := by
        simp [ByteBuffer.clear]; omega
      simp only [ByteBuffer.putShort, if_neg hcl]
      have hf : ¬ ((b.clear.putWithEndianness native (toMem native 2 (toUnsigned 16 v)) 2).flip.limit
          - (b.clear.putWithEndianness native (toMem native 2 (toUnsigned 16 v)) 2).flip.position
            < 2) := by
        rw [e2, e3]; norm_num
      simp only [ByteBuffer.getShort, if_neg hf, e1, toSigned_toUnsigned_16 v h1 h2]
    · intro v h1 h2 hs
      obtain ⟨e1, e2, e3⟩ := ByteBuffer.roundtrip_cross native reader b 4 (toUnsigned 32 v) ha
        (by simpa using hs) hn hr ho
      have hcl : ¬ (b.clear.limit - b.clear.position < 4) := by
        simp [ByteBuffer.clear]; omega
      simp only [ByteBuffer.putInt, if_neg hcl]
      have hf : ¬ ((b.clear.putWithEndianness native (toMem native 4 (toUnsigned 32 v)) 4).flip.limit
          - (b.clear.putWithEndianness native (toMem native 4 (toUnsigned 32 v)) 4).flip.position
            < 4) := by
        rw [e2, e3]; norm_num
      simp only [ByteBuffer.getInt, if_neg hf, e1, toSigned_toUnsigned_32 v h1 h2]
    · intro v h1 h2 hs
      obtain ⟨e1, e2, e3⟩ := ByteBuffer.roundtrip_cross native reader b 8 (toUnsigned 64 v) ha
        (by simpa using hs) hn hr ho
      have hcl : ¬ (b.clear.limit - b.clear.position < 8) := by
        simp [ByteBuffer.clear]; omega
      simp only [ByteBuffer.putLong, if_neg hcl]
      have hf : ¬ ((b.clear.putWithEndianness native (toMem native 8 (toUnsigned 64 v)) 8).flip.limit
          - (b.clear.putWithEndianness native (toMem native 8 (toUnsigned 64 v)) 8).flip.position
            < 8) := by
        rw [e2, e3]; norm_num
      simp only [ByteBuffer.getLong, if_neg hf, e1, toSigned_toUnsigned_64 v h1 h2]

/-- Sample runs for C19 with the big-endian sample buffer: `0x01020304` is
written as `[1, 2, 3, 4]` on a little-endian and on a big-endian host, and
`-2` written on a little-endian host is read as `-2` on a big-endian host. -/
theorem C19_wire_bytes_host_independent_witness :
    sampleBuffer.clear.CursorInv ∧ sampleBuffer.clear.Allocated ∧
    sampleBuffer.bufferByteOrder = EPICS_ENDIAN_BIG ∧
    ByteBuffer.WritesAt (sampleBuffer.clear.putInt EPICS_ENDIAN_LITTLE 16909060)
      sampleBuffer.clear [1, 2, 3, 4] ∧
    ByteBuffer.WritesAt (sampleBuffer.clear.putInt EPICS_ENDIAN_BIG 16909060)
      sampleBuffer.clear [1, 2, 3, 4] ∧
    ((sampleBuffer.clear.putInt EPICS_ENDIAN_LITTLE (-2)).2.flip.getInt EPICS_ENDIAN_BIG).1 =
      .ok (-2) := by
  have hc : sampleBuffer.clear.CursorInv := by
    simp [ByteBuffer.CursorInv, sampleBuffer, ByteBuffer.clear]
  have ha : sampleBuffer.clear.Allocated := by
    simp [ByteBuffer.Allocated, sampleBuffer, ByteBuffer.clear]
  have hc0 : sampleBuffer.CursorInv := by simp [ByteBuffer.CursorInv, sampleBuffer]
  have ha0 : sampleBuffer.Allocated := by simp [ByteBuffer.Allocated, sampleBuffer]
  have e : msbFirst 4 (toUnsigned 32 16909060) = [1, 2, 3, 4] := by decide
  have h1 := ((C19_wire_bytes_host_independent EPICS_ENDIAN_LITTLE sampleBuffer.clear
    (Or.inr rfl) hc ha).1 rfl).2.1 16909060 (by decide)
  have h2 := ((C19_wire_bytes_host_independent EPICS_ENDIAN_BIG sampleBuffer.clear
    (Or.inl rfl) hc ha).1 rfl).2.1 16909060 (by decide)
  rw [e] at h1 h2
  exact ⟨hc, ha, rfl, h1, h2,
    ((C19_wire_bytes_host_independent EPICS_ENDIAN_LITTLE sampleBuffer (Or.inr rfl) hc0
      ha0).2.2 EPICS_ENDIAN_BIG (Or.inl rfl) (Or.inl rfl)).2.1 (-2) (by norm_num) (by norm_num)
      (by decide)⟩

/-! ### serialize: the calls made by the streaming loop -/

namespace BasePVByteArray

theorem putElementsTraced_fst (value : Mem) (n : Nat) (i : Int) (b : ByteBuffer) :
    (putElementsTraced value n i b).1 = putElements value n i b := by
  induction n generalizing i b with
  | zero => rfl
  | succ n ih =>
    simp only [putElementsTraced, putElements]
    cases h : b.putByte (toSigned 8 (value.load i)) with
    | mk r b1 =>
      cases r with
      | error e => rfl
      | ok u => exact ih (i + 1) b1

theorem serializeLoopTraced_fst {σ : Type}
    (flush : ByteBuffer × σ → Except String (ByteBuffer × σ)) (value : Mem) (stop : Int)
    (fuel : Nat) (i : Int) (s : ByteBuffer × σ) :
    (serializeLoopTraced flush value stop fuel i s).1 =
      serializeLoop flush value stop fuel i s := by
  induction fuel generalizing i s with
  | zero => rfl
  | succ fuel ih =>
    simp only [serializeLoopTraced, serializeLoop, putElementsTraced_fst]
    cases putElements value (min (stop - i) s.1.getRemaining + i - i).toNat i s.1 with
    | error e => rfl
    | ok b1 =>
      simp only
      generalize (if i < min (stop - i) s.1.getRemaining + i
        then min (stop - i) s.1.getRemaining + i else i) = i1
      by_cases h : i1 < stop
      · simp only [if_pos h]
        cases flush (b1, s.2) with
        | error e => rfl
        | ok s1 => exact ih i1 s1
      · simp only [if_neg h]

theorem inOrder_mono (lo lo1 stop : Int) (h : lo ≤ lo1) (e : LoopEvent)
    (he : e.InOrder lo1 stop) : e.InOrder lo stop := by
  cases e with
  | putByte i r => exact ⟨he.1, by have := he.2.1; omega, he.2.2⟩
  | flush i => exact ⟨by have := he.1; omega, he.2⟩

theorem flushIndices_append (l1 l2 : List LoopEvent) :
    flushIndices (l1 ++ l2) = flushIndices l1 ++ flushIndices l2 := by
  induction l1 with
  | nil => rfl
  | cons e es ih =>
    cases e with
    | putByte i r => simpa [flushIndices] using ih
    | flush i => simpa [flushIndices] using ih

/-- The inner loop of `serialize` on `n` elements that fit in the buffer:
every `putByte` finds a free byte, so none throws, and the buffer stays in
the states the flusher accepts. -/
theorem putElementsTraced_ok {σ : Type} (inv : ByteBuffer × σ → Prop)
    (hstore : ∀ (s : ByteBuffer × σ) (x : Nat), inv s → s.1.position < s.1.limit →
      inv (s.1.store x, s.2))
    (value : Mem) (stop : Int) (c : σ) :
    ∀ (n : Nat) (i : Int) (b : ByteBuffer), inv (b, c) → (n : Int) ≤ b.getRemaining →
      i + n ≤ stop →
      ∃ b1, (putElementsTraced value n i b).1 = .ok b1 ∧ inv (b1, c) ∧
        b1.getRemaining = b.getRemaining - n ∧
        (∀ e ∈ (putElementsTraced value n i b).2, e.InOrder i stop) ∧
        flushIndices (putElementsTraced value n i b).2 = [] := by
  intro n
  induction n with
  | zero =>
    intro i b hinv _ _
    exact ⟨b, rfl, hinv, by simp, by simp [putElementsTraced], rfl⟩
  | succ n ih =>
    intro i b hinv hrem hstop
    have hlt : b.position < b.limit := by
      simp only [ByteBuffer.getRemaining] at hrem; omega
    have hinv1 := hstore (b, c) (toUnsigned 8 (toSigned 8 (value.load i))) hinv hlt
    have hrem1 : (b.store (toUnsigned 8 (toSigned 8 (value.load i)))).getRemaining =
        b.getRemaining - 1 := by
      simp only [ByteBuffer.getRemaining, ByteBuffer.store]; omega
    obtain ⟨b1, e1, e2, e3, e4, e5⟩ := ih (i + 1) _ hinv1 (by rw [hrem1]; push_cast at hrem; omega)
      (by push_cast at hstop; omega)
    simp only [putElementsTraced, ByteBuffer.putByte_ok b _ hlt]
    refine ⟨b1, e1, e2, by rw [e3, hrem1]; push_cast; omega, ?_, ?_⟩
    · intro e he
      rcases List.mem_cons.mp he with h | h
      · subst h
        exact ⟨by push_cast at hrem; omega, le_refl _, by push_cast at hstop; omega⟩
      · exact inOrder_mono i (i + 1) stop (by omega) e (e4 e h)
    · simpa [flushIndices] using e5

end BasePVByteArray

namespace BasePVByteArray

/-- The streaming loop of `serialize`, entered with a free byte in the buffer
or with nothing left to write: it ends within `stop - i + 1` rounds, every
call it makes is in order, and the flusher is called at strictly increasing
indices, all beyond the index on entry. -/
theorem serializeLoopTraced_ok {σ : Type} (inv : ByteBuffer × σ → Prop)
    (flush : ByteBuffer × σ → Except String (ByteBuffer × σ))
    (hstore : ∀ (s : ByteBuffer × σ) (x : Nat), inv s → s.1.position < s.1.limit →
      inv (s.1.store x, s.2))
    (hflush : ∀ s, inv s → ∃ s1, flush s = .ok s1 ∧ 1 ≤ s1.1.getRemaining ∧ inv s1)
    (value : Mem) (stop : Int) :
    ∀ (fuel : Nat) (i : Int) (s : ByteBuffer × σ), inv s →
      (1 ≤ s.1.getRemaining ∨ ¬ i < stop) → (stop - i).toNat + 1 ≤ fuel →
      ∃ s1, (serializeLoopTraced flush value stop fuel i s).1 = some (.ok s1) ∧
        (∀ e ∈ (serializeLoopTraced flush value stop fuel i s).2, e.InOrder i stop) ∧
        (flushIndices (serializeLoopTraced flush value stop fuel i s).2).Pairwise (· < ·) ∧
        ∀ f ∈ flushIndices (serializeLoopTraced flush value stop fuel i s).2, i < f := by
  intro fuel
  induction fuel with
  | zero => intro i s _ _ hf; omega
  | succ fuel ih =>
    intro i s hinv hrem hf
    obtain ⟨k, hk⟩ : ∃ k, k = min (stop - i) s.1.getRemaining := ⟨_, rfl⟩
    have ek : k + i - i = k := by omega
    by_cases hlt : i < stop
    · have h1 : 1 ≤ s.1.getRemaining := by
        rcases hrem with h | h
        · exact h
        · exact absurd hlt h
      have hk1 : 1 ≤ k := by omega
      obtain ⟨b1, e1, e2, e3, e4, e5⟩ := putElementsTraced_ok inv hstore value stop s.2 k.toNat i
        s.1 hinv (by omega) (by omega)
      have hi1 : (if i < k + i then k + i else i) = k + i := by
        split <;> omega
      simp only [serializeLoopTraced, ← hk, ek, e1, hi1]
      by_cases hmore : k + i < stop
      · have hkrem : k = s.1.getRemaining := by omega
        obtain ⟨s2, f1, f2, f3⟩ := hflush (b1, s.2) e2
        obtain ⟨s3, g1, g2, g3, g4⟩ := ih (k + i) s2 f3 (Or.inl f2) (by omega)
        simp only [if_pos hmore, f1]
        refine ⟨s3, g1, ?_, ?_, ?_⟩
        · intro e he
          rcases List.mem_append.mp he with h | h
          · exact e4 e h
          · rcases List.mem_cons.mp h with h | h
            · subst h
              exact ⟨by omega, hmore⟩
            · exact inOrder_mono i (k + i) stop (by omega) e (g2 e h)
        · rw [flushIndices_append, e5]
          simp only [flushIndices, List.nil_append, List.pairwise_cons]
          exact ⟨g4, g3⟩
        · rw [flushIndices_append, e5]
          simp only [flushIndices, List.nil_append, List.mem_cons]
          rintro f (h | h)
          · omega
          · have := g4 f h; omega
      · simp only [if_neg hmore]
        refine ⟨(b1, s.2), rfl, e4, by rw [e5]; exact List.Pairwise.nil, ?_⟩
        rw [e5]
        intro f hf'
        cases hf'
    · have hk0 : k.toNat = 0 := by omega
      have hi1 : (if i < k + i then k + i else i) = i := by
        split <;> omega
      simp only [serializeLoopTraced, ← hk, ek, hk0, putElementsTraced, hi1, if_neg hlt]
      refine ⟨(s.1, s.2), rfl, ?_, List.Pairwise.nil, ?_⟩
      · intro e he; cases he
      · intro f hf'; cases hf'

/-- The streaming loop of `serialize` from any state the flusher accepts: one
more round covers a buffer that is full on entry, in which the flusher is
called before any element is written. -/
theorem serializeLoopTraced_ok_any {σ : Type} (inv : ByteBuffer × σ → Prop)
    (flush : ByteBuffer × σ → Except String (ByteBuffer × σ))
    (hstore : ∀ (s : ByteBuffer × σ) (x : Nat), inv s → s.1.position < s.1.limit →
      inv (s.1.store x, s.2))
    (hflush : ∀ s, inv s → ∃ s1, flush s = .ok s1 ∧ 1 ≤ s1.1.getRemaining ∧ inv s1)
    (value : Mem) (stop : Int) (fuel : Nat) (i : Int) (s : ByteBuffer × σ) (hinv : inv s)
    (hf : (stop - i).toNat + 2 ≤ fuel) :
    ∃ s1, (serializeLoopTraced flush value stop fuel i s).1 = some (.ok s1) ∧
      (∀ e ∈ (serializeLoopTraced flush value stop fuel i s).2, e.InOrder i stop) ∧
      (flushIndices (serializeLoopTraced flush value stop fuel i s).2).Pairwise (· < ·) := by
  by_cases hrem : 1 ≤ s.1.getRemaining ∨ ¬ i < stop
  · obtain ⟨s1, g1, g2, g3, _⟩ := serializeLoopTraced_ok inv flush hstore hflush value stop fuel
      i s hinv hrem (by omega)
    exact ⟨s1, g1, g2, g3⟩
  · obtain ⟨fuel, rfl⟩ : ∃ n, fuel = n + 1 := ⟨fuel - 1, by omega⟩
    have hlt : i < stop := by
      by_contra h; exact hrem (Or.inr h)
    have hfull : ¬ 1 ≤ s.1.getRemaining := fun h => hrem (Or.inl h)
    obtain ⟨k, hk⟩ : ∃ k, k = min (stop - i) s.1.getRemaining := ⟨_, rfl⟩
    have ek : k + i - i = k := by omega
    have hk0 : k.toNat = 0 := by omega
    have hi1 : (if i < k + i then k + i else i) = i := by
      split <;> omega
    obtain ⟨s2, f1, f2, f3⟩ := hflush (s.1, s.2) hinv
    obtain ⟨s3, g1, g2, g3, g4⟩ := serializeLoopTraced_ok inv flush hstore hflush value stop fuel
      i s2 f3 (Or.inl f2) (by omega)
    simp only [serializeLoopTraced, ← hk, ek, hk0, putElementsTraced, hi1, if_pos hlt, f1,
      List.nil_append]
    refine ⟨s3, g1, ?_, ?_⟩
    · intro e he
      rcases List.mem_cons.mp he with h | h
      · subst h
        exact ⟨le_refl _, hlt⟩
      · exact g2 e h
    · simp only [flushIndices, List.pairwise_cons]
      exact ⟨g4, g3⟩

end BasePVByteArray

/-- C20: for every array and range, provided each call of the flush
collaborator returns with at least one byte remaining in the buffer, the
streaming loop of `serialize` ends within `stop - i + 2` rounds and returns
normally; every `putByte` in it is called on an element of the range with at
least one byte remaining, so none raises overflow; the flush collaborator is
called only while elements remain to be written, and at strictly increasing
indices.  `inv` stands for the states in which the flusher is called: it holds
on entry and is kept by the flusher and by a `putByte` under the limit. -/
theorem C20_serialize_loop_terminates {σ : Type} (inv : ByteBuffer × σ → Prop)
    (flush : ByteBuffer × σ → Except String (ByteBuffer × σ)) (value : Mem) (stop i : Int)
    (s : ByteBuffer × σ) (fuel : Nat) (hinv : inv s)
    (hstore : ∀ (t : ByteBuffer × σ) (x : Nat), inv t → t.1.position < t.1.limit →
      inv (t.1.store x, t.2))
    (hflush : ∀ t, inv t → ∃ t1, flush t = .ok t1 ∧ 1 ≤ t1.1.getRemaining ∧ inv t1)
    (hfuel : (stop - i).toNat + 2 ≤ fuel) :
    (BasePVByteArray.serializeLoopTraced flush value stop fuel i s).1 =
      BasePVByteArray.serializeLoop flush value stop fuel i s ∧
    (∃ s1, BasePVByteArray.serializeLoop flush value stop fuel i s = some (.ok s1)) ∧
    (∀ e ∈ (BasePVByteArray.serializeLoopTraced flush value stop fuel i s).2,
      e.InOrder i stop) ∧
    (flushIndices (BasePVByteArray.serializeLoopTraced flush value stop fuel i s).2).Pairwise
      (· < ·) := by
  obtain ⟨s1, g1, g2, g3⟩ := BasePVByteArray.serializeLoopTraced_ok_any inv flush hstore hflush
    value stop fuel i s hinv hfuel
  have h := BasePVByteArray.serializeLoopTraced_fst flush value stop fuel i s
  exact ⟨h, ⟨s1, by rw [← h]; exact g1⟩, g2, g3⟩

/-- Sample run for C20: five elements through the two-byte buffer with the
draining flusher; the flusher is called at the indices 2 and 4. -/
theorem C20_serialize_loop_terminates_witness :
    Ready (smallBuffer, ([] : List Nat)) ∧
    (BasePVByteArray.serializeLoopTraced drainFlush sampleArray.value 5 7 0
      (smallBuffer, [])).2 =
      [.putByte 0 2, .putByte 1 1, .flush 2, .putByte 2 2, .putByte 3 1, .flush 4,
       .putByte 4 2] ∧
    (∃ s1, BasePVByteArray.serializeLoop drainFlush sampleArray.value 5 7 0
      (smallBuffer, []) = some (.ok s1)) ∧
    (flushIndices (BasePVByteArray.serializeLoopTraced drainFlush sampleArray.value 5 7 0
      (smallBuffer, [])).2).Pairwise (· < ·) := by
  have hs : Ready (smallBuffer, ([] : List Nat)) := by
    simp [Ready, ByteBuffer.CursorInv, ByteBuffer.Allocated, smallBuffer]
  have h := C20_serialize_loop_terminates Ready drainFlush sampleArray.value 5 0
    (smallBuffer, []) 7 hs
    (fun t x ht hlt =>
      ⟨(ByteBuffer.store_ready t.1 x ht.1 ht.2.1 hlt).1,
        (ByteBuffer.store_ready t.1 x ht.1 ht.2.1 hlt).2.1, ht.2.2⟩)
    (fun t ht => by
      obtain ⟨t1, f1, f2, f3, _⟩ := drainFlush_ok t ht
      exact ⟨t1, f1, f3, f2⟩)
    (by decide)
  exact ⟨hs, by decide, h.2.1, h.2.2.2⟩

end pvData
